import Mathlib

/-!
# ttsig: verification development

Shallow embedding of the Go sources of `Skill/ttsig` and theorems about them.

Conventions of the embedding:

* a Go `uint64`, `uint32` or `byte` is a `Nat`; every operation that can leave
  the word range is followed by an explicit `% 2 ^ w`;
* a Go `int` is an `Int`;
* a Go slice or array of words or bytes is a `List Nat`;
* an index into a slice that Go would reject with a run-time panic is an
  `Option` lookup that yields `none`; an index into a local array of fixed size,
  kept in range by the bounds of its loop, is a plain lookup;
* a Go `string` is the list of its bytes, and a value of type `any` is a `Value`,
  a sum over the dynamic types that the code distinguishes;
* a call that can return an error ends in an `Outcome`: a value, a returned
  error, or a panic;
* the functions of the Go standard library that the payload builder calls
  (`md5`, `aes`, `cipher`, `base64`, `hex`, `url`) are the fields of an `Env`,
  and a theorem names the contracts of the library it relies on;
* a loop is a fold over its index range, or a recursive function whose
  termination is proved.
-/

namespace Ttsig

/-! ## `crypto/simon.go` -/

namespace Simon

/-- The all-ones 64-bit word; Go's unary `^x` on a `uint64` is `x xor mask64`. -/
def mask64 : Nat := 0xFFFFFFFFFFFFFFFF

/-- Go `getBit`: `(val >> pos) & 1`. -/
def getBit (val pos : Nat) : Nat := (val >>> pos) &&& 1

/-- Go `bits.RotateLeft64(v, k)` for a non-negative `k`: with `s = k & 63` it is
`v<<s | v>>(64-s)` on 64-bit words. -/
def rotateLeft (v n : Nat) : Nat :=
  ((v <<< (n % 64)) % 2 ^ 64) ||| (v >>> (64 - n % 64))

/-- Go `rotateRight`: `bits.RotateLeft64(v, -int(n))`, whose shift is
`uint(-n) & 63`, that is `(64 - n % 64) % 64`. -/
def rotateRight (v n : Nat) : Nat :=
  ((v <<< ((64 - n % 64) % 64)) % 2 ^ 64) ||| (v >>> (64 - (64 - n % 64) % 64))

/-- The constant `z` of `keyExpansion`. -/
def z : Nat := 0x3DC94C3A046D678B

/-- One iteration of the loop of `keyExpansion`, at index `i`. Each slice access
is a checked lookup. -/
def keyExpansionStep (key : List Nat) (i : Nat) : Option (List Nat) := do
  let k1 ← key[i - 1]?
  let k3 ← key[i - 3]?
  let k4 ← key[i - 4]?
  let tmp := rotateRight k1 3
  let tmp := tmp ^^^ k3
  let tmp := tmp ^^^ rotateRight tmp 1
  let bit := getBit z ((i - 4) % 62)
  if i < key.length then
    some (key.set i ((k4 ^^^ mask64) ^^^ tmp ^^^ bit ^^^ 3))
  else
    none

/-- Go `keyExpansion`: `for i := 4; i < 72; i++ { ... }` on the slice `key`. -/
def keyExpansion (key : List Nat) : Option (List Nat) :=
  (List.range' 4 68).foldlM keyExpansionStep key

/-- A Go `[4]uint64`: the four key words `k[0]`, `k[1]`, `k[2]`, `k[3]`. -/
structure Key4 where
  k0 : Nat
  k1 : Nat
  k2 : Nat
  k3 : Nat
  deriving DecidableEq, Repr

/-- The local array `var key [72]uint64` of `SimonEnc` and `SimonDec` after the
four assignments `key[j] = k[j]`: the other 68 words are zero. -/
def initKey (k : Key4) : List Nat :=
  [k.k0, k.k1, k.k2, k.k3] ++ List.replicate 68 0

/-- The round function selector: `rotateLeft(v,1)` when `c == 1`, otherwise
`rotateLeft(v,1) & rotateLeft(v,8)`. -/
def roundF (c : Int) (v : Nat) : Nat :=
  if c = 1 then rotateLeft v 1 else rotateLeft v 1 &&& rotateLeft v 8

/-- Body of the loop of `SimonEnc` at round `i`, on the state `(x, y)`. -/
def encRound (key : List Nat) (c : Int) (s : Nat × Nat) (i : Nat) : Option (Nat × Nat) := do
  let ki ← key[i]?
  let tmp := s.2
  let f := roundF c s.2
  let y := s.1 ^^^ f ^^^ rotateLeft s.2 2 ^^^ ki
  some (tmp, y)

/-- Body of the loop of `SimonDec` at round `i`, on the state `(x, y)`. -/
def decRound (key : List Nat) (c : Int) (s : Nat × Nat) (i : Nat) : Option (Nat × Nat) := do
  let ki ← key[i]?
  let tmp := s.1
  let f := roundF c s.1
  let x := s.2 ^^^ f ^^^ rotateLeft s.1 2 ^^^ ki
  some (x, tmp)

/-- Go `SimonEnc(pt, k, c)`: `pt` is the pair of block words, `k` the four key
words. -/
def SimonEnc (pt : Nat × Nat) (k : Key4) (c : Int) : Option (Nat × Nat) := do
  let key ← keyExpansion (initKey k)
  (List.range 72).foldlM (encRound key c) pt

/-- Go `SimonDec(ct, k, c)`: the rounds run from `i = 71` down to `0`. -/
def SimonDec (ct : Nat × Nat) (k : Key4) (c : Int) : Option (Nat × Nat) := do
  let key ← keyExpansion (initKey k)
  (List.range 72).reverse.foldlM (decRound key c) ct

end Simon

/-! ## `signer/protobuf.go` -/

namespace Signer

/-- Go `ProtoError`: the error value returned by the codec, with its `Msg`. -/
structure ProtoError where
  Msg : String
  deriving DecidableEq, Repr

/-- How a Go call ends: it returns a value, it returns an error value, or it
panics (a run-time panic is not a returned error: nothing in the package
recovers from it). -/
inductive Outcome (α : Type) where
  | ok (a : α)
  | error (e : ProtoError)
  | panic
  deriving DecidableEq, Repr

/-- Go `TypeVarint`. -/
def TypeVarint : Int := 0
/-- Go `TypeInt64`. -/
def TypeInt64 : Int := 1
/-- Go `TypeString`. -/
def TypeString : Int := 2
/-- Go `TypeGroupStart`. -/
def TypeGroupStart : Int := 3
/-- Go `TypeGroupEnd`. -/
def TypeGroupEnd : Int := 4
/-- Go `TypeInt32`. -/
def TypeInt32 : Int := 5
/-- Go `TypeError1`. -/
def TypeError1 : Int := 6
/-- Go `TypeError2`. -/
def TypeError2 : Int := 7

/-- Go `ProtoField`. `Idx` is an `int`, `Type` a `ProtoFieldType` (an `int`),
`IntVal` a `uint64` and `BytesVal` a byte slice. -/
structure ProtoField where
  Idx : Int
  Type_ : Int
  IntVal : Nat
  BytesVal : List Nat
  deriving DecidableEq, Repr

/-- Go conversion `uint64(i)` of an `int`: two's complement. -/
def toUint64 (i : Int) : Nat := (i % 2 ^ 64).toNat

/-- Go conversion `int(u)` of a `uint64`: two's complement. -/
def toInt (u : Nat) : Int := if u % 2 ^ 64 < 2 ^ 63 then (u % 2 ^ 64 : Nat) else (u % 2 ^ 64 : Nat) - 2 ^ 64

/-- Go `binary.LittleEndian.PutUint32`/`PutUint64` on a buffer of `n` bytes:
byte `j` is `byte(v >> (8*j))`. -/
def putLE : Nat → Nat → List Nat
  | 0, _ => []
  | n + 1, v => v % 256 :: putLE n (v / 256)

/-- Go `binary.LittleEndian.Uint32`/`Uint64`: the value
`b[0] | b[1]<<8 | b[2]<<16 | ...` of a little-endian byte sequence. -/
def getLE : List Nat → Nat
  | [] => 0
  | b :: bs => b + 256 * getLE bs

/-! ### `ProtoReader`

The reader is the pair of `data` and `pos`; it is represented by the unread
bytes `data[pos:]`, so `pos + n <= len(data)` reads `n ≤ length`. -/

/-- Go `ProtoReader`, as the unread bytes `data[pos:]`. -/
abbrev ProtoReader := List Nat

/-- Go `NewProtoReader`. -/
def NewProtoReader (b : List Nat) : ProtoReader := b

/-- Go `ProtoReader.remain(n)` for `n ≥ 0`: `r.pos+n <= len(r.data)`. -/
def ProtoReader.remain (r : ProtoReader) (n : Nat) : Bool := n ≤ r.length

/-- Go `ProtoReader.readByte`: panics (`"readByte: EOF"`) when no byte is left. -/
def ProtoReader.readByte (r : ProtoReader) : Outcome (Nat × ProtoReader) :=
  match r with
  | [] => .panic
  | b :: rest => .ok (b, rest)

/-- Go `ProtoReader.read(n)` for an `int` argument: when `!r.remain(n)` it
panics (`"read: EOF"`); a negative `n`, or an `n` so large that `r.pos+n`
wraps round, passes that test and the slice expression `r.data[r.pos:r.pos+n]`
panics instead. Otherwise the next `n` bytes are returned and skipped. -/
def ProtoReader.read (r : ProtoReader) (n : Int) : Outcome (List Nat × ProtoReader) :=
  if n < 0 ∨ (r.length : Int) < n then .panic
  else .ok (r.take n.toNat, r.drop n.toNat)

/-- Go `ProtoReader.ReadInt32`. -/
def ProtoReader.ReadInt32 (r : ProtoReader) : Outcome (Nat × ProtoReader) :=
  match r.read 4 with
  | .ok (bs, r1) => .ok (getLE bs, r1)
  | .error e => .error e
  | .panic => .panic

/-- Go `ProtoReader.ReadInt64`. -/
def ProtoReader.ReadInt64 (r : ProtoReader) : Outcome (Nat × ProtoReader) :=
  match r.read 8 with
  | .ok (bs, r1) => .ok (getLE bs, r1)
  | .error e => .error e
  | .panic => .panic

/-- The loop of Go `ReadVarint`, with the current `v` and `shift`:
`b := r.readByte(); v |= uint64(b&0x7F) << shift; if b < 0x80 { break }; shift += 7`.
The call of `readByte` is written out: it panics on an empty reader. -/
def ReadVarintLoop (v shift : Nat) : ProtoReader → Outcome (Nat × ProtoReader)
  | [] => .panic
  | b :: rest =>
    let v1 := v ||| (((b &&& 0x7F) <<< shift) % 2 ^ 64)
    if b < 0x80 then .ok (v1, rest) else ReadVarintLoop v1 (shift + 7) rest

/-- Go `ProtoReader.ReadVarint`. -/
def ProtoReader.ReadVarint (r : ProtoReader) : Outcome (Nat × ProtoReader) :=
  ReadVarintLoop 0 0 r

/-- Go `ProtoReader.ReadString`: `l := r.ReadVarint(); return r.read(int(l))`. -/
def ProtoReader.ReadString (r : ProtoReader) : Outcome (List Nat × ProtoReader) :=
  match r.ReadVarint with
  | .ok (l, r1) => r1.read (toInt l)
  | .error e => .error e
  | .panic => .panic

/-! ### `ProtoWriter`

The writer is its only field `data`, the bytes written so far. -/

/-- Go `ProtoWriter`, as its field `data`. -/
abbrev ProtoWriter := List Nat

/-- Go `NewProtoWriter`. -/
def NewProtoWriter : ProtoWriter := []

/-- Go `ProtoWriter.writeByte`. -/
def ProtoWriter.writeByte (w : ProtoWriter) (b : Nat) : ProtoWriter := w ++ [b]

/-- Go `ProtoWriter.write`. -/
def ProtoWriter.write (w : ProtoWriter) (bs : List Nat) : ProtoWriter := w ++ bs

/-- Go `ProtoWriter.WriteInt32(v)` for a `uint32` `v`. -/
def ProtoWriter.WriteInt32 (w : ProtoWriter) (v : Nat) : ProtoWriter := w.write (putLE 4 v)

/-- Go `ProtoWriter.WriteInt64(v)` for a `uint64` `v`. -/
def ProtoWriter.WriteInt64 (w : ProtoWriter) (v : Nat) : ProtoWriter := w.write (putLE 8 v)

/-- The loop and the final write of Go `WriteVarint`, after the mask:
`for v > 0x80 { w.writeByte(byte(v&0x7F) | 0x80); v >>= 7 }; w.writeByte(byte(v & 0x7F))`. -/
def WriteVarintLoop (w : ProtoWriter) (v : Nat) : ProtoWriter :=
  if h : v > 0x80 then
    WriteVarintLoop (w.writeByte ((v &&& 0x7F) % 256 ||| 0x80)) (v >>> 7)
  else
    w.writeByte ((v &&& 0x7F) % 256)
termination_by v
decreasing_by
  simp only [Nat.shiftRight_eq_div_pow]
  omega

/-- Go `ProtoWriter.WriteVarint`: `v &= 0xFFFFFFFF`, then the loop. -/
def ProtoWriter.WriteVarint (w : ProtoWriter) (v : Nat) : ProtoWriter :=
  WriteVarintLoop w (v &&& 0xFFFFFFFF)

/-- Go `ProtoWriter.WriteString`. -/
def ProtoWriter.WriteString (w : ProtoWriter) (b : List Nat) : ProtoWriter :=
  (w.WriteVarint b.length).write b

/-- Go `ProtoWriter.Bytes`: a copy of `data`. -/
def ProtoWriter.Bytes (w : ProtoWriter) : List Nat := w

/-- The bytes that `WriteVarint(v)` appends to an empty writer. -/
def varintBytes (v : Nat) : List Nat := (NewProtoWriter.WriteVarint v).Bytes

/-! ### `ProtoBuf` -/

/-- Go `ProtoBuf`: the list `Fields`. -/
abbrev ProtoBuf := List ProtoField

/-- Go `ProtoBuf.Put`: append to `Fields`. -/
def ProtoBuf.Put (pb : ProtoBuf) (f : ProtoField) : ProtoBuf := pb ++ [f]

/-- The loop of Go `ProtoBuf.ToBytes` over the remaining fields, with the writer
`w`. The `switch` is tried in the order of the source. -/
def ToBytesLoop (w : ProtoWriter) : List ProtoField → Outcome (List Nat)
  | [] => .ok w.Bytes
  | f :: fs =>
    let key := ((toUint64 f.Idx <<< 3) % 2 ^ 64) ||| toUint64 f.Type_
    let w1 := w.WriteVarint key
    if f.Type_ = TypeInt32 then ToBytesLoop (w1.WriteInt32 (f.IntVal % 2 ^ 32)) fs
    else if f.Type_ = TypeInt64 then ToBytesLoop (w1.WriteInt64 f.IntVal) fs
    else if f.Type_ = TypeVarint then ToBytesLoop (w1.WriteVarint f.IntVal) fs
    else if f.Type_ = TypeString then ToBytesLoop (w1.WriteString f.BytesVal) fs
    else .error ⟨"unexpected field type in encoder"⟩

/-- Go `ProtoBuf.ToBytes`. -/
def ProtoBuf.ToBytes (pb : ProtoBuf) : Outcome (List Nat) :=
  ToBytesLoop NewProtoWriter pb


/-- The `switch ftype` of Go `ProtoBuf.parseBytes` for a tag with index `idx`:
it reads the value of the field from `r` and builds the field that is `Put`,
or returns the error of the `default` case. -/
def parseField (idx ftype : Int) (r : ProtoReader) : Outcome (ProtoField × ProtoReader) :=
  if ftype = TypeInt32 then
    match r.ReadInt32 with
    | .ok (val, r2) => .ok (⟨idx, ftype, val, []⟩, r2)
    | .error e => .error e
    | .panic => .panic
  else if ftype = TypeInt64 then
    match r.ReadInt64 with
    | .ok (val, r2) => .ok (⟨idx, ftype, val, []⟩, r2)
    | .error e => .error e
    | .panic => .panic
  else if ftype = TypeVarint then
    match r.ReadVarint with
    | .ok (val, r2) => .ok (⟨idx, ftype, val, []⟩, r2)
    | .error e => .error e
    | .panic => .panic
  else if ftype = TypeString then
    match r.ReadString with
    | .ok (val, r2) => .ok (⟨idx, ftype, 0, val⟩, r2)
    | .error e => .error e
    | .panic => .panic
  else .error ⟨"unexpected protobuf field type"⟩

/-- The loop of Go `ProtoBuf.parseBytes`: `r` is the reader and `pb` the fields
put so far. (The `fmt.Printf` trace of each tag is not part of the result.) -/
def parseLoop (r : ProtoReader) (pb : ProtoBuf) : Outcome ProtoBuf :=
  if r.remain 1 then
    match h : r.ReadVarint with
    | .panic => .panic
    | .error e => .error e
    | .ok (key, r1) =>
      let ftype : Int := ((key &&& 7 : Nat) : Int)
      let idx : Int := toInt (key >>> 3)
      if idx = 0 then .ok pb
      else
        match h2 : parseField idx ftype r1 with
        | .ok (f, r2) => parseLoop r2 (pb.Put f)
        | .error e => .error e
        | .panic => .panic
  else .ok pb
termination_by r.length
decreasing_by
  have hv : ∀ (l : List Nat) (v s x : Nat) (l1 : List Nat),
      ReadVarintLoop v s l = .ok (x, l1) → l1.length < l.length := by
    intro l
    induction l with
    | nil => intro v s x l1 hl; simp [ReadVarintLoop] at hl
    | cons b t ih =>
      intro v s x l1 hl
      simp only [ReadVarintLoop] at hl
      split at hl
      · simp only [Outcome.ok.injEq, Prod.mk.injEq] at hl
        simp [← hl.2]
      · have := ih _ _ _ _ hl
        simp only [List.length_cons]
        omega
  have hr : ∀ (l : List Nat) (n : Int) (x l1 : List Nat),
      ProtoReader.read l n = .ok (x, l1) → l1.length ≤ l.length := by
    intro l n x l1 hl
    simp only [ProtoReader.read] at hl
    split at hl
    · simp at hl
    · simp only [Outcome.ok.injEq, Prod.mk.injEq] at hl
      simp [← hl.2]
  have h32 : ∀ (l : List Nat) (x : Nat) (l1 : List Nat),
      ProtoReader.ReadInt32 l = .ok (x, l1) → l1.length ≤ l.length := by
    intro l x l1 hl
    unfold ProtoReader.ReadInt32 at hl
    cases hq : ProtoReader.read l 4 with
    | ok p =>
      rw [hq] at hl
      simp only [Outcome.ok.injEq, Prod.mk.injEq] at hl
      rw [← hl.2]
      exact hr _ _ _ _ hq
    | error e => rw [hq] at hl; cases hl
    | panic => rw [hq] at hl; cases hl
  have h64 : ∀ (l : List Nat) (x : Nat) (l1 : List Nat),
      ProtoReader.ReadInt64 l = .ok (x, l1) → l1.length ≤ l.length := by
    intro l x l1 hl
    unfold ProtoReader.ReadInt64 at hl
    cases hq : ProtoReader.read l 8 with
    | ok p =>
      rw [hq] at hl
      simp only [Outcome.ok.injEq, Prod.mk.injEq] at hl
      rw [← hl.2]
      exact hr _ _ _ _ hq
    | error e => rw [hq] at hl; cases hl
    | panic => rw [hq] at hl; cases hl
  have hs : ∀ (l : List Nat) (x l1 : List Nat),
      ProtoReader.ReadString l = .ok (x, l1) → l1.length ≤ l.length := by
    intro l x l1 hl
    unfold ProtoReader.ReadString at hl
    cases hq : ProtoReader.ReadVarint l with
    | ok p =>
      rw [hq] at hl
      have h5 := hv _ _ _ _ _ hq
      have h6 := hr _ _ _ _ hl
      omega
    | error e => rw [hq] at hl; cases hl
    | panic => rw [hq] at hl; cases hl
  have h1 := hv _ _ _ _ _ h
  have h3 : r2.length ≤ r1.length := by
    unfold parseField at h2
    split at h2
    · cases hq : ProtoReader.ReadInt32 r1 with
      | ok p =>
        rw [hq] at h2
        simp only [Outcome.ok.injEq, Prod.mk.injEq] at h2
        rw [← h2.2]
        exact h32 _ _ _ hq
      | error e => rw [hq] at h2; cases h2
      | panic => rw [hq] at h2; cases h2
    · split at h2
      · cases hq : ProtoReader.ReadInt64 r1 with
        | ok p =>
          rw [hq] at h2
          simp only [Outcome.ok.injEq, Prod.mk.injEq] at h2
          rw [← h2.2]
          exact h64 _ _ _ hq
        | error e => rw [hq] at h2; cases h2
        | panic => rw [hq] at h2; cases h2
      · split at h2
        · cases hq : ProtoReader.ReadVarint r1 with
          | ok p =>
            rw [hq] at h2
            simp only [Outcome.ok.injEq, Prod.mk.injEq] at h2
            rw [← h2.2]
            exact Nat.le_of_lt (hv _ _ _ _ _ hq)
          | error e => rw [hq] at h2; cases h2
          | panic => rw [hq] at h2; cases h2
        · split at h2
          · cases hq : ProtoReader.ReadString r1 with
            | ok p =>
              rw [hq] at h2
              simp only [Outcome.ok.injEq, Prod.mk.injEq] at h2
              rw [← h2.2]
              exact hs _ _ _ hq
            | error e => rw [hq] at h2; cases h2
            | panic => rw [hq] at h2; cases h2
          · cases h2
  omega

/-- Go `ProtoBuf.parseBytes` on the message `pb`. -/
def ProtoBuf.parseBytes (pb : ProtoBuf) (data : List Nat) : Outcome ProtoBuf :=
  parseLoop (NewProtoReader data) pb

/-- Go `NewProtoBufFromBytes`: the message, or the error of `parseBytes`. -/
def NewProtoBufFromBytes (data : List Nat) : Outcome ProtoBuf :=
  if data.length > 0 then
    match ProtoBuf.parseBytes [] data with
    | .ok pb => .ok pb
    | .error e => .error e
    | .panic => .panic
  else .ok []

end Signer

/-! ## `crypto/sm3.go` -/

namespace Sm3

/-- A Go `[8]uint32`: the chaining value, or the registers `A` to `H`. -/
structure Regs where
  A : Nat
  B : Nat
  C : Nat
  D : Nat
  E : Nat
  F : Nat
  G : Nat
  H : Nat
  deriving DecidableEq, Repr

/-- Go `SM3`: the initial chaining value `iv` and the table `tj` of 64 round
constants. -/
structure SM3 where
  iv : Regs
  tj : List Nat
  deriving DecidableEq, Repr

/-- Go `New`: `tj[i]` is `2043430169` for `i < 16` and `2055708042` for
`16 ≤ i < 64`. -/
def New : SM3 :=
  { iv := ⟨1937774191, 1226093241, 388252375, 3666478592,
           2842636476, 372324522, 3817729613, 2969243214⟩
    tj := (List.range 64).map (fun i => if i < 16 then 2043430169 else 2055708042) }

/-- Go `SM3.rotateLeft(x, k)` on a `uint32`, for `k ≥ 0`:
`k = k % 32; ((x << k) & 0xFFFFFFFF) | ((x & 0xFFFFFFFF) >> (32 - k))`. -/
def rotateLeft (x k : Nat) : Nat :=
  (((x <<< (k % 32)) % 2 ^ 32) &&& 0xFFFFFFFF) ||| ((x &&& 0xFFFFFFFF) >>> (32 - k % 32))

/-- Go `SM3.ffj`. -/
def ffj (x y z j : Nat) : Nat :=
  if j < 16 then x ^^^ y ^^^ z else (x &&& y) ||| (x &&& z) ||| (y &&& z)

/-- Go `SM3.ggj`; `^x` on a `uint32` is `x xor 0xFFFFFFFF`. -/
def ggj (x y z j : Nat) : Nat :=
  if j < 16 then x ^^^ y ^^^ z else (x &&& y) ||| ((x ^^^ 0xFFFFFFFF) &&& z)

/-- Go `SM3.p0`. -/
def p0 (x : Nat) : Nat := x ^^^ rotateLeft x 9 ^^^ rotateLeft x 17

/-- Go `SM3.p1`. -/
def p1 (x : Nat) : Nat := x ^^^ rotateLeft x 15 ^^^ rotateLeft x 23

/-- Step 1 of `cf` at index `i`: `W[i]` is the big-endian word of the bytes
`Bi[4i .. 4i+3]`; each access to the slice `Bi` is checked. -/
def loadWord (Bi : List Nat) (W : List Nat) (i : Nat) : Option (List Nat) := do
  let b0 ← Bi[i * 4]?
  let b1 ← Bi[i * 4 + 1]?
  let b2 ← Bi[i * 4 + 2]?
  let b3 ← Bi[i * 4 + 3]?
  some (W.set i (((b0 <<< 24) % 2 ^ 32) ||| ((b1 <<< 16) % 2 ^ 32) ||| ((b2 <<< 8) % 2 ^ 32) ||| b3))

/-- Step 2 of `cf` at index `j`, on the local array `W`. -/
def expandWord (W : List Nat) (j : Nat) : List Nat :=
  W.set j (p1 (W.getD (j - 16) 0 ^^^ W.getD (j - 9) 0 ^^^ rotateLeft (W.getD (j - 3) 0) 15) ^^^
    rotateLeft (W.getD (j - 13) 0) 7 ^^^
    W.getD (j - 6) 0)

/-- Step 3 of `cf` at index `j`, on the local array `W1`. -/
def deriveWord (W : List Nat) (W1 : List Nat) (j : Nat) : List Nat :=
  W1.set j (W.getD j 0 ^^^ W.getD (j + 4) 0)

/-- Step 5 of `cf`: round `j` on the registers. -/
def round (s : SM3) (W W1 : List Nat) (r : Regs) (j : Nat) : Regs :=
  let SS1 := rotateLeft (((rotateLeft r.A 12 + r.E + rotateLeft (s.tj.getD j 0) j) % 2 ^ 32) &&& 0xFFFFFFFF) 7
  let SS2 := SS1 ^^^ rotateLeft r.A 12
  let TT1 := ((ffj r.A r.B r.C j + r.D + SS2 + W1.getD j 0) % 2 ^ 32) &&& 0xFFFFFFFF
  let TT2 := ((ggj r.E r.F r.G j + r.H + SS1 + W.getD j 0) % 2 ^ 32) &&& 0xFFFFFFFF
  { A := TT1, B := r.A, C := rotateLeft r.B 9, D := r.C,
    E := p0 TT2, F := r.E, G := rotateLeft r.F 19, H := r.G }

/-- Go `SM3.cf(Vi, Bi)`. -/
def cf (s : SM3) (Vi : Regs) (Bi : List Nat) : Option Regs := do
  let W ← (List.range 16).foldlM (loadWord Bi) (List.replicate 68 0)
  let W := (List.range' 16 52).foldl expandWord W
  let W1 := (List.range 64).foldl (deriveWord W) (List.replicate 64 0)
  let r := (List.range 64).foldl (round s W W1) Vi
  some { A := r.A ^^^ Vi.A, B := r.B ^^^ Vi.B, C := r.C ^^^ Vi.C, D := r.D ^^^ Vi.D,
         E := r.E ^^^ Vi.E, F := r.F ^^^ Vi.F, G := r.G ^^^ Vi.G, H := r.H ^^^ Vi.H }

/-- The padding loop of `sm3Hash`: `for (len(m) % 64) != 56 { m = append(m, 0x00) }`. -/
def padZeros (m : List Nat) : List Nat :=
  if h : m.length % 64 ≠ 56 then padZeros (m ++ [0]) else m
termination_by (120 - m.length % 64) % 64
decreasing_by
  simp only [List.length_append, List.length_singleton]
  omega

/-- The eight bytes `blk` of `sm3Hash`: `blk[7-i] = byte(bitLen >> (8*i))`. -/
def lengthBlock (bitLen : Nat) : List Nat :=
  (List.range 8).foldl (fun blk i => blk.set (7 - i) ((bitLen >>> (8 * i)) % 256)) (List.replicate 8 0)

/-- The padded message of `sm3Hash`: the copy of `msg`, the byte `0x80`, the
zero bytes of the padding loop, and the block of the bit length, which is the
`uint64` product `uint64(len(m)) * 8`. -/
def padMessage (msg : List Nat) : List Nat :=
  let m := msg
  let bitLen := (m.length * 8) % 2 ^ 64
  let m := m ++ [0x80]
  let m := padZeros m
  m ++ lengthBlock bitLen

/-- The block loop of `sm3Hash` at index `i`: `block := m[i*64 : (i+1)*64]`, a
checked slice expression, then `V = s.cf(V, block)`. -/
def blockStep (s : SM3) (m : List Nat) (V : Regs) (i : Nat) : Option Regs :=
  if (i + 1) * 64 ≤ m.length then cf s V ((m.drop (i * 64)).take 64) else none

/-- The output loop of `sm3Hash`: each word of `V` as four big-endian bytes. -/
def digestBytes (V : Regs) : List Nat :=
  [V.A, V.B, V.C, V.D, V.E, V.F, V.G, V.H].flatMap
    (fun v => [(v >>> 24) % 256, (v >>> 16) % 256, (v >>> 8) % 256, v % 256])

/-- Go `SM3.sm3Hash`. -/
def sm3Hash (s : SM3) (msg : List Nat) : Option (List Nat) := do
  let m := padMessage msg
  let blockCount := m.length / 64
  let V ← (List.range blockCount).foldlM (blockStep s m) s.iv
  some (digestBytes V)

/-- Go `SM3.Hash`. -/
def Hash (s : SM3) (msg : List Nat) : Option (List Nat) := sm3Hash s msg

end Sm3

/-! ## `signer/argus.go` -/

namespace Signer

/-- Go `pkcs7Pad(data, blockSize)`: `pad := blockSize - len(data)%blockSize`, then
`pad` bytes `byte(pad)` are appended. A zero `blockSize` is a division by zero
and a negative `pad` a negative `bytes.Repeat` count: both panic (`none`). -/
def pkcs7Pad (data : List Nat) (blockSize : Int) : Option (List Nat) :=
  if blockSize = 0 then none
  else
    let pad : Int := blockSize - Int.tmod (data.length : Int) blockSize
    if pad < 0 then none
    else some (data ++ List.replicate pad.toNat (pad % 256).toNat)


/-! ### The writing helpers of `protobuf.go` -/

/-- Go `ProtoBuf.PutVarint`. -/
def ProtoBuf.PutVarint (pb : ProtoBuf) (idx : Int) (v : Nat) : ProtoBuf :=
  pb.Put ⟨idx, TypeVarint, v, []⟩

/-- Go `ProtoBuf.PutBytes`. -/
def ProtoBuf.PutBytes (pb : ProtoBuf) (idx : Int) (b : List Nat) : ProtoBuf :=
  pb.Put ⟨idx, TypeString, 0, b⟩

/-- Go `ProtoBuf.PutUtf8`; a Go string is its sequence of bytes, so `[]byte(s)` is `s`. -/
def ProtoBuf.PutUtf8 (pb : ProtoBuf) (idx : Int) (s : List Nat) : ProtoBuf :=
  pb.Put ⟨idx, TypeString, 0, s⟩

/-! ### The payload builder

A Go `string` is the list of its bytes. The packages of the standard library
that `argus.go` calls are parameters of the embedding, gathered in `Env`. -/

/-- The bytes of a string literal of the source (ASCII). -/
def str (s : String) : List Nat := s.toList.map Char.toNat

/-- The functions of the Go standard library used by `argus.go`. -/
structure Env where
  /-- The digest `md5.Sum(data)`, a `[16]byte`. -/
  md5Sum : List Nat → List Nat
  /-- The CBC encrypter `cipher.NewCBCEncrypter(aes.NewCipher(key), iv).CryptBlocks(out, src)`:
  the bytes written to `out`, for the arguments `key`, `iv`, `src`. -/
  cryptBlocks : List Nat → List Nat → List Nat → List Nat
  /-- The encoder `base64.StdEncoding.EncodeToString`. -/
  base64Encode : List Nat → String
  /-- The bytes returned by `hex.DecodeString` (its error is dropped by the caller). -/
  hexDecode : List Nat → List Nat
  /-- The values that `url.ParseQuery(query)` holds for a key, in order (its
  error is dropped by the caller); no value when the key is absent. -/
  parseQuery : List Nat → List Nat → List (List Nat)

/-- A Go value of type `any`, by its dynamic type: the types that the type
switches of `Encrypt` name, `int32` (the type of `rand.Int31()`), the nil
interface (also the result of `x[k]` for a key without entry), and `other` for
every other dynamic type. -/
inductive Value where
  | nil
  | int (v : Int)
  | int64 (v : Int)
  | uint64 (v : Nat)
  | string (s : List Nat)
  | bytes (b : List Nat)
  | map (m : Int → Value)
  | int32 (v : Int)
  | other

/-- A Go `map[int]any`: the value at each key, `Value.nil` where there is no entry. -/
abbrev AnyMap := Int → Value

/-- A map literal `map[int]any{k1: v1, ...}` with distinct keys. -/
def mapLit (entries : List (Int × Value)) : AnyMap :=
  fun k => (entries.lookup k).getD Value.nil

/-- A checked slice expression `l[a:b]` on a slice whose capacity is its length. -/
def slice (l : List Nat) (a b : Nat) : Option (List Nat) :=
  if a ≤ b ∧ b ≤ l.length then some ((l.drop a).take (b - a)) else none

/-- Go `binary.LittleEndian.PutUint64(buf[off:], v)`: panics (`none`) unless 8
bytes are left from `off`. -/
def putUint64At (buf : List Nat) (off v : Nat) : Option (List Nat) :=
  if off + 8 ≤ buf.length then some (buf.take off ++ putLE 8 v ++ buf.drop (off + 8)) else none

/-- The first loop of `encryptEncPB` at index `i`: `out[i] ^= x[i%8]`, where `x`
is the slice `out[:8]`, which shares its bytes with `out`. -/
def xorStep (out : List Nat) (i : Nat) : Option (List Nat) := do
  let a ← out[i]?
  let b ← out[i % 8]?
  some (out.set i (a ^^^ b))

/-- The second loop of `encryptEncPB` at index `i`, with `j = len(out)-1-i`:
`out[i], out[j] = out[j], out[i]`. -/
def swapStep (out : List Nat) (i : Nat) : Option (List Nat) := do
  let a ← out[i]?
  let b ← out[out.length - 1 - i]?
  some ((out.set i b).set (out.length - 1 - i) a)

/-- Go `encryptEncPB(data, l)`. The slice expression `out[:8]` panics when `out`
has fewer than 8 bytes; the first loop runs for `i` from `8` below `l`; the
second loop runs while `i < j`, that is for `i` below `len(out) / 2`. -/
def encryptEncPB (data : List Nat) (l : Int) : Option (List Nat) := do
  let out := data
  if out.length < 8 then none
  else
    let out ← (List.range' 8 (l.toNat - 8)).foldlM xorStep out
    (List.range (out.length / 2)).foldlM swapStep out

/-- Go `GetBodyHash(stub)`; `none` is a panic. -/
def GetBodyHash (E : Env) (stub : List Nat) : Option (List Nat) := do
  let h := Sm3.New
  if stub = [] then
    let data := List.replicate 16 0
    let out ← Sm3.Hash h data
    slice out 0 6
  else
    let data := E.hexDecode stub
    let out ← Sm3.Hash h data
    slice out 0 6

/-- Go `GetQueryHash(query)`; `none` is a panic. -/
def GetQueryHash (query : List Nat) : Option (List Nat) := do
  let h := Sm3.New
  if query = [] then
    let data := List.replicate 16 0
    let out ← Sm3.Hash h data
    slice out 0 6
  else
    let data := query
    let out ← Sm3.Hash h data
    slice out 0 6

/-- Go `aesCBCEncrypt(key, iv, plaintext)`. `aes.NewCipher` returns an error
(kept here by its message) unless the key has 16, 24 or 32 bytes;
`cipher.NewCBCEncrypter` panics unless the `iv` has 16 bytes; `CryptBlocks` is
applied to the padded plaintext. -/
def aesCBCEncrypt (E : Env) (key iv plaintext : List Nat) : Outcome (List Nat) :=
  if key.length ≠ 16 ∧ key.length ≠ 24 ∧ key.length ≠ 32 then
    .error ⟨"crypto/aes: invalid key size " ++ toString key.length⟩
  else
    match pkcs7Pad plaintext 16 with
    | none => .panic
    | some padded =>
      if iv.length ≠ 16 then .panic
      else .ok (E.cryptBlocks key iv padded)

/-- The key list `keys` of `Encrypt`. -/
def allowKeys : List Int := [1, 2, 3, 4, 5, 6, 7, 8, 9, 10, 12, 13, 14, 16, 20, 21, 25]

/-- The key list `subKeys` of `Encrypt`: it is empty in the source. -/
def subKeys : List Int := []

/-- The inner type switch of `Encrypt`, on the value `vv` at the key `kk` of a
nested map. -/
def putSubValue (sub : ProtoBuf) (kk : Int) (vv : Value) : ProtoBuf :=
  match vv with
  | .int tv => sub.PutVarint kk (toUint64 tv)
  | .int64 tv => sub.PutVarint kk (toUint64 tv)
  | .uint64 tv => sub.PutVarint kk tv
  | .string tv => sub.PutUtf8 kk tv
  | .bytes tv => sub.PutBytes kk tv
  | _ => sub

/-- The type switch of `Encrypt`, on the value `v` at the key `k`. For a nested
map the bytes of the sub-message are put; `subBytes, _ := sub.ToBytes()` keeps
nil bytes when `ToBytes` fails. -/
def putValue (pb : ProtoBuf) (k : Int) (v : Value) : ProtoBuf :=
  match v with
  | .int t => pb.PutVarint k (toUint64 t)
  | .int64 t => pb.PutVarint k (toUint64 t)
  | .uint64 t => pb.PutVarint k t
  | .string t => pb.PutUtf8 k t
  | .bytes t => pb.PutBytes k t
  | .map t =>
    let sub := subKeys.foldl (fun sub kk => putSubValue sub kk (t kk)) ([] : ProtoBuf)
    let subBytes := match sub.ToBytes with
      | .ok b => b
      | _ => []
    pb.PutBytes k subBytes
  | _ => pb

/-- The message `pb` that `Encrypt` builds from the map `x`:
`for _, k := range keys { v := x[k]; switch t := v.(type) {...} }`. -/
def buildMessage (x : AnyMap) : ProtoBuf :=
  allowKeys.foldl (fun pb k => putValue pb k (x k)) []

/-- The constant `signKey` of `Encrypt`. -/
def signKey : List Nat :=
  [0xac, 0x1a, 0xda, 0xae, 0x95, 0xa7, 0xaf, 0x94,
   0xa5, 0x11, 0x4a, 0xb3, 0xb3, 0xa9, 0x7d, 0xd8,
   0x00, 0x50, 0xaa, 0x0a, 0x39, 0x31, 0x4c, 0x40,
   0x52, 0x8c, 0xae, 0xc9, 0x52, 0x56, 0xc2, 0x8c]

/-- The constant `sm3Output` of `Encrypt`. -/
def sm3Output : List Nat :=
  [0xfc, 0x78, 0xe0, 0xa9, 0x65, 0x7a, 0x0c, 0x74,
   0x8c, 0xe5, 0x15, 0x59, 0x90, 0x3c, 0xcf, 0x03,
   0x51, 0x0e, 0x51, 0xd3, 0xcf, 0xf2, 0x32, 0xd7,
   0x13, 0x43, 0xe8, 0x8a, 0x32, 0x1c, 0x53, 0x04]

/-- The array `keyList` of `Encrypt`: the four little-endian words of `sm3Output`. -/
def keyList : Simon.Key4 :=
  { k0 := getLE ((sm3Output.drop 0).take 8)
    k1 := getLE ((sm3Output.drop 8).take 8)
    k2 := getLE ((sm3Output.drop 16).take 8)
    k3 := getLE ((sm3Output.drop 24).take 8) }

/-- The block loop of `Encrypt` at index `i`: the two words of block `i` of
`protobuf` are encrypted with `SimonEnc` in mode `0` and written to `encPB`. -/
def encryptBlock (protobuf : List Nat) (encPB : List Nat) (i : Nat) : Option (List Nat) := do
  let b0 ← slice protobuf (i * 16) (i * 16 + 8)
  let b1 ← slice protobuf (i * 16 + 8) (i * 16 + 16)
  let pt0 := getLE b0
  let pt1 := getLE b1
  let ct ← Simon.SimonEnc (pt0, pt1) keyList 0
  let encPB ← putUint64At encPB (i * 16) ct.1
  putUint64At encPB (i * 16 + 8) ct.2

/-- The bytes `final` of Go `Encrypt(x)`, before the base64 encoding. -/
def encryptBytes (E : Env) (x : AnyMap) : Outcome (List Nat) :=
  let pb := buildMessage x
  let raw := match pb.ToBytes with
    | .ok b => b
    | _ => []
  match pkcs7Pad raw 16 with
  | none => .panic
  | some protobuf =>
    let n := protobuf.length
    match (List.range (n / 16)).foldlM (encryptBlock protobuf) (List.replicate n 0) with
    | none => .panic
    | some encPB =>
      let buf := [0xf2, 0xf7, 0xfc, 0xff, 0xf2, 0xf7, 0xfc, 0xff] ++ encPB
      match encryptEncPB buf ((n : Int) + 8) with
      | none => .panic
      | some buf =>
        let buf := [0xa6, 0x6e, 0xad, 0x9f, 0x77, 0x01, 0xd0, 0x0c, 0x18] ++ buf
        let buf := buf ++ str "ao"
        let key := E.md5Sum (signKey.take 16)
        let iv := E.md5Sum (signKey.drop 16)
        match aesCBCEncrypt E key iv buf with
        | .error e => .error e
        | .panic => .panic
        | .ok ciphertext => .ok ([0xf2, 0x81] ++ ciphertext)

/-- Go `Encrypt(x)`. -/
def Encrypt (E : Env) (x : AnyMap) : Outcome String :=
  match encryptBytes E x with
  | .ok final => .ok (E.base64Encode final)
  | .error e => .error e
  | .panic => .panic

/-- Go `strconv.Itoa`. -/
def itoa (i : Int) : List Nat := str (toString i)

/-- The map `x` that `GetSign` passes to `Encrypt`; `rnd` is the value of
`rand.Int31()`, `bodyHash` and `queryHash` the results of `GetBodyHash(data)`
and `GetQueryHash(queryhash)`. -/
def signMap (rnd : Int) (deviceID : List Nat) (timestamp aid licenseID : Int)
    (secDeviceID sdkVersion : List Nat) (sdkVersionInt : Int)
    (bodyHash queryHash : List Nat) : AnyMap :=
  mapLit
    [(1, .uint64 ((0x20200929 <<< 1) % 2 ^ 64)),
     (2, .int 2),
     (3, .int32 rnd),
     (4, .string (itoa aid)),
     (5, .string deviceID),
     (6, .string (itoa licenseID)),
     (7, .string (str "39.6.3")),
     (8, .string sdkVersion),
     (9, .int sdkVersionInt),
     (10, .bytes (List.replicate 8 0)),
     (12, .uint64 ((toUint64 timestamp <<< 1) % 2 ^ 64)),
     (13, .bytes bodyHash),
     (14, .bytes queryHash),
     (16, .string secDeviceID),
     (20, .string (str "none")),
     (21, .int 738),
     (25, .int 2)]

/-- Go `GetSign`. The index expression `params["device_id"][0]` panics when the
query has no `device_id`; it is evaluated before the map literal, whose entries
call `rand.Int31()` (the argument `rnd`), `GetBodyHash` and `GetQueryHash`. The
argument `platform` is not used. -/
def GetSign (E : Env) (rnd : Int) (queryhash data : List Nat)
    (timestamp aid licenseID platform : Int) (secDeviceID sdkVersion : List Nat)
    (sdkVersionInt : Int) : Outcome String :=
  let params := E.parseQuery queryhash
  match (params (str "device_id"))[0]? with
  | none => .panic
  | some deviceID =>
    match GetBodyHash E data, GetQueryHash queryhash with
    | some bodyHash, some queryHash =>
      Encrypt E (signMap rnd deviceID timestamp aid licenseID secDeviceID sdkVersion
        sdkVersionInt bodyHash queryHash)
    | _, _ => .panic

/-! ### Stand-ins for the standard library

`sampleEnv` instantiates `Env` for the closed instances of the theorems. Its
`parseQuery` follows `url.ParseQuery`; the other functions only have the
lengths of the library functions. -/

/-- The value of a hexadecimal digit. -/
def unhex (c : Nat) : Option Nat :=
  if 48 ≤ c ∧ c ≤ 57 then some (c - 48)
  else if 97 ≤ c ∧ c ≤ 102 then some (c - 97 + 10)
  else if 65 ≤ c ∧ c ≤ 70 then some (c - 65 + 10)
  else none

/-- Go `url.QueryUnescape`: `%XX` is a byte, `+` a space; `none` for an invalid
escape. -/
def queryUnescape : List Nat → Option (List Nat)
  | [] => some []
  | 37 :: a :: b :: rest => do
    let ha ← unhex a
    let hb ← unhex b
    let r ← queryUnescape rest
    some ((ha * 16 + hb) :: r)
  | 37 :: _ => none
  | 43 :: rest => do
    let r ← queryUnescape rest
    some (32 :: r)
  | c :: rest => do
    let r ← queryUnescape rest
    some (c :: r)

/-- One `&`-separated segment of the loop of `url.ParseQuery`: a segment with a
`;`, an empty segment and a segment with an invalid escape add nothing;
otherwise the value after the first `=` is appended to the values of the key. -/
def parseQuerySegment (m : List Nat → List (List Nat)) (seg : List Nat) :
    List Nat → List (List Nat) :=
  if 59 ∈ seg then m
  else if seg = [] then m
  else
    match queryUnescape (seg.takeWhile (· ≠ 61)), queryUnescape ((seg.dropWhile (· ≠ 61)).drop 1) with
    | some key, some value => fun k => if k = key then m k ++ [value] else m k
    | _, _ => m

/-- Go `url.ParseQuery`, as the values it holds for each key. -/
def urlParseQuery (query : List Nat) : List Nat → List (List Nat) :=
  (query.splitOn 38).foldl parseQuerySegment (fun _ => [])

/-- An environment for closed instances. -/
def sampleEnv : Env :=
  { md5Sum := fun _ => List.replicate 16 0
    cryptBlocks := fun _ _ src => src
    base64Encode := fun b => String.mk (b.map Char.ofNat)
    hexDecode := fun s => s
    parseQuery := urlParseQuery }

/-! ### Predicates and notions used in the statements -/

/-- The values on which the `for v > 0x80` loop of `WriteVarint` ends with a
value other than `0x80`: no 7-bit shift of `w` is exactly `0x80`. For a
`w < 2 ^ 32` the shifts by `0`, `7`, ..., `28` are the only ones that can be. -/
def varintExact (w : Nat) : Prop := ∀ k < 5, w >>> (7 * k) ≠ 0x80

instance : DecidablePred varintExact := fun w => by
  unfold varintExact
  infer_instance


/-- The four field types that the `switch` of `ToBytes` and of `parseBytes`
handles: `TypeVarint`, `TypeInt64`, `TypeString`, `TypeInt32`. -/
def supportedType (t : Int) : Prop :=
  t = TypeVarint ∨ t = TypeInt64 ∨ t = TypeString ∨ t = TypeInt32

instance : DecidablePred supportedType := fun t => by
  unfold supportedType
  infer_instance

/-- Every field of the message has a supported type. -/
def supportedMsg (m : ProtoBuf) : Prop := ∀ f ∈ m, supportedType f.Type_

instance : DecidablePred supportedMsg := fun m => by
  unfold supportedMsg
  infer_instance

/-- The tag of a field as `ToBytes` computes it:
`key := (uint64(f.Idx) << 3) | uint64(f.Type)`. -/
def fieldTag (f : ProtoField) : Nat :=
  ((toUint64 f.Idx <<< 3) % 2 ^ 64) ||| toUint64 f.Type_

/-- The encoding of one field in the words of the specification: the tag
varint `(index << 3) | type`, followed by the value as a varint, as 8
little-endian bytes, as 4 little-endian bytes, or as a varint length and the raw
bytes. -/
def fieldEncoding (f : ProtoField) : List Nat :=
  varintBytes (fieldTag f) ++
    (if f.Type_ = TypeVarint then varintBytes f.IntVal
     else if f.Type_ = TypeInt64 then putLE 8 f.IntVal
     else if f.Type_ = TypeInt32 then putLE 4 f.IntVal
     else varintBytes f.BytesVal.length ++ f.BytesVal)

/-- Two fields carry the same index, type and value; the value of a `String`
field is `BytesVal` and that of the integer types is `IntVal`. -/
def sameField (f g : ProtoField) : Prop :=
  f.Idx = g.Idx ∧ f.Type_ = g.Type_ ∧
    (if f.Type_ = TypeString then f.BytesVal = g.BytesVal else f.IntVal = g.IntVal)

instance (f g : ProtoField) : Decidable (sameField f g) := by
  unfold sameField
  infer_instance

/-- The states of the loop of `parseBytes` on the input `data`: `Reaches data r pb`
says that the head of the loop is reached with the reader `r` and the fields
`pb`. The loop starts on a fresh reader and an empty message; an iteration that
reads a tag with a non-zero index and a field value puts the field. -/
inductive Reaches (data : List Nat) : ProtoReader → ProtoBuf → Prop where
  | start : Reaches data (NewProtoReader data) []
  | step {r : ProtoReader} {pb : ProtoBuf} (key : Nat) (r1 : ProtoReader) (f : ProtoField)
      (r2 : ProtoReader) :
      Reaches data r pb →
      r.remain 1 = true →
      r.ReadVarint = .ok (key, r1) →
      toInt (key >>> 3) ≠ 0 →
      parseField (toInt (key >>> 3)) ((key &&& 7 : Nat) : Int) r1 = .ok (f, r2) →
      Reaches data r2 (pb.Put f)


/-- The fields that the codec carries unchanged, apart from the `0x80` case of
`WriteVarint`: a supported type, an index from `1` whose tag fits in the 32 bits
that `WriteVarint` keeps, a `Varint` or `Int32` value below `2 ^ 32`, an `Int64`
value below `2 ^ 64`, a `String` value shorter than `2 ^ 32` bytes; and every
varint written for the field (the tag, the `Varint` value, the `String` length)
is `varintExact`. -/
def fieldExact (f : ProtoField) : Prop :=
  supportedType f.Type_ ∧ 1 ≤ f.Idx ∧ f.Idx < 2 ^ 29 ∧ varintExact (fieldTag f) ∧
    (if f.Type_ = TypeVarint then f.IntVal < 2 ^ 32 ∧ varintExact f.IntVal
     else if f.Type_ = TypeInt64 then f.IntVal < 2 ^ 64
     else if f.Type_ = TypeInt32 then f.IntVal < 2 ^ 32
     else f.BytesVal.length < 2 ^ 32 ∧ varintExact f.BytesVal.length)

instance : DecidablePred fieldExact := fun f => by
  unfold fieldExact
  infer_instance

end Signer

namespace Sm3

/-- The 8-byte big-endian encoding of `n` in the words of the specification:
the eight low-order bytes of `n`, the most significant first (all of `n` when
`n < 2 ^ 64`). -/
def bigEndian64 (n : Nat) : List Nat :=
  [n / 2 ^ 56 % 256, n / 2 ^ 48 % 256, n / 2 ^ 40 % 256, n / 2 ^ 32 % 256,
   n / 2 ^ 24 % 256, n / 2 ^ 16 % 256, n / 2 ^ 8 % 256, n % 256]

end Sm3

namespace Signer

/-- The field that an entry `(k, v)` of the map contributes to the message, in
the words of the specification: a `Varint` field for an `int`, `int64` or
`uint64`, a `String` field for a string or a byte slice, a `String` field with
an empty value for a nested map, and no field for any other value or for no
value. -/
def valueField (k : Int) (v : Value) : Option ProtoField :=
  match v with
  | .int t => some ⟨k, TypeVarint, toUint64 t, []⟩
  | .int64 t => some ⟨k, TypeVarint, toUint64 t, []⟩
  | .uint64 t => some ⟨k, TypeVarint, t, []⟩
  | .string t => some ⟨k, TypeString, 0, t⟩
  | .bytes t => some ⟨k, TypeString, 0, t⟩
  | .map _ => some ⟨k, TypeString, 0, []⟩
  | _ => none

end Signer

namespace Simon

/-- The word `key[i]` of the round-key schedule in the words of the
specification: `(~key[i-4]) xor t xor bit xor 3`, with
`u = rotateRight(key[i-1], 3) xor key[i-3]`, `t = u xor rotateRight(u, 1)` and
`bit` the bit `(i-4) mod 62` of `0x3DC94C3A046D678B`. -/
def scheduleWord (key : List Nat) (i : Nat) : Nat :=
  let u := rotateRight (key.getD (i - 1) 0) 3 ^^^ key.getD (i - 3) 0
  let t := u ^^^ rotateRight u 1
  let bit := (0x3DC94C3A046D678B >>> ((i - 4) % 62)) &&& 1
  (key.getD (i - 4) 0 ^^^ mask64) ^^^ t ^^^ bit ^^^ 3

/-- A block of two 64-bit words (the Go type of a block is `[2]uint64`). -/
def Block64 (s : Nat × Nat) : Prop := s.1 < 2 ^ 64 ∧ s.2 < 2 ^ 64

/-- The rotation of a 64-bit word `v` to the right by `n` bits, `0 < n < 64`, in
arithmetic: the quotient by `2 ^ n` moves down and the `n` low bits move to the
top. It is written without `rotateRight`. -/
def rotr64 (v n : Nat) : Nat := v / 2 ^ n + v % 2 ^ n * 2 ^ (64 - n)

/-- The word `key[i]` of the round-key schedule in arithmetic, written without
the functions of the embedding: `~key[i-4]` is `2^64 - 1 - key[i-4]`, a rotation
to the right is `rotr64`, and the bit `(i-4) mod 62` of the constant is a
quotient by a power of 2 modulo 2. -/
def scheduleWordArith (key : List Nat) (i : Nat) : Nat :=
  let u := rotr64 (key.getD (i - 1) 0) 3 ^^^ key.getD (i - 3) 0
  let t := u ^^^ rotr64 u 1
  let bit := 0x3DC94C3A046D678B / 2 ^ ((i - 4) % 62) % 2
  (2 ^ 64 - 1 - key.getD (i - 4) 0) ^^^ t ^^^ bit ^^^ 3

end Simon

/-! ## `signer/ladon.go`

The errors of `ladon.go` are made by `fmt.Errorf`; an error is represented by
its message. Lengths and indices are natural numbers: every `int` of the file
that is used as one is non-negative. -/

namespace Signer

/-- How a call of `ladon.go` or of `SignRequest` ends: it returns a value, it
returns an error (with the message of the error), or it panics. -/
inductive Result (α : Type) where
  | ok (a : α)
  | err (msg : String)
  | panic
  deriving DecidableEq, Repr

/-- Sequencing of calls: an error or a panic ends the function. -/
def Result.bind {α β : Type} (x : Result α) (f : α → Result β) : Result β :=
  match x with
  | .ok a => f a
  | .err m => .err m
  | .panic => .panic

instance : Monad Result where
  pure := Result.ok
  bind := Result.bind

/-- The lower-case hexadecimal digit of a value below 16. -/
def hexDigit (d : Nat) : Nat := if d < 10 then 48 + d else 87 + d

/-- Go `fmt.Sprintf("%x", b)` on bytes: two lower-case digits for each byte. -/
def hexLower (b : List Nat) : List Nat :=
  b.flatMap (fun x => [hexDigit (x / 16 % 16), hexDigit (x % 16)])

/-- Go `md5Bytes`. -/
def md5Bytes (E : Env) (data : List Nat) : List Nat := hexLower (E.md5Sum data)

/-- Go `getTypeData`. -/
def getTypeData (buf : List Nat) (index : Nat) (dataType : String) : Result Nat :=
  if dataType ≠ "uint64_t" then .err ("invalid data type: " ++ dataType)
  else
    let offset := index * 8
    if offset + 8 > buf.length then .err "getTypeData: index out of range"
    else .ok (getLE ((buf.drop offset).take 8))

/-- Go `setTypeData`; the value is the buffer after the call. -/
def setTypeData (buf : List Nat) (index : Nat) (data : Nat) (dataType : String) :
    Result (List Nat) :=
  if dataType ≠ "uint64_t" then .err ("invalid data type: " ++ dataType)
  else
    let offset := index * 8
    if offset + 8 > buf.length then .err "setTypeData: index out of range"
    else .ok (buf.take offset ++ putLE 8 data ++ buf.drop (offset + 8))

/-- Go `validate`. -/
def validate (num : Nat) : Nat := num &&& 0xFFFFFFFFFFFFFFFF

/-- Go `ror64`: `bits.RotateLeft64(value, -count)`, whose shift is
`uint(-count) & 63`. -/
def ror64 (value count : Nat) : Nat :=
  ((value <<< ((64 - count % 64) % 64)) % 2 ^ 64) ||| (value >>> (64 - (64 - count % 64) % 64))

/-- Body of the loop of `encryptLadonInput` at round `i`, on `(data0, data1)`. -/
def encryptLadonInputRound (hashTable : List Nat) (s : Nat × Nat) (i : Nat) :
    Result (Nat × Nat) :=
  match getTypeData hashTable i "uint64_t" with
  | .err m => .err m
  | .panic => .panic
  | .ok hash =>
    let data1 := validate (hash ^^^
      ((s.1 + ((s.2 >>> 8) ||| ((s.2 <<< (64 - 8)) % 2 ^ 64))) % 2 ^ 64))
    let data0 := validate (data1 ^^^ ((s.1 >>> 0x3D) ||| ((s.1 <<< (64 - 0x3D)) % 2 ^ 64)))
    .ok (data0, data1)

/-- Go `encryptLadonInput`. -/
def encryptLadonInput (hashTable inputBlock : List Nat) : Result (List Nat) :=
  if inputBlock.length ≠ 16 then .err "encryptLadonInput: input block must be 16 bytes"
  else
    let data0 := getLE (inputBlock.take 8)
    let data1 := getLE ((inputBlock.drop 8).take 8)
    match (List.range 0x22).foldlM (encryptLadonInputRound hashTable) (data0, data1) with
    | .err m => .err m
    | .panic => .panic
    | .ok s => .ok (putLE 8 s.1 ++ putLE 8 s.2)

/-- The variables of the key-schedule loop of `encryptLadon`. -/
structure KeyState where
  hashTable : List Nat
  bufferB0 : Nat
  bufferB8 : Nat
  temp : List Nat

/-- Body of the key-schedule loop of `encryptLadon` at index `i`. -/
def scheduleStep (st : KeyState) (i : Nat) : Result KeyState :=
  let x9 := st.bufferB0
  let x8 := st.bufferB8
  let x8 := validate (ror64 x8 8)
  let x8 := validate ((x8 + x9) % 2 ^ 64)
  let x8 := validate (x8 ^^^ i)
  let temp := st.temp ++ [x8]
  let x8 := validate (x8 ^^^ ror64 x9 61)
  match setTypeData st.hashTable (i + 1) x8 "uint64_t" with
  | .err m => .err m
  | .panic => .panic
  | .ok hashTable =>
    match temp with
    | [] => .panic
    | t0 :: rest => .ok ⟨hashTable, x8, t0, rest⟩

/-- The closure `paddingSize` of `encryptLadon`. -/
def encryptLadon.paddingSize (size : Nat) : Nat :=
  let mod := size % 16
  if mod > 0 then size + (16 - mod) else size

/-- The closure `pkcs7Pad` of `encryptLadon`; the value is the buffer after the
call and the pad byte. A write outside the buffer panics, and so does a zero
modulus. -/
def encryptLadon.pkcs7Pad (buf : List Nat) (dataLen bufferSize modulus : Nat) :
    Result (List Nat × Nat) :=
  if modulus = 0 then .panic
  else
    let padByte := modulus - dataLen % modulus
    if dataLen + padByte > bufferSize then .err "pkcs7Pad: data too large for buffer"
    else
      match (List.range padByte).foldlM (fun (b : List Nat) i =>
          if dataLen + i < b.length then Result.ok (b.set (dataLen + i) (padByte % 256))
          else Result.panic) buf with
      | .err m => .err m
      | .panic => .panic
      | .ok b => .ok (b, padByte)

/-- Go `copy(dst[off:], src)`, as the destination after the call. -/
def copyAt (dst : List Nat) (off : Nat) (src : List Nat) : Result (List Nat) :=
  if off ≤ dst.length then
    .ok (dst.take off ++ src.take (dst.length - off) ++ dst.drop (off + src.length))
  else .panic

/-- Body of the block loop of `encryptLadon` at index `i`. -/
def ladonBlockStep (hashTable input output : List Nat) (i : Nat) : Result (List Nat) :=
  match slice input (i * 16) ((i + 1) * 16) with
  | none => .panic
  | some block =>
    match encryptLadonInput hashTable block with
    | .err m => .err m
    | .panic => .panic
    | .ok enc => copyAt output (i * 16) enc

/-- Go `encryptLadon`. -/
def encryptLadon (md5Hex data : List Nat) : Result (List Nat) :=
  let size := data.length
  let hashTable := md5Hex.take 32 ++ List.replicate (272 + 16 - (md5Hex.take 32).length) 0
  match (List.range 4).foldlM (fun (temp : List Nat) i =>
      match getTypeData hashTable i "uint64_t" with
      | .err m => Result.err m
      | .panic => Result.panic
      | .ok v => Result.ok (temp ++ [v])) [] with
  | .err m => .err m
  | .panic => .panic
  | .ok (bufferB0 :: bufferB8 :: temp) =>
    match (List.range 0x22).foldlM scheduleStep ⟨hashTable, bufferB0, bufferB8, temp⟩ with
    | .err m => .err m
    | .panic => .panic
    | .ok st =>
      let newSize := encryptLadon.paddingSize size
      if size ≤ newSize then
        let input := data ++ List.replicate (newSize - size) 0
        match encryptLadon.pkcs7Pad input size newSize 16 with
        | .err m => .err m
        | .panic => .panic
        | .ok (input, _) =>
          let output := List.replicate newSize 0
          (List.range (newSize / 16)).foldlM (ladonBlockStep st.hashTable input) output
      else .panic
  | .ok _ => .panic

/-- The plaintext of `LadonEncryptWithRandom`:
`fmt.Sprintf("%d-%d-%d", khronos, lcID, aid)`. -/
def ladonData (khronos lcID aid : Int) : List Nat :=
  itoa khronos ++ str "-" ++ itoa lcID ++ str "-" ++ itoa aid

/-- Go `LadonEncryptWithRandom`. -/
def LadonEncryptWithRandom (E : Env) (khronos lcID aid : Int) (randomBytes : List Nat) :
    Result String :=
  let data := ladonData khronos lcID aid
  let keygen := randomBytes ++ itoa aid
  let md5hex := md5Bytes E keygen
  match encryptLadon md5hex data with
  | .err m => .err m
  | .panic => .panic
  | .ok cipher =>
    let out := randomBytes.take 4 ++ List.replicate (4 - (randomBytes.take 4).length) 0 ++ cipher
    .ok (E.base64Encode out)

/-- Go `LadonEncrypt`; `randRead` is the outcome of `rand.Read` on a buffer of
4 bytes: the bytes, or the message of its error. -/
def LadonEncrypt (E : Env) (randRead : Except String (List Nat)) (khronos lcID aid : Int) :
    Result String :=
  match randRead with
  | .error e => .err ("failed to generate random bytes: " ++ e)
  | .ok randBytes => LadonEncryptWithRandom E khronos lcID aid randBytes

/-- Go `Ladon.Encrypt`. -/
def Ladon.Encrypt (E : Env) (randRead : Except String (List Nat)) (xKhronos lcID aid : Int) :
    Result String :=
  LadonEncrypt E randRead xKhronos lcID aid

end Signer

/-! ## `signer/gorgon.go` -/

namespace Signer

/-- A Go `map[string]string` whose keys are header names: the value held for
each key, if any. A header value is a Go string, the list of its bytes. -/
abbrev Headers := String → Option (List Nat)

/-- The empty map `map[string]string{}`. -/
def Headers.empty : Headers := fun _ => none

/-- The assignment `m[k] = v`. -/
def Headers.put (m : Headers) (k : String) (v : List Nat) : Headers :=
  fun k' => if k' = k then some v else m k'

/-- Go `Gorgon`. -/
structure Gorgon where
  Unix : Int
  Params : List Nat
  Data : List Nat
  Cookies : List Nat

/-- Go `md5Hex`: `hex.EncodeToString` of the digest. -/
def md5Hex (E : Env) (s : List Nat) : List Nat := hexLower (E.md5Sum s)

/-- Go `Gorgon.getBaseString`. -/
def Gorgon.getBaseString (E : Env) (g : Gorgon) : List Nat :=
  let base := md5Hex E g.Params
  let base := if g.Data ≠ [] then base ++ md5Hex E g.Data else base ++ List.replicate 32 48
  let base := if g.Cookies ≠ [] then base ++ md5Hex E g.Cookies else base ++ List.replicate 32 48
  base

/-- Go `reverseByte`, on a byte. -/
def reverseByte (b : Nat) : Nat :=
  let hi := b >>> 4
  let lo := b &&& 0x0F
  ((lo <<< 4) % 256) ||| hi

/-- Go `rbit`, on a byte. -/
def rbit (num : Nat) : Nat :=
  (List.range 8).foldl (fun out i => ((out <<< 1) % 256) ||| ((num >>> i) &&& 1)) 0

/-- The loop of `strconv.ParseUint(s, 16, 8)` from the value `n`: a character
that is no digit ends it with 0, a value above 255 with 255. -/
def parseUintLoop (n : Nat) : List Nat → Nat
  | [] => n
  | c :: rest =>
    match unhex c with
    | none => 0
    | some d => if n * 16 + d > 255 then 255 else parseUintLoop (n * 16 + d) rest

/-- The value returned by `strconv.ParseUint(s, 16, 8)`; its error is dropped by
the caller. -/
def parseUint (s : List Nat) : Nat := if s = [] then 0 else parseUintLoop 0 s

/-- Go conversion `uint32(i)` of an `int64`. -/
def toUint32 (i : Int) : Nat := (i % 2 ^ 32).toNat

/-- The `key` of `Gorgon.encrypt`. -/
def gorgonKey : List Nat :=
  [0xDF, 0x77, 0xB9, 0x40, 0xB9, 0x9B, 0x84, 0x83, 0xD1, 0xB9,
   0xCB, 0xD1, 0xF7, 0xC2, 0xB9, 0x85, 0xC3, 0xD0, 0xFB, 0xC3]

/-- The inner loop of `Gorgon.encrypt` over `j`: the four bytes of `temp`
appended to `paramList`. -/
def paramBytes (paramList temp : List Nat) : Option (List Nat) :=
  (List.range 4).foldlM (fun pl j => do
    let d ← slice temp (j * 2) ((j + 1) * 2)
    some (pl ++ [parseUint d % 256])) paramList

/-- The loop of `Gorgon.encrypt` over `i = 0, 4, 8`. -/
def paramLoop (base : List Nat) : Option (List Nat) :=
  [0, 4, 8].foldlM (fun pl i => do
    let temp ← slice base (8 * i) (8 * (i + 1))
    paramBytes pl temp) []

/-- Body of the loop `eor[i] = paramList[i] ^ key[i]`. -/
def eorStep (paramList key eor : List Nat) (i : Nat) : Option (List Nat) := do
  let a ← paramList[i]?
  let b ← key[i]?
  if i < eor.length then some (eor.set i (a ^^^ b)) else none

/-- Body of the main transform loop of `Gorgon.encrypt`. -/
def transformStep (length : Nat) (eor : List Nat) (i : Nat) : Option (List Nat) := do
  let c ← eor[i]?
  let C := reverseByte c
  let D ← eor[(i + 1) % length]?
  let E := C ^^^ D
  let F := rbit E
  let H := (((F % 2 ^ 32) ^^^ 0xFFFFFFFF) ^^^ length) &&& 0xFF
  some (eor.set i H)

/-- The bytes `eor` of `Gorgon.encrypt` after the main transform loop, from
`base` and `H = uint32(g.Unix)`. -/
def gorgonBytes (base : List Nat) (H : Nat) : Option (List Nat) := do
  let length := 0x14
  let paramList ← paramLoop base
  let paramList := paramList ++ [0x0, 0x6, 0x0B, 0x1C]
  let paramList := paramList ++
    [(H >>> 24) &&& 0xFF, (H >>> 16) &&& 0xFF, (H >>> 8) &&& 0xFF, H &&& 0xFF]
  let eor ← (List.range length).foldlM (eorStep paramList gorgonKey) (List.replicate length 0)
  (List.range length).foldlM (transformStep length) eor

/-- Go `Gorgon.encrypt`; `none` is a panic. The product `g.Unix*1000` is an
`int64`. -/
def Gorgon.encrypt (g : Gorgon) (base : List Nat) : Option Headers := do
  let eor ← gorgonBytes base (toUint32 g.Unix)
  let result := hexLower eor
  some (((Headers.empty.put "x-ss-req-ticket" (itoa (toInt (toUint64 (g.Unix * 1000))))).put
    "x-khronos" (itoa g.Unix)).put "x-gorgon" (str "0404b0d30000" ++ result))

/-- Go `Gorgon.GetValue`. -/
def Gorgon.GetValue (E : Env) (g : Gorgon) : Option Headers :=
  g.encrypt (g.getBaseString E)

/-- What the value of `x-gorgon` is said to depend on: the first 4 bytes of the
MD5 digests of `Params`, `Data` and `Cookies` (zero bytes for an empty `Data` or
`Cookies`) and the low 32 bits of `Unix`. -/
def gorgonInputs (E : Env) (g : Gorgon) : List Nat × List Nat × List Nat × Nat :=
  ((E.md5Sum g.Params).take 4,
   if g.Data ≠ [] then (E.md5Sum g.Data).take 4 else [0, 0, 0, 0],
   if g.Cookies ≠ [] then (E.md5Sum g.Cookies).take 4 else [0, 0, 0, 0],
   (g.Unix % 2 ^ 32).toNat)

/-- A lower-case hexadecimal digit. -/
def isLowerHex (c : Nat) : Prop := (48 ≤ c ∧ c ≤ 57) ∨ (97 ≤ c ∧ c ≤ 102)

/-! ### `encryptEncPB` on buffers in memory

The embedding `encryptEncPB` above takes and returns the bytes of a buffer. To
tell the copy made by `make` and `copy` from a second name for the buffer of the
caller, the same source function is embedded once more on a store of buffers,
where a slice that spans a buffer is the address of the buffer. -/

/-- The byte buffers of the program, by address. -/
abbrev Store := List (List Nat)

/-- Go `make([]byte, n)`: the store with a new buffer of `n` zero bytes, and the
address of that buffer. -/
def Store.make (s : Store) (n : Nat) : Store × Nat := (s ++ [List.replicate n 0], s.length)

/-- Go `len(b)`. -/
def Store.len (s : Store) (a : Nat) : Option Nat := (s[a]?).map List.length

/-- The read `b[i]`; `none` is the panic of an index out of range. -/
def Store.get (s : Store) (a i : Nat) : Option Nat := do
  let b ← s[a]?
  b[i]?

/-- The write `b[i] = v`; `none` is the panic of an index out of range. -/
def Store.put (s : Store) (a i v : Nat) : Option Store := do
  let b ← s[a]?
  if i < b.length then some (s.set a (b.set i v)) else none

/-- Go `copy(dst, src)`: the first `min(len(dst), len(src))` bytes of `src` are
written to `dst`. -/
def Store.copy (s : Store) (dst src : Nat) : Option Store := do
  let d ← s[dst]?
  let c ← s[src]?
  some (s.set dst (c.take d.length ++ d.drop c.length))

/-- The first loop of `encryptEncPB` at index `i`, in memory: `out[i] ^= x[i%8]`.
The slice `x = out[:8]` has the address of `out`, and `i % 8` is below its
length 8. -/
def memXorStep (out : Nat) (s : Store) (i : Nat) : Option Store := do
  let a ← s.get out i
  let b ← s.get out (i % 8)
  s.put out i (a ^^^ b)

/-- The second loop of `encryptEncPB` at index `i`, in memory, with
`j = len(out)-1-i`: `out[i], out[j] = out[j], out[i]`. -/
def memSwapStep (out : Nat) (s : Store) (i : Nat) : Option Store := do
  let n ← s.len out
  let a ← s.get out i
  let b ← s.get out (n - 1 - i)
  let s ← s.put out i b
  s.put out (n - 1 - i) a

/-- Go `encryptEncPB(data, l)` in memory: `data` is the address of the buffer of
the argument; the value is the store after the call and the address of the
buffer returned. -/
def encryptEncPBMem (s : Store) (data : Nat) (l : Int) : Option (Store × Nat) := do
  let n ← s.len data
  let r := s.make n
  let out := r.2
  let s ← r.1.copy out data
  let m ← s.len out
  if m < 8 then none
  else
    let s ← (List.range' 8 (l.toNat - 8)).foldlM (memXorStep out) s
    let m ← s.len out
    let s ← (List.range (m / 2)).foldlM (memSwapStep out) s
    some (s, out)

end Signer

/-! ## `ttsig.go` -/

/-- The `float64` field `UnixTimestamp`, by what `SignRequest` computes from it:
the value is `0` (`UnixTimestamp == 0`, with `int64(0) = 0` and
`int64(math.Round(0 * 1000)) = 0`), or it is another value `t`, given by
`int64(t)` and `int64(math.Round(t * 1000))`. -/
inductive Timestamp where
  | zero
  | other (seconds millis : Int)
  deriving DecidableEq, Repr

/-- Go `int64(t)`. -/
def Timestamp.seconds : Timestamp → Int
  | .zero => 0
  | .other s _ => s

/-- Go `int64(math.Round(t * 1000))`. -/
def Timestamp.millis : Timestamp → Int
  | .zero => 0
  | .other _ m => m

/-- Go `SignConfig`. -/
structure SignConfig where
  RawRequestParameters : List Nat
  RequestPayload : List Nat
  SecDeviceID : List Nat
  Cookie : List Nat
  AppID : Int
  LicenseID : Int
  SdkVersionString : List Nat
  SdkVersionInt : Int
  Platform : Int
  UnixTimestamp : Timestamp

/-- Go `strings.ToUpper` on an ASCII byte. -/
def toUpper (c : Nat) : Nat := if 97 ≤ c ∧ c ≤ 122 then c - 32 else c

/-- Go `md5Upper`. -/
def md5Upper (E : Signer.Env) (s : List Nat) : List Nat :=
  (Signer.hexLower (E.md5Sum s)).map toUpper

/-- The assignments of defaults at the head of `SignRequest`; `now` is the value
of `float64(time.Now().UnixNano()) / 1e9`. -/
def applyDefaults (now : Timestamp) (signParams : SignConfig) : SignConfig :=
  let signParams := if signParams.AppID = 0 then { signParams with AppID := 1233 }
    else signParams
  let signParams := if signParams.LicenseID = 0 then { signParams with LicenseID := 1611921764 }
    else signParams
  let signParams := if signParams.SdkVersionString = []
    then { signParams with SdkVersionString := Signer.str "v05.00.06-ov-android" }
    else signParams
  let signParams := if signParams.SdkVersionInt = 0
    then { signParams with SdkVersionInt := 167775296 } else signParams
  let signParams := if signParams.UnixTimestamp = Timestamp.zero
    then { signParams with UnixTimestamp := now } else signParams
  signParams

/-- Go `SignRequest`. `now` is the value of
`float64(time.Now().UnixNano()) / 1e9`, `randRead` the outcome of `rand.Read` in
`LadonEncrypt` and `rnd` the value of `rand.Int31()` in `GetSign`. The error of
`GetSign` is a `ProtoError`, whose message is its quoted `Msg`. -/
def SignRequest (E : Signer.Env) (now : Timestamp) (randRead : Except String (List Nat))
    (rnd : Int) (signParams : SignConfig) : Signer.Result Signer.Headers :=
  let unixSeconds := signParams.UnixTimestamp.seconds
  let unixMilliseconds := signParams.UnixTimestamp.millis
  let signParams := applyDefaults now signParams
  if signParams.RawRequestParameters = [] then .err "RawParams must not be empty"
  else if signParams.RequestPayload = [] then .err "Payload must not be empty"
  else
    let xssStub := md5Upper E signParams.RequestPayload
    let gorgonSigner : Signer.Gorgon :=
      { Unix := unixSeconds
        Params := signParams.RawRequestParameters
        Data := signParams.RequestPayload
        Cookies := signParams.Cookie }
    match gorgonSigner.GetValue E with
    | none => .panic
    | some gorgonHeader =>
      match Signer.Ladon.Encrypt E randRead unixSeconds signParams.LicenseID signParams.AppID with
      | .err m => .err m
      | .panic => .panic
      | .ok xLadon =>
        match Signer.GetSign E rnd signParams.RawRequestParameters xssStub unixSeconds
            signParams.AppID signParams.LicenseID signParams.Platform signParams.SecDeviceID
            signParams.SdkVersionString signParams.SdkVersionInt with
        | .error e => .err e.Msg.quote
        | .panic => .panic
        | .ok xArgus =>
          let out := gorgonHeader
          let out := out.put "x-khronos" (Signer.itoa unixSeconds)
          let out := out.put "x-ss-req-ticket" (Signer.itoa unixMilliseconds)
          let out := out.put "content-length" (Signer.itoa signParams.RequestPayload.length)
          let out := out.put "x-ss-stub" xssStub
          let out := out.put "x-ladon" (Signer.str xLadon)
          let out := out.put "x-argus" (Signer.str xArgus)
          .ok out

/-! # Theorems -/

/-! ## The block cipher -/

namespace Simon

theorem keyExpansionStep_some (key : List Nat) (i : Nat) (h4 : 4 ≤ i) (hi : i < key.length) :
    ∃ key', keyExpansionStep key i = some key' ∧ key'.length = key.length := by
  have h1 : i - 1 < key.length := by omega
  have h3 : i - 3 < key.length := by omega
  have h4 : i - 4 < key.length := by omega
  simp [keyExpansionStep, List.getElem?_eq_getElem, h1, h3, h4, hi]

theorem keyExpansionLoop_some (n : Nat) : ∀ (s : Nat) (key : List Nat), 4 ≤ s → s + n ≤ key.length →
    ∃ key', (List.range' s n).foldlM keyExpansionStep key = some key' ∧
      key'.length = key.length := by
  induction n with
  | zero => intro s key _ _; exact ⟨key, by simp [List.range'], rfl⟩
  | succ n ih =>
    intro s key h4 hlen
    obtain ⟨k1, hk1, hl1⟩ := keyExpansionStep_some key s h4 (by omega)
    obtain ⟨k2, hk2, hl2⟩ := ih (s + 1) k1 (by omega) (by omega)
    refine ⟨k2, ?_, by omega⟩
    simp [List.range', List.foldlM, hk1, hk2]

/-- On a slice of 72 words `keyExpansion` reads and writes in range only, and
returns 72 words. -/
theorem keyExpansion_some (key : List Nat) (h : key.length = 72) :
    ∃ key', keyExpansion key = some key' ∧ key'.length = 72 := by
  obtain ⟨k, hk, hl⟩ := keyExpansionLoop_some 68 4 key (by omega) (by omega)
  exact ⟨k, hk, by omega⟩

theorem xor_round_cancel (x f r k : Nat) :
    ((((x ^^^ f) ^^^ r) ^^^ k) ^^^ f ^^^ r) ^^^ k = x := by
  apply Nat.eq_of_testBit_eq
  intro j
  simp only [Nat.testBit_xor]
  cases x.testBit j <;> cases f.testBit j <;> cases r.testBit j <;> cases k.testBit j <;> rfl

/-- Round `i` of `SimonDec` undoes round `i` of `SimonEnc`. -/
theorem decRound_encRound (key : List Nat) (c : Int) (s : Nat × Nat) (i : Nat)
    (hi : i < key.length) :
    ∃ s', encRound key c s i = some s' ∧ decRound key c s' i = some s := by
  obtain ⟨x, y⟩ := s
  simp [encRound, decRound, List.getElem?_eq_getElem, hi, xor_round_cancel]

/-- Round `i` of `SimonEnc` undoes round `i` of `SimonDec`. -/
theorem encRound_decRound (key : List Nat) (c : Int) (s : Nat × Nat) (i : Nat)
    (hi : i < key.length) :
    ∃ s', decRound key c s i = some s' ∧ encRound key c s' i = some s := by
  obtain ⟨x, y⟩ := s
  simp [encRound, decRound, List.getElem?_eq_getElem, hi, xor_round_cancel]

/-- Running the encryption rounds over the indices `l` and then the decryption
rounds over `l` reversed gives back the state. -/
theorem decRounds_encRounds (key : List Nat) (c : Int) (l : List Nat) :
    ∀ s : Nat × Nat, (∀ i ∈ l, i < key.length) →
    ∃ s', l.foldlM (encRound key c) s = some s' ∧
      l.reverse.foldlM (decRound key c) s' = some s := by
  induction l with
  | nil => intro s _; exact ⟨s, rfl, rfl⟩
  | cons i l ih =>
    intro s hl
    obtain ⟨s1, h1, h1'⟩ := decRound_encRound key c s i (hl i (by simp))
    obtain ⟨s2, h2, h2'⟩ := ih s1 (fun j hj => hl j (by simp [hj]))
    refine ⟨s2, ?_, ?_⟩
    · simp [List.foldlM, h1, h2]
    · simp [List.foldlM_append, h2', h1']

/-- C1. For every block `b`, every key `k` and every mode `c` (so for `c = 0`
and `c = 1`), `SimonEnc` returns a block `ct` and `SimonDec(ct, k, c)` returns
`b`: decryption is the inverse of encryption. The words range over all
naturals, the 64-bit words among them. -/
theorem C1_SimonDec_SimonEnc (b : Nat × Nat) (k : Key4) (c : Int) :
    ∃ ct, SimonEnc b k c = some ct ∧ SimonDec ct k c = some b := by
  obtain ⟨key, hk, hl⟩ := keyExpansion_some (initKey k) (by simp [initKey])
  obtain ⟨ct, h1, h2⟩ := decRounds_encRounds key c (List.range 72) b
    (fun i hi => by rw [hl]; exact List.mem_range.mp hi)
  exact ⟨ct, by unfold SimonEnc; rw [hk]; exact h1, by unfold SimonDec; rw [hk]; exact h2⟩

end Simon

/-! ## The codec: varints -/

namespace Signer

theorem WriteVarintLoop_le (w : ProtoWriter) (v : Nat) (h : v ≤ 0x80) :
    WriteVarintLoop w v = w ++ [(v &&& 0x7F) % 256] := by
  rw [WriteVarintLoop]
  simp [Nat.not_lt.mpr h, ProtoWriter.writeByte]

theorem WriteVarintLoop_gt (w : ProtoWriter) (v : Nat) (h : 0x80 < v) :
    WriteVarintLoop w v =
      WriteVarintLoop (w ++ [(v &&& 0x7F) % 256 ||| 0x80]) (v >>> 7) := by
  rw [WriteVarintLoop]
  simp [h, ProtoWriter.writeByte]

/-- The loop of `WriteVarint` only appends to the writer. -/
theorem WriteVarintLoop_append (v : Nat) : ∀ w : ProtoWriter,
    WriteVarintLoop w v = w ++ WriteVarintLoop [] v := by
  induction v using Nat.strong_induction_on with
  | _ v ih =>
    intro w
    by_cases h : 0x80 < v
    · have hlt : v >>> 7 < v := by
        simp only [Nat.shiftRight_eq_div_pow]
        omega
      rw [WriteVarintLoop_gt w v h, WriteVarintLoop_gt [] v h, ih _ hlt,
        ih _ hlt ([] ++ _)]
      simp
    · rw [WriteVarintLoop_le w v (by omega), WriteVarintLoop_le [] v (by omega)]
      simp

theorem mask32_eq_mod (v : Nat) : v &&& 0xFFFFFFFF = v % 2 ^ 32 :=
  Nat.and_pow_two_sub_one_eq_mod v 32

theorem and7F_eq_mod (v : Nat) : v &&& 0x7F = v % 128 :=
  Nat.and_pow_two_sub_one_eq_mod v 7

theorem or80_eq_add (x : Nat) (h : x < 128) : x ||| 0x80 = x + 128 := by
  have := Nat.mul_add_lt_is_or (i := 7) (b := x) (by simpa using h) 1
  rw [Nat.or_comm]
  simpa [Nat.add_comm] using this.symm

theorem or_shift_eq_add (acc x s : Nat) (h : acc < 2 ^ s) :
    acc ||| x * 2 ^ s = acc + x * 2 ^ s := by
  have := Nat.mul_add_lt_is_or (i := s) (b := acc) h x
  rw [Nat.or_comm, Nat.mul_comm x, ← this, Nat.add_comm]

/-- `WriteVarint` appends `varintBytes v` to the writer. -/
theorem WriteVarint_eq (w : ProtoWriter) (v : Nat) : w.WriteVarint v = w ++ varintBytes v := by
  unfold varintBytes ProtoWriter.WriteVarint ProtoWriter.Bytes NewProtoWriter
  exact WriteVarintLoop_append _ w

theorem varintBytes_eq (v : Nat) : varintBytes v = WriteVarintLoop [] (v % 2 ^ 32) := by
  unfold varintBytes ProtoWriter.WriteVarint ProtoWriter.Bytes NewProtoWriter
  rw [mask32_eq_mod]

theorem varintBytes_small (v : Nat) (h : v % 2 ^ 32 ≤ 0x80) :
    varintBytes v = [v % 2 ^ 32 % 128] := by
  rw [varintBytes_eq, WriteVarintLoop_le _ _ h, and7F_eq_mod]
  have h1 : v % 2 ^ 32 % 128 % 256 = v % 2 ^ 32 % 128 := by omega
  rw [h1]
  rfl

theorem varintBytes_big (v : Nat) (h : 0x80 < v % 2 ^ 32) :
    varintBytes v = (v % 2 ^ 32 % 128 + 128) :: varintBytes (v % 2 ^ 32 / 128) := by
  rw [varintBytes_eq, WriteVarintLoop_gt _ _ h, and7F_eq_mod, WriteVarintLoop_append,
    varintBytes_eq]
  have h1 : v % 2 ^ 32 % 128 % 256 = v % 2 ^ 32 % 128 := by omega
  have h2 : v % 2 ^ 32 / 128 % 2 ^ 32 = v % 2 ^ 32 / 128 := by omega
  rw [h1, or80_eq_add _ (by omega), Nat.shiftRight_eq_div_pow, h2]
  simp

theorem ReadVarintLoop_cons (acc s b : Nat) (rest : List Nat) :
    ReadVarintLoop acc s (b :: rest) =
      if b < 0x80 then .ok (acc ||| (((b &&& 0x7F) <<< s) % 2 ^ 64), rest)
      else ReadVarintLoop (acc ||| (((b &&& 0x7F) <<< s) % 2 ^ 64)) (s + 7) rest := rfl

/-- Reading back the bytes of a varint: when no 7-bit group of `v` is left as
exactly `0x80`, `ReadVarint` continues from the accumulator `acc` and the shift
`s` to the value `acc + v * 2 ^ s` and stops after the last byte written. -/
theorem ReadVarintLoop_varintBytes (v : Nat) : ∀ (acc s : Nat) (rest : List Nat),
    v < 2 ^ 32 → (∀ k, v / 128 ^ k ≠ 128) → v * 2 ^ s < 2 ^ 64 → acc < 2 ^ s →
    ReadVarintLoop acc s (varintBytes v ++ rest) = .ok (acc + v * 2 ^ s, rest) := by
  induction v using Nat.strong_induction_on with
  | _ v ih =>
    intro acc s rest hv hsafe hfit hacc
    have hmod : v % 2 ^ 32 = v := Nat.mod_eq_of_lt hv
    by_cases h : 0x80 < v
    · have e : v * 2 ^ s = (v / 128) * (2 ^ s * 128) + (v % 128) * 2 ^ s := by
        conv_lhs => rw [← Nat.div_add_mod v 128]
        ring
      have hb : (v % 128) * 2 ^ s ≤ 127 * 2 ^ s := Nat.mul_le_mul_right _ (by omega)
      have hp : 2 ^ (s + 7) = 2 ^ s * 128 := by rw [pow_add]; norm_num
      have hb1 : (v % 128 + 128) &&& 0x7F = v % 128 := by
        rw [and7F_eq_mod]; omega
      have hsafe1 : ∀ k, v / 128 / 128 ^ k ≠ 128 := by
        intro k
        have := hsafe (k + 1)
        rwa [pow_succ, Nat.mul_comm, ← Nat.div_div_eq_div_mul] at this
      have hih := ih (v / 128) (by omega) (acc + v % 128 * 2 ^ s) (s + 7) rest (by omega) hsafe1
        (by rw [hp]; omega) (by rw [hp]; omega)
      rw [varintBytes_big v (by rw [hmod]; exact h), hmod, List.cons_append,
        ReadVarintLoop_cons, hb1, if_neg (by omega), Nat.shiftLeft_eq,
        Nat.mod_eq_of_lt (by omega), or_shift_eq_add _ _ _ hacc, hih, hp, e]
      congr 2
      omega
    · have hne : v ≠ 128 := by simpa using hsafe 0
      have hlt : v < 128 := by omega
      rw [varintBytes_small v (by rw [hmod]; omega), hmod, Nat.mod_eq_of_lt hlt,
        List.singleton_append, ReadVarintLoop_cons, and7F_eq_mod, Nat.mod_eq_of_lt hlt,
        if_pos hlt, Nat.shiftLeft_eq, Nat.mod_eq_of_lt hfit, or_shift_eq_add _ _ _ hacc]

/-- A value below `2 ^ 32` with no 7-bit group left as `0x80` is read back
exactly. -/
theorem ReadVarint_varintBytes (v : Nat) (rest : List Nat) (hv : v < 2 ^ 32)
    (hsafe : ∀ k, v / 128 ^ k ≠ 128) :
    ProtoReader.ReadVarint (varintBytes v ++ rest) = .ok (v, rest) := by
  have := ReadVarintLoop_varintBytes v 0 0 rest hv hsafe (by omega) (by norm_num)
  simpa [ProtoReader.ReadVarint] using this

/-- For a value below `2 ^ 32`, `varintExact` excludes every shift. -/
theorem varintExact_all (v : Nat) (hv : v < 2 ^ 32) (h : varintExact v) :
    ∀ k, v / 128 ^ k ≠ 128 := by
  intro k
  by_cases hk : k < 5
  · have := h k hk
    rwa [Nat.shiftRight_eq_div_pow, pow_mul] at this
  · have h5 : (128 : Nat) ^ 5 ≤ 128 ^ k := Nat.pow_le_pow_right (by norm_num) (by omega)
    have : v / 128 ^ k = 0 := Nat.div_eq_of_lt (by omega)
    omega

/-- C3 (failing input). The varint of `128` is the single byte `0x00`, and
`ReadVarint` reads it back as `0`, not as `128 mod 2^32`: the loop test
`v > 0x80` lets the value `0x80` through to the final `byte(v & 0x7F)`. -/
theorem C3_varint_128_reads_back_0 :
    (NewProtoWriter.WriteVarint 128).Bytes = [0x00] ∧
    ProtoReader.ReadVarint (NewProtoWriter.WriteVarint 128).Bytes = .ok (0, []) ∧
    ProtoReader.ReadVarint (NewProtoWriter.WriteVarint 128).Bytes ≠ .ok (128 % 2 ^ 32, []) := by
  have h : (NewProtoWriter.WriteVarint 128).Bytes = [0x00] := by
    show varintBytes 128 = [0]
    simp [varintBytes_small]
  rw [h]
  exact ⟨rfl, by decide, by decide⟩

/-- C4. `WriteVarint(0)` appends the single byte `0x00`; `WriteVarint(2^32 - 1)`
appends exactly `FF FF FF FF 0F`; and for every `v` (so for every `v ≥ 2^32`)
`WriteVarint(v)` appends what `WriteVarint(v mod 2^32)` appends. The writer has
no failing outcome. -/
theorem C4_WriteVarint_boundaries :
    (∀ w : ProtoWriter, w.WriteVarint 0 = w ++ [0x00]) ∧
    (∀ w : ProtoWriter, w.WriteVarint (2 ^ 32 - 1) = w ++ [0xFF, 0xFF, 0xFF, 0xFF, 0x0F]) ∧
    (∀ (w : ProtoWriter) (v : Nat), w.WriteVarint v = w.WriteVarint (v % 2 ^ 32)) := by
  refine ⟨fun w => ?_, fun w => ?_, fun w v => ?_⟩
  · rw [WriteVarint_eq]
    simp [varintBytes_small]
  · rw [WriteVarint_eq, varintBytes_big _ (by decide)]
    simp [varintBytes_big, varintBytes_small]
  · rw [WriteVarint_eq, WriteVarint_eq, varintBytes_eq, varintBytes_eq, Nat.mod_mod]

end Signer

/-! ## The codec: encoding -/

namespace Signer

theorem putLE4_mod (v : Nat) : putLE 4 (v % 2 ^ 32) = putLE 4 v := by
  simp only [putLE, List.cons.injEq, and_true]
  refine ⟨?_, ?_, ?_, ?_⟩ <;> omega

/-- One iteration of the loop of `ToBytes` on a field of a supported type
appends the encoding of the field. -/
theorem ToBytesLoop_cons (w : ProtoWriter) (f : ProtoField) (fs : List ProtoField)
    (h : supportedType f.Type_) :
    ToBytesLoop w (f :: fs) = ToBytesLoop (w ++ fieldEncoding f) fs := by
  rcases h with h | h | h | h
  all_goals
    simp only [ToBytesLoop, h, WriteVarint_eq, ProtoWriter.WriteInt32, ProtoWriter.WriteInt64,
      ProtoWriter.WriteString, ProtoWriter.write, putLE4_mod]
    simp only [TypeVarint, TypeInt64, TypeString, TypeInt32]
    simp only [Int.reduceEq, if_true, if_false, reduceIte]
    congr 1
    simp [fieldEncoding, fieldTag, h, TypeVarint, TypeInt64, TypeString, TypeInt32]

/-- On a message of supported fields `ToBytes` succeeds, with the encodings of
the fields in order. -/
theorem ToBytesLoop_supported (fs : List ProtoField) : ∀ w : ProtoWriter,
    supportedMsg fs → ToBytesLoop w fs = .ok (w ++ fs.flatMap fieldEncoding) := by
  induction fs with
  | nil => intro w _; simp [ToBytesLoop, ProtoWriter.Bytes]
  | cons f fs ih =>
    intro w h
    rw [ToBytesLoop_cons w f fs (h f (by simp)), ih _ (fun g hg => h g (by simp [hg]))]
    simp

theorem ToBytes_supported (m : ProtoBuf) (h : supportedMsg m) :
    m.ToBytes = .ok (m.flatMap fieldEncoding) := by
  unfold ProtoBuf.ToBytes NewProtoWriter
  rw [ToBytesLoop_supported m [] h]
  rfl

/-- C9. For field lists `a` and `b` of supported types, `ToBytes` succeeds on
`a`, on `b` and on `a ++ b`, and the bytes of `a ++ b` are the bytes of `a`
followed by the bytes of `b`; the bytes of a single field are the varint of
`(index << 3) | type` followed by the encoding of its value. -/
theorem C9_ToBytes_concat (a b : ProtoBuf) (ha : supportedMsg a) (hb : supportedMsg b) :
    (∃ xa xb, a.ToBytes = .ok xa ∧ b.ToBytes = .ok xb ∧
      ProtoBuf.ToBytes (a ++ b) = .ok (xa ++ xb)) ∧
    (∀ f ∈ a ++ b, ProtoBuf.ToBytes [f] = .ok (fieldEncoding f)) := by
  have hab : supportedMsg (a ++ b) := by
    intro f hf
    rcases List.mem_append.mp hf with h | h
    · exact ha f h
    · exact hb f h
  refine ⟨⟨_, _, ToBytes_supported a ha, ToBytes_supported b hb, ?_⟩, ?_⟩
  · rw [ToBytes_supported _ hab]
    simp
  · intro f hf
    rw [ToBytes_supported [f] (by intro g hg; simp at hg; rw [hg]; exact hab f hf)]
    simp

/-- C9 at a concrete pair of messages. -/
theorem C9_ToBytes_concat_witness :
    (∃ xa xb, ProtoBuf.ToBytes [⟨1, 0, 300, []⟩] = .ok xa ∧
      ProtoBuf.ToBytes [⟨2, 2, 0, [7, 8]⟩, ⟨3, 5, 9, []⟩] = .ok xb ∧
      ProtoBuf.ToBytes ([⟨1, 0, 300, []⟩] ++ [⟨2, 2, 0, [7, 8]⟩, ⟨3, 5, 9, []⟩]) =
        .ok (xa ++ xb)) ∧
    (∀ f ∈ ([⟨1, 0, 300, []⟩] : ProtoBuf) ++ [⟨2, 2, 0, [7, 8]⟩, ⟨3, 5, 9, []⟩],
      ProtoBuf.ToBytes [f] = .ok (fieldEncoding f)) :=
  C9_ToBytes_concat [⟨1, 0, 300, []⟩] [⟨2, 2, 0, [7, 8]⟩, ⟨3, 5, 9, []⟩] (by decide) (by decide)

end Signer

/-! ## The codec: decoding -/

namespace Signer

/-- The loop of `parseBytes`, unfolded once. -/
theorem parseLoop_eq (r : ProtoReader) (pb : ProtoBuf) : parseLoop r pb =
    if r.remain 1 then
      match r.ReadVarint with
      | .panic => .panic
      | .error e => .error e
      | .ok (key, r1) =>
        if toInt (key >>> 3) = 0 then .ok pb
        else
          match parseField (toInt (key >>> 3)) ((key &&& 7 : Nat) : Int) r1 with
          | .ok (f, r2) => parseLoop r2 (pb.Put f)
          | .error e => .error e
          | .panic => .panic
    else .ok pb := by
  rw [parseLoop]
  split
  · split
    · simp_all
    · simp_all
    · rename_i heq
      simp only [heq]
      split
      · rfl
      · split <;> simp_all
  · rfl

/-- The loop ends without error when no byte is left. -/
theorem parseLoop_nil (pb : ProtoBuf) : parseLoop [] pb = .ok pb := by
  rw [parseLoop_eq]
  rfl

/-- An iteration that reads a tag with a non-zero index and its value puts the
field and continues. -/
theorem parseLoop_field (r : ProtoReader) (pb : ProtoBuf) (key : Nat) (r1 : ProtoReader)
    (f : ProtoField) (r2 : ProtoReader) (hrem : r.remain 1 = true)
    (htag : r.ReadVarint = .ok (key, r1)) (hidx : toInt (key >>> 3) ≠ 0)
    (hval : parseField (toInt (key >>> 3)) ((key &&& 7 : Nat) : Int) r1 = .ok (f, r2)) :
    parseLoop r pb = parseLoop r2 (pb.Put f) := by
  rw [parseLoop_eq, if_pos hrem, htag]
  simp only [if_neg hidx, hval]

/-- An iteration whose `switch` returns an error ends the loop with that error. -/
theorem parseLoop_fieldError (r : ProtoReader) (pb : ProtoBuf) (key : Nat) (r1 : ProtoReader)
    (e : ProtoError) (hrem : r.remain 1 = true)
    (htag : r.ReadVarint = .ok (key, r1)) (hidx : toInt (key >>> 3) ≠ 0)
    (hval : parseField (toInt (key >>> 3)) ((key &&& 7 : Nat) : Int) r1 = .error e) :
    parseLoop r pb = .error e := by
  rw [parseLoop_eq, if_pos hrem, htag]
  simp only [if_neg hidx, hval]

/-- A tag whose decoded index is `0` ends the loop without error. -/
theorem parseLoop_stop (r : ProtoReader) (pb : ProtoBuf) (key : Nat) (r1 : ProtoReader)
    (hrem : r.remain 1 = true) (htag : r.ReadVarint = .ok (key, r1))
    (hidx : toInt (key >>> 3) = 0) :
    parseLoop r pb = .ok pb := by
  rw [parseLoop_eq, if_pos hrem, htag]
  simp only [if_pos hidx]

/-- `NewProtoBufFromBytes` is the loop of `parseBytes` on a fresh reader and an
empty message; on empty data the loop does not run. -/
theorem NewProtoBufFromBytes_eq (data : List Nat) :
    NewProtoBufFromBytes data = parseLoop (NewProtoReader data) [] := by
  unfold NewProtoBufFromBytes ProtoBuf.parseBytes
  split
  · split <;> simp_all
  · have : data = [] := by
      cases data with
      | nil => rfl
      | cons a t => simp at *
    subst this
    exact (parseLoop_nil []).symm

/-- The result of `parseBytes` is the result of the loop from any state it
reaches. -/
theorem parseLoop_of_Reaches {data : List Nat} {r : ProtoReader} {pb : ProtoBuf}
    (h : Reaches data r pb) : parseLoop (NewProtoReader data) [] = parseLoop r pb := by
  induction h with
  | start => rfl
  | step key r1 f r2 _ hrem htag hidx hval ih =>
    rw [ih]
    exact parseLoop_field _ _ key r1 f r2 hrem htag hidx hval

/-- The `default` case of the `switch` of `parseBytes`. -/
theorem parseField_unsupported (idx ftype : Int) (r : ProtoReader)
    (h : ¬ supportedType ftype) :
    parseField idx ftype r = .error ⟨"unexpected protobuf field type"⟩ := by
  unfold supportedType at h
  simp only [not_or] at h
  unfold parseField
  rw [if_neg h.2.2.2, if_neg h.2.1, if_neg h.1, if_neg h.2.2.1]

/-- C10. When parsing of `data` reaches a tag (`key`, read at the head of the
loop) whose decoded index is not zero and whose low three bits are not one of
the four supported types, `NewProtoBufFromBytes` returns the error
"unexpected protobuf field type", and so no message. -/
theorem C10_unsupported_tag_type (data : List Nat) (r : ProtoReader) (pb : ProtoBuf)
    (key : Nat) (r1 : ProtoReader) (hreach : Reaches data r pb) (hrem : r.remain 1 = true)
    (htag : r.ReadVarint = .ok (key, r1)) (hidx : toInt (key >>> 3) ≠ 0)
    (htype : ¬ supportedType ((key &&& 7 : Nat) : Int)) :
    NewProtoBufFromBytes data = .error ⟨"unexpected protobuf field type"⟩ := by
  rw [NewProtoBufFromBytes_eq, parseLoop_of_Reaches hreach]
  exact parseLoop_fieldError r pb key r1 _ hrem htag hidx (parseField_unsupported _ _ _ htype)

/-- C10 on the input `08 00 0b 03 01`: the field `1` (a varint `0`) is read,
then the tag `0x0b` has index `1` and type `3`. -/
theorem C10_unsupported_tag_type_witness :
    NewProtoBufFromBytes [8, 0, 11, 3, 1] = .error ⟨"unexpected protobuf field type"⟩ :=
  C10_unsupported_tag_type [8, 0, 11, 3, 1] [11, 3, 1] [⟨1, 0, 0, []⟩] 11 [3, 1]
    (Reaches.step 8 [0, 11, 3, 1] ⟨1, 0, 0, []⟩ [11, 3, 1] Reaches.start
      (by decide) (by decide) (by decide) (by decide))
    (by decide) (by decide) (by decide) (by decide)

end Signer

/-! ## The codec: round trip -/

namespace Signer

theorem putLE_length (n : Nat) : ∀ v, (putLE n v).length = n := by
  induction n with
  | zero => intro v; rfl
  | succ n ih => intro v; simp [putLE, ih]

theorem getLE_putLE (n : Nat) : ∀ v, getLE (putLE n v) = v % 256 ^ n := by
  induction n with
  | zero => intro v; simp [putLE, getLE, Nat.mod_one]
  | succ n ih =>
    intro v
    simp only [putLE, getLE, ih]
    rw [pow_succ, Nat.mul_comm (256 ^ n) 256, Nat.mod_mul]

theorem read_append (bs rest : List Nat) :
    ProtoReader.read (bs ++ rest) (bs.length : Int) = .ok (bs, rest) := by
  unfold ProtoReader.read
  rw [if_neg (by simp)]
  simp

theorem toInt_small (u : Nat) (h : u < 2 ^ 63) : toInt u = (u : Int) := by
  unfold toInt
  have h1 : u % 2 ^ 64 = u := Nat.mod_eq_of_lt (by omega)
  rw [h1, if_pos h]

theorem varintBytes_ne_nil (v : Nat) : varintBytes v ≠ [] := by
  by_cases h : 0x80 < v % 2 ^ 32
  · rw [varintBytes_big v h]; simp
  · rw [varintBytes_small v (by omega)]; simp

/-- The tag of a field with a supported type `t` and an index `i` from `1` below
`2 ^ 29` is `8 * i + t`, below `2 ^ 32`; it decodes to the index and the type. -/
theorem fieldTag_decode (f : ProtoField) (ht : supportedType f.Type_) (h1 : 1 ≤ f.Idx)
    (h2 : f.Idx < 2 ^ 29) :
    fieldTag f < 2 ^ 32 ∧ toInt (fieldTag f >>> 3) = f.Idx ∧ f.Idx ≠ 0 ∧
      ((fieldTag f &&& 7 : Nat) : Int) = f.Type_ := by
  obtain ⟨i, hi⟩ := Int.eq_ofNat_of_zero_le (show (0 : Int) ≤ f.Idx by omega)
  have hi1 : 1 ≤ i := by omega
  have hi2 : i < 2 ^ 29 := by omega
  have hu : toUint64 f.Idx = i := by
    unfold toUint64
    rw [hi]
    omega
  obtain ⟨t, htt, ht8⟩ : ∃ t : Nat, f.Type_ = (t : Int) ∧ t < 8 := by
    rcases ht with h | h | h | h
    · exact ⟨0, by rw [h]; rfl, by omega⟩
    · exact ⟨1, by rw [h]; rfl, by omega⟩
    · exact ⟨2, by rw [h]; rfl, by omega⟩
    · exact ⟨5, by rw [h]; rfl, by omega⟩
  have hut : toUint64 f.Type_ = t := by
    unfold toUint64
    rw [htt]
    omega
  have htag : fieldTag f = 8 * i + t := by
    unfold fieldTag
    rw [hu, hut, Nat.shiftLeft_eq, Nat.mod_eq_of_lt (by omega)]
    have := Nat.mul_add_lt_is_or (i := 3) (b := t) (by simpa using ht8) i
    rw [Nat.mul_comm i, ← this]
  have hand : fieldTag f &&& 7 = t := by
    have := Nat.and_pow_two_sub_one_eq_mod (fieldTag f) 3
    norm_num at this
    rw [this, htag]
    omega
  have hshift : fieldTag f >>> 3 = i := by
    rw [Nat.shiftRight_eq_div_pow, htag]
    omega
  refine ⟨by omega, ?_, by omega, ?_⟩
  · rw [hshift, toInt_small _ (by omega), hi]
  · rw [hand, htt]

/-- The `switch` of `parseBytes` reads back the value of an exact field. -/
theorem parseField_fieldEncoding (f : ProtoField) (rest : List Nat) (h : fieldExact f) :
    ∃ g r1, fieldEncoding f ++ rest = varintBytes (fieldTag f) ++ r1 ∧
      parseField f.Idx f.Type_ r1 = .ok (g, rest) ∧ sameField g f := by
  obtain ⟨ht, _, _, _, hval⟩ := h
  rcases ht with ht | ht | ht | ht
  · -- Varint
    rw [if_pos ht] at hval
    refine ⟨⟨f.Idx, f.Type_, f.IntVal, []⟩, varintBytes f.IntVal ++ rest, ?_, ?_, ?_⟩
    · simp [fieldEncoding, ht]
    · have := ReadVarint_varintBytes f.IntVal rest hval.1 (varintExact_all _ hval.1 hval.2)
      simp [parseField, ht, this, TypeVarint, TypeInt32, TypeInt64]
    · simp [sameField, ht, TypeVarint, TypeString]
  · -- Int64
    rw [if_neg (by rw [ht]; decide), if_pos ht] at hval
    refine ⟨⟨f.Idx, f.Type_, f.IntVal, []⟩, putLE 8 f.IntVal ++ rest, ?_, ?_, ?_⟩
    · simp [fieldEncoding, ht, TypeVarint, TypeInt64]
    · have := read_append (putLE 8 f.IntVal) rest
      rw [putLE_length] at this
      simp only [Nat.cast_ofNat] at this
      have hv : f.IntVal % 256 ^ 8 = f.IntVal := Nat.mod_eq_of_lt (by norm_num at hval ⊢; omega)
      simp [parseField, ht, ProtoReader.ReadInt64, this, getLE_putLE, hv, TypeInt32, TypeInt64]
      omega
    · simp [sameField, ht, TypeInt64, TypeString]
  · -- String
    rw [if_neg (by rw [ht]; decide), if_neg (by rw [ht]; decide), if_neg (by rw [ht]; decide)] at hval
    refine ⟨⟨f.Idx, f.Type_, 0, f.BytesVal⟩, varintBytes f.BytesVal.length ++ f.BytesVal ++ rest,
      ?_, ?_, ?_⟩
    · simp [fieldEncoding, ht, TypeVarint, TypeInt64, TypeInt32, TypeString]
    · have h1 := ReadVarint_varintBytes f.BytesVal.length (f.BytesVal ++ rest) hval.1
        (varintExact_all _ hval.1 hval.2)
      have h2 := read_append f.BytesVal rest
      rw [← toInt_small f.BytesVal.length (by omega)] at h2
      simp [parseField, ht, ProtoReader.ReadString, h1, h2, TypeInt32, TypeInt64, TypeVarint,
        TypeString]
    · simp [sameField, ht]
  · -- Int32
    rw [if_neg (by rw [ht]; decide), if_neg (by rw [ht]; decide), if_pos ht] at hval
    refine ⟨⟨f.Idx, f.Type_, f.IntVal, []⟩, putLE 4 f.IntVal ++ rest, ?_, ?_, ?_⟩
    · simp [fieldEncoding, ht, TypeVarint, TypeInt64, TypeInt32]
    · have := read_append (putLE 4 f.IntVal) rest
      rw [putLE_length] at this
      simp only [Nat.cast_ofNat] at this
      have hv : f.IntVal % 256 ^ 4 = f.IntVal := Nat.mod_eq_of_lt (by norm_num at hval ⊢; omega)
      simp [parseField, ht, ProtoReader.ReadInt32, this, getLE_putLE, hv, TypeInt32]
      omega
    · simp [sameField, ht, TypeInt32, TypeString]

/-- The loop of `parseBytes` reads back the encodings of exact fields. -/
theorem parseLoop_flatMap_fieldEncoding (m : List ProtoField) : ∀ pb : ProtoBuf,
    (∀ f ∈ m, fieldExact f) →
    ∃ m', parseLoop (m.flatMap fieldEncoding) pb = .ok (pb ++ m') ∧
      List.Forall₂ sameField m' m := by
  induction m with
  | nil => intro pb _; exact ⟨[], by simp [parseLoop_nil], List.Forall₂.nil⟩
  | cons f fs ih =>
    intro pb h
    have hf := h f (by simp)
    obtain ⟨g, r1, henc, hval, hsame⟩ := parseField_fieldEncoding f (fs.flatMap fieldEncoding) hf
    obtain ⟨hlt, hidx, hne, htyp⟩ := fieldTag_decode f hf.1 hf.2.1 hf.2.2.1
    obtain ⟨m', hm', hall⟩ := ih (pb.Put g) (fun x hx => h x (by simp [hx]))
    refine ⟨g :: m', ?_, List.Forall₂.cons hsame hall⟩
    have htag := ReadVarint_varintBytes (fieldTag f) r1 hlt (varintExact_all _ hlt hf.2.2.2.1)
    have hrem : ProtoReader.remain (varintBytes (fieldTag f) ++ r1) 1 = true := by
      have := varintBytes_ne_nil (fieldTag f)
      cases hvb : varintBytes (fieldTag f) with
      | nil => exact absurd hvb this
      | cons a t => simp [ProtoReader.remain]
    rw [List.flatMap_cons, henc,
      parseLoop_field _ pb (fieldTag f) r1 g (fs.flatMap fieldEncoding) hrem htag
        (by rw [hidx]; exact hne) (by rw [hidx, htyp]; exact hval),
      hm']
    simp [ProtoBuf.Put]

/-- C2 (counterexample). The message with the single `Varint` field `(1, 2^32)`
has a supported type and a positive index; it is encoded as `08 00`, which
decodes to the field `(1, 0)`: the value is not reproduced. -/
theorem C2_counterexample :
    supportedMsg [⟨1, TypeVarint, 4294967296, []⟩] ∧
    (0 : Int) < (⟨1, TypeVarint, 4294967296, []⟩ : ProtoField).Idx ∧
    ProtoBuf.ToBytes [⟨1, TypeVarint, 4294967296, []⟩] = .ok [8, 0] ∧
    NewProtoBufFromBytes [8, 0] = .ok [⟨1, TypeVarint, 0, []⟩] ∧
    ¬ sameField ⟨1, TypeVarint, 0, []⟩ ⟨1, TypeVarint, 4294967296, []⟩ := by
  refine ⟨by decide, by decide, ?_, ?_, by decide⟩
  · rw [ToBytes_supported _ (by decide)]
    have ht : fieldTag ⟨1, TypeVarint, 4294967296, []⟩ = 8 := by decide
    simp [fieldEncoding, ht, varintBytes_small]
  · rw [NewProtoBufFromBytes_eq]
    show parseLoop [8, 0] [] = _
    rw [parseLoop_field [8, 0] [] 8 [0] ⟨1, TypeVarint, 0, []⟩ [] (by decide) (by decide)
        (by decide) (by decide)]
    exact parseLoop_nil _

/-- C2 (amended). For every message whose fields are exact (`fieldExact`),
`ToBytes` succeeds and `NewProtoBufFromBytes` on its bytes returns, without
error, a message of the same length with the same index, type and value at
every position. -/
theorem C2_roundtrip (m : ProtoBuf) (h : ∀ f ∈ m, fieldExact f) :
    ∃ bs m', m.ToBytes = .ok bs ∧ NewProtoBufFromBytes bs = .ok m' ∧
      List.Forall₂ sameField m' m := by
  obtain ⟨m', hm', hall⟩ := parseLoop_flatMap_fieldEncoding m [] h
  refine ⟨_, m', ToBytes_supported m (fun f hf => (h f hf).1), ?_, hall⟩
  rw [NewProtoBufFromBytes_eq]
  simpa [NewProtoReader] using hm'

/-- C2 (amended) on a message with one field of each supported type. -/
theorem C2_roundtrip_witness :
    ∃ bs m',
      ProtoBuf.ToBytes [⟨1, TypeVarint, 300, []⟩, ⟨2, TypeString, 0, [7, 8]⟩,
        ⟨3, TypeInt32, 9, []⟩, ⟨4, TypeInt64, 1099511627776, []⟩] = .ok bs ∧
      NewProtoBufFromBytes bs = .ok m' ∧
      List.Forall₂ sameField m' [⟨1, TypeVarint, 300, []⟩, ⟨2, TypeString, 0, [7, 8]⟩,
        ⟨3, TypeInt32, 9, []⟩, ⟨4, TypeInt64, 1099511627776, []⟩] :=
  C2_roundtrip [⟨1, TypeVarint, 300, []⟩, ⟨2, TypeString, 0, [7, 8]⟩,
    ⟨3, TypeInt32, 9, []⟩, ⟨4, TypeInt64, 1099511627776, []⟩] (by decide)

end Signer

/-! ## The hash engine -/

namespace Sm3

theorem foldlM_some {α β : Type} (f : β → α → Option β) (l : List α) :
    (∀ b, ∀ a ∈ l, ∃ b', f b a = some b') → ∀ b, ∃ b', l.foldlM f b = some b' := by
  induction l with
  | nil => intro _ b; exact ⟨b, rfl⟩
  | cons a l ih =>
    intro h b
    obtain ⟨b1, hb1⟩ := h b a (by simp)
    obtain ⟨b2, hb2⟩ := ih (fun b x hx => h b x (by simp [hx])) b1
    exact ⟨b2, by simp [List.foldlM, hb1, hb2]⟩

theorem foldlM_congr {α β : Type} (f g : β → α → Option β) (l : List α) :
    (∀ b, ∀ a ∈ l, f b a = g b a) → ∀ b, l.foldlM f b = l.foldlM g b := by
  induction l with
  | nil => intro _ b; rfl
  | cons a l ih =>
    intro h b
    simp only [List.foldlM, h b a (by simp)]
    cases g b a with
    | none => rfl
    | some b1 => exact ih (fun b x hx => h b x (by simp [hx])) b1

/-- Step 1 of `cf` reads in range on a block of at least 64 bytes. -/
theorem loadWord_some (Bi W : List Nat) (i : Nat) (hB : 64 ≤ Bi.length) (hi : i < 16) :
    ∃ W', loadWord Bi W i = some W' := by
  have h0 : i * 4 < Bi.length := by omega
  have h1 : i * 4 + 1 < Bi.length := by omega
  have h2 : i * 4 + 2 < Bi.length := by omega
  have h3 : i * 4 + 3 < Bi.length := by omega
  simp [loadWord, List.getElem?_eq_getElem, h0, h1, h2, h3]

/-- `cf` returns a chaining value on every block of at least 64 bytes. -/
theorem cf_some (s : SM3) (Vi : Regs) (Bi : List Nat) (hB : 64 ≤ Bi.length) :
    ∃ V, cf s Vi Bi = some V := by
  obtain ⟨W, hW⟩ := foldlM_some (loadWord Bi) (List.range 16)
    (fun W i hi => loadWord_some Bi W i hB (List.mem_range.mp hi)) (List.replicate 68 0)
  unfold cf
  rw [hW]
  exact ⟨_, rfl⟩

/-- Every block index below `len(m) / 64` passes the slice check, and its block
has 64 bytes. -/
theorem blockStep_eq (s : SM3) (m : List Nat) (V : Regs) (i : Nat) (hi : i < m.length / 64) :
    blockStep s m V i = cf s V ((m.drop (i * 64)).take 64) ∧
      ((m.drop (i * 64)).take 64).length = 64 := by
  have h : (i + 1) * 64 ≤ m.length := by
    have := Nat.div_mul_le_self m.length 64
    have : (i + 1) * 64 ≤ m.length / 64 * 64 := Nat.mul_le_mul_right 64 hi
    omega
  refine ⟨by unfold blockStep; rw [if_pos h], ?_⟩
  rw [List.length_take, List.length_drop]
  omega

/-- The padding loop of `sm3Hash` ends: it appends the zero bytes that bring the
length to 56 modulo 64. -/
theorem padZeros_eq (m : List Nat) :
    padZeros m = m ++ List.replicate ((120 - m.length % 64) % 64) 0 := by
  generalize hn : (120 - m.length % 64) % 64 = n
  induction n generalizing m with
  | zero =>
    rw [padZeros, dif_neg (by omega)]
    simp
  | succ n ih =>
    rw [padZeros, dif_pos (by omega), ih (m ++ [0]) (by simp only [List.length_append, List.length_singleton]; omega)]
    simp [List.replicate_succ]

theorem lengthBlock_eq (b : Nat) :
    lengthBlock b = [(b >>> 56) % 256, (b >>> 48) % 256, (b >>> 40) % 256, (b >>> 32) % 256,
      (b >>> 24) % 256, (b >>> 16) % 256, (b >>> 8) % 256, (b >>> 0) % 256] := rfl

theorem lengthBlock_bitLen (L : Nat) : lengthBlock ((L * 8) % 2 ^ 64) = bigEndian64 (8 * L) := by
  rw [lengthBlock_eq]
  simp only [bigEndian64, Nat.shiftRight_eq_div_pow, List.cons.injEq, and_true]
  refine ⟨?_, ?_, ?_, ?_, ?_, ?_, ?_, ?_⟩ <;> omega

/-- The padded message in closed form. -/
theorem padMessage_eq (msg : List Nat) :
    padMessage msg = msg ++ [0x80] ++
      List.replicate (64 * ((msg.length + 8) / 64 + 1) - (msg.length + 9)) 0 ++
      bigEndian64 (8 * msg.length) := by
  unfold padMessage
  simp only []
  rw [padZeros_eq, lengthBlock_bitLen]
  congr 3
  simp only [List.length_append, List.length_singleton]
  omega

theorem padMessage_length (msg : List Nat) :
    (padMessage msg).length = 64 * ((msg.length + 8) / 64 + 1) := by
  rw [padMessage_eq]
  simp only [List.length_append, List.length_singleton, List.length_replicate, bigEndian64,
    List.length_cons, List.length_nil]
  omega

theorem digestBytes_length (V : Regs) : (digestBytes V).length = 32 := rfl

/-- C5. For every byte sequence `msg` (the empty one too) `Hash` returns a byte
sequence: the block loop ends with a chaining value `V`, and the result is the
32 bytes of the eight words of `V`, each written big-endian. -/
theorem C5_Hash_length (s : SM3) (msg : List Nat) :
    ∃ V : Regs,
      (List.range ((padMessage msg).length / 64)).foldlM (blockStep s (padMessage msg)) s.iv
        = some V ∧
      Hash s msg = some (digestBytes V) ∧ (digestBytes V).length = 32 ∧
      digestBytes V =
        [V.A >>> 24 % 256, V.A >>> 16 % 256, V.A >>> 8 % 256, V.A % 256,
         V.B >>> 24 % 256, V.B >>> 16 % 256, V.B >>> 8 % 256, V.B % 256,
         V.C >>> 24 % 256, V.C >>> 16 % 256, V.C >>> 8 % 256, V.C % 256,
         V.D >>> 24 % 256, V.D >>> 16 % 256, V.D >>> 8 % 256, V.D % 256,
         V.E >>> 24 % 256, V.E >>> 16 % 256, V.E >>> 8 % 256, V.E % 256,
         V.F >>> 24 % 256, V.F >>> 16 % 256, V.F >>> 8 % 256, V.F % 256,
         V.G >>> 24 % 256, V.G >>> 16 % 256, V.G >>> 8 % 256, V.G % 256,
         V.H >>> 24 % 256, V.H >>> 16 % 256, V.H >>> 8 % 256, V.H % 256] := by
  obtain ⟨V, hV⟩ := foldlM_some (blockStep s (padMessage msg))
    (List.range ((padMessage msg).length / 64))
    (fun V i hi => by
      have h := blockStep_eq s (padMessage msg) V i (List.mem_range.mp hi)
      rw [h.1]
      exact cf_some s V _ (by rw [h.2])) s.iv
  refine ⟨V, hV, ?_, rfl, rfl⟩
  unfold Hash sm3Hash
  simp only []
  rw [hV]
  rfl

/-- C6. The padding loop of `sm3Hash` ends, and the padded buffer is `msg`, the
byte `0x80`, zero bytes, and the 8-byte big-endian encoding of `8 * L`. Its length is
`64 * ((L + 8) / 64 + 1)`, the smallest multiple of 64 that is at least `L + 9`;
the block loop applies `cf` once for each `i < (L + 8) / 64 + 1`, on the 64 bytes
from `64 * i`. -/
theorem C6_padding (s : SM3) (msg : List Nat) :
    padMessage msg = msg ++ [0x80] ++
      List.replicate (64 * ((msg.length + 8) / 64 + 1) - (msg.length + 9)) 0 ++
      bigEndian64 (8 * msg.length) ∧
    (padMessage msg).length = 64 * ((msg.length + 8) / 64 + 1) ∧
    0 < (padMessage msg).length ∧ msg.length + 9 ≤ (padMessage msg).length ∧
    (∀ n, 64 ∣ n → msg.length + 9 ≤ n → (padMessage msg).length ≤ n) ∧
    (padMessage msg).length / 64 = (msg.length + 8) / 64 + 1 ∧
    (∀ i, i < (msg.length + 8) / 64 + 1 →
      (((padMessage msg).drop (i * 64)).take 64).length = 64) ∧
    sm3Hash s msg =
      ((List.range ((msg.length + 8) / 64 + 1)).foldlM
        (fun V i => cf s V (((padMessage msg).drop (i * 64)).take 64)) s.iv).map digestBytes := by
  have hlen := padMessage_length msg
  have hcount : (padMessage msg).length / 64 = (msg.length + 8) / 64 + 1 := by
    rw [hlen]; omega
  refine ⟨padMessage_eq msg, hlen, by omega, by omega, ?_, hcount, ?_, ?_⟩
  · intro n hn hle
    obtain ⟨k, rfl⟩ := hn
    omega
  · intro i hi
    exact (blockStep_eq s (padMessage msg) s.iv i (by rw [hcount]; exact hi)).2
  · unfold sm3Hash
    simp only []
    rw [hcount, foldlM_congr (blockStep s (padMessage msg)) _ _
      (fun V i hi => (blockStep_eq s (padMessage msg) V i
        (by rw [hcount]; exact List.mem_range.mp hi)).1)]
    cases (List.range ((msg.length + 8) / 64 + 1)).foldlM
      (fun V i => cf s V (((padMessage msg).drop (i * 64)).take 64)) s.iv <;> rfl


theorem padMessage_nil : padMessage [] =
    [0x80] ++ List.replicate 55 0 ++ [0, 0, 0, 0, 0, 0, 0, 0] := by
  rw [padMessage_eq]
  rfl

/-- C7. The hash engine computes the known SM3 digest of the empty message:
`New().Hash` of the empty byte sequence is
`1ab21d83 55cfa17f 8e611948 31e81a8f 22bec8c7 28fefb74 7ed035eb 5082aa2b`. -/
theorem C7_Hash_empty :
    Hash New [] = some
      [0x1a, 0xb2, 0x1d, 0x83, 0x55, 0xcf, 0xa1, 0x7f, 0x8e, 0x61, 0x19, 0x48,
       0x31, 0xe8, 0x1a, 0x8f, 0x22, 0xbe, 0xc8, 0xc7, 0x28, 0xfe, 0xfb, 0x74,
       0x7e, 0xd0, 0x35, 0xeb, 0x50, 0x82, 0xaa, 0x2b] := by
  unfold Hash sm3Hash
  simp only []
  rw [padMessage_nil]
  decide!

end Sm3

/-! ## The payload builder: padding -/

namespace Signer

/-- C8. `pkcs7Pad(data, 16)` returns `data` followed by `p` bytes equal to `p`,
with `p = 16 - L mod 16`; `p` is between 1 and 16 (a full block of padding when
`L` is a multiple of 16), and the length of the result is `16 * (L / 16 + 1)`,
the smallest multiple of 16 strictly greater than `L`. -/
theorem C8_pkcs7Pad (data : List Nat) :
    pkcs7Pad data 16 =
      some (data ++ List.replicate (16 - data.length % 16) (16 - data.length % 16)) ∧
    1 ≤ 16 - data.length % 16 ∧ 16 - data.length % 16 ≤ 16 ∧
    (data.length % 16 = 0 → 16 - data.length % 16 = 16) ∧
    (data ++ List.replicate (16 - data.length % 16) (16 - data.length % 16)).length =
      16 * (data.length / 16 + 1) ∧
    data.length < 16 * (data.length / 16 + 1) ∧
    (∀ n, 16 ∣ n → data.length < n → 16 * (data.length / 16 + 1) ≤ n) := by
  have hmod : Int.tmod (data.length : Int) 16 = ((data.length % 16 : Nat) : Int) :=
    (Int.ofNat_tmod data.length 16).symm
  have hpad : (16 : Int) - ((data.length % 16 : Nat) : Int) = ((16 - data.length % 16 : Nat) : Int) := by
    omega
  refine ⟨?_, by omega, by omega, by omega, ?_, by omega, ?_⟩
  · unfold pkcs7Pad
    rw [if_neg (by decide)]
    simp only [hmod, hpad]
    rw [if_neg (by omega)]
    have h1 : (((16 - data.length % 16 : Nat) : Int) % 256).toNat = 16 - data.length % 16 := by
      omega
    rw [h1, Int.toNat_ofNat]
  · simp only [List.length_append, List.length_replicate]
    omega
  · intro n hn hlt
    obtain ⟨k, rfl⟩ := hn
    omega

end Signer

/-! ## The codec: truncated input, end of message, encoder errors, fixed-width fields -/

namespace Signer

/-- An iteration whose tag cannot be read panics. -/
theorem parseLoop_tagPanic (r : ProtoReader) (pb : ProtoBuf) (hrem : r.remain 1 = true)
    (htag : r.ReadVarint = .panic) : parseLoop r pb = .panic := by
  rw [parseLoop_eq, if_pos hrem, htag]

/-- An iteration whose `switch` panics makes the loop panic. -/
theorem parseLoop_fieldPanic (r : ProtoReader) (pb : ProtoBuf) (key : Nat) (r1 : ProtoReader)
    (hrem : r.remain 1 = true)
    (htag : r.ReadVarint = .ok (key, r1)) (hidx : toInt (key >>> 3) ≠ 0)
    (hval : parseField (toInt (key >>> 3)) ((key &&& 7 : Nat) : Int) r1 = .panic) :
    parseLoop r pb = .panic := by
  rw [parseLoop_eq, if_pos hrem, htag]
  simp only [if_neg hidx, hval]

/-- C11 (failing inputs). On a `String` field whose declared length 5 exceeds
the one byte left (`12 05 01`), on an `Int32` field with two bytes (`0d 01 02`),
on an `Int64` field with three bytes (`09 01 02 03`) and on a varint cut off
after a continuation byte (`08 80`), `NewProtoBufFromBytes` panics: it returns
neither a message nor an error to its caller. -/
theorem C11_truncated_input_panics :
    NewProtoBufFromBytes [0x12, 0x05, 0x01] = .panic ∧
    NewProtoBufFromBytes [0x0d, 0x01, 0x02] = .panic ∧
    NewProtoBufFromBytes [0x09, 0x01, 0x02, 0x03] = .panic ∧
    NewProtoBufFromBytes [0x08, 0x80] = .panic ∧
    (∀ e, NewProtoBufFromBytes [0x12, 0x05, 0x01] ≠ .error e) := by
  have h1 : NewProtoBufFromBytes [0x12, 0x05, 0x01] = .panic := by
    rw [NewProtoBufFromBytes_eq]
    exact parseLoop_fieldPanic [0x12, 0x05, 0x01] [] 0x12 [0x05, 0x01] (by decide) (by decide)
      (by decide) (by decide)
  refine ⟨h1, ?_, ?_, ?_, ?_⟩
  · rw [NewProtoBufFromBytes_eq]
    exact parseLoop_fieldPanic [0x0d, 0x01, 0x02] [] 0x0d [0x01, 0x02] (by decide) (by decide)
      (by decide) (by decide)
  · rw [NewProtoBufFromBytes_eq]
    exact parseLoop_fieldPanic [0x09, 0x01, 0x02, 0x03] [] 0x09 [0x01, 0x02, 0x03] (by decide)
      (by decide) (by decide) (by decide)
  · rw [NewProtoBufFromBytes_eq]
    exact parseLoop_fieldPanic [0x08, 0x80] [] 0x08 [0x80] (by decide) (by decide)
      (by decide) (by decide)
  · intro e he
    rw [h1] at he
    cases he

/-- C12. When parsing of `data` reaches a tag (`key`, read at the head of the
loop) whose decoded index is `0`, `NewProtoBufFromBytes` returns, without
error, exactly the fields `pb` put before that tag, whatever the type bits of
the tag and whatever bytes `r1` follow it. -/
theorem C12_index_zero_stops (data : List Nat) (r : ProtoReader) (pb : ProtoBuf)
    (key : Nat) (r1 : ProtoReader) (hreach : Reaches data r pb) (hrem : r.remain 1 = true)
    (htag : r.ReadVarint = .ok (key, r1)) (hidx : toInt (key >>> 3) = 0) :
    NewProtoBufFromBytes data = .ok pb := by
  rw [NewProtoBufFromBytes_eq, parseLoop_of_Reaches hreach]
  exact parseLoop_stop r pb key r1 hrem htag hidx

/-- C12 on the input `08 05 03 ff ff`: the field `1` (a varint `5`) is read,
then the tag `0x03` has index `0` (and the unsupported type `3`), and the two
bytes `ff ff` after it are not read. -/
theorem C12_index_zero_stops_witness :
    NewProtoBufFromBytes [8, 5, 3, 255, 255] = .ok [⟨1, 0, 5, []⟩] :=
  C12_index_zero_stops [8, 5, 3, 255, 255] [3, 255, 255] [⟨1, 0, 5, []⟩] 3 [255, 255]
    (Reaches.step 8 [5, 3, 255, 255] ⟨1, 0, 5, []⟩ [3, 255, 255] Reaches.start
      (by decide) (by decide) (by decide) (by decide))
    (by decide) (by decide) (by decide)

/-- The loop of `ToBytes` returns the encoder error as soon as a field has an
unsupported type. -/
theorem ToBytesLoop_unsupported (fs : List ProtoField) : ∀ w : ProtoWriter,
    ¬ supportedMsg fs → ToBytesLoop w fs = .error ⟨"unexpected field type in encoder"⟩ := by
  induction fs with
  | nil => intro w h; exact absurd (fun f hf => by simp at hf) h
  | cons f fs ih =>
    intro w h
    by_cases hf : supportedType f.Type_
    · rw [ToBytesLoop_cons w f fs hf]
      apply ih
      intro hfs
      apply h
      intro g hg
      rcases List.mem_cons.mp hg with hg | hg
      · rw [hg]; exact hf
      · exact hfs g hg
    · unfold supportedType at hf
      simp only [not_or] at hf
      simp only [ToBytesLoop]
      rw [if_neg hf.2.2.2, if_neg hf.2.1, if_neg hf.1, if_neg hf.2.2.1]

/-- C13. `ToBytes` returns an error, and so no bytes, exactly when some field of
the message has a type outside `Varint`, `Int64`, `String`, `Int32`; the error
is "unexpected field type in encoder", which is not the error
"unexpected protobuf field type" of the decoder. -/
theorem C13_ToBytes_error_iff (m : ProtoBuf) :
    ((∃ e, m.ToBytes = .error e) ↔ ∃ f ∈ m, ¬ supportedType f.Type_) ∧
    (∀ e, m.ToBytes = .error e → e = ⟨"unexpected field type in encoder"⟩) ∧
    (∀ idx ftype r, ¬ supportedType ftype →
      parseField idx ftype r = .error ⟨"unexpected protobuf field type"⟩) ∧
    (⟨"unexpected field type in encoder"⟩ : ProtoError) ≠ ⟨"unexpected protobuf field type"⟩ := by
  have hcases : (supportedMsg m ∧ m.ToBytes = .ok (m.flatMap fieldEncoding)) ∨
      (¬ supportedMsg m ∧ m.ToBytes = .error ⟨"unexpected field type in encoder"⟩) := by
    by_cases h : supportedMsg m
    · exact Or.inl ⟨h, ToBytes_supported m h⟩
    · exact Or.inr ⟨h, ToBytesLoop_unsupported m _ h⟩
  have hnot : ¬ supportedMsg m ↔ ∃ f ∈ m, ¬ supportedType f.Type_ := by
    unfold supportedMsg
    push_neg
    rfl
  refine ⟨?_, ?_, ?_, by decide⟩
  · rw [← hnot]
    rcases hcases with ⟨h, hb⟩ | ⟨h, hb⟩
    · rw [hb]
      exact ⟨fun ⟨e, he⟩ => (by cases he), fun hn => absurd h hn⟩
    · exact ⟨fun _ => h, fun _ => ⟨_, hb⟩⟩
  · intro e he
    rcases hcases with ⟨_, hb⟩ | ⟨_, hb⟩
    · rw [hb] at he; cases he
    · rw [hb] at he
      injection he with he
      exact he.symm
  · exact fun idx ftype r h => parseField_unsupported idx ftype r h

/-- A byte below `0x80` is a complete varint. -/
theorem ReadVarint_single (b : Nat) (rest : List Nat) (h : b < 128) :
    ProtoReader.ReadVarint (b :: rest) = .ok (b, rest) := by
  unfold ProtoReader.ReadVarint
  rw [ReadVarintLoop_cons, if_pos h, and7F_eq_mod, Nat.mod_eq_of_lt h, Nat.shiftLeft_eq,
    Nat.pow_zero, Nat.mul_one, Nat.mod_eq_of_lt (by omega), Nat.zero_or]

/-- The tag of a field with an index from `1` to `15` and a type `t < 8` is the
single byte `(i << 3) | t = 8 * i + t`. -/
theorem fieldTag_byte (i t v : Nat) (bs : List Nat) (hi : i ≤ 15) (ht : t < 8) :
    fieldTag ⟨(i : Int), (t : Int), v, bs⟩ = (i <<< 3) ||| t ∧ (i <<< 3) ||| t = 8 * i + t := by
  have hu : toUint64 (i : Int) = i := by
    unfold toUint64
    omega
  have hut : toUint64 (t : Int) = t := by
    unfold toUint64
    omega
  have hor : (i <<< 3) ||| t = 8 * i + t := by
    have := Nat.mul_add_lt_is_or (i := 3) (b := t) (by simpa using ht) i
    rw [Nat.shiftLeft_eq, Nat.mul_comm i, ← this]
  refine ⟨?_, hor⟩
  show ((toUint64 (i : Int) <<< 3) % 2 ^ 64) ||| toUint64 (t : Int) = _
  rw [hu, hut, Nat.shiftLeft_eq, Nat.mod_eq_of_lt (by omega), ← Nat.shiftLeft_eq]

/-- A single fixed-width field with an index from `1` to `15`: its encoding and
the decoding of that encoding, for the type `t` (`1` or `5`), the value bytes
`vb` and the decoded value `v`. -/
theorem fixedField_roundtrip (i t v : Nat) (vb : List Nat) (hi1 : 1 ≤ i) (hi2 : i ≤ 15)
    (ht : t < 8) (hsup : supportedType (t : Int))
    (henc : fieldEncoding ⟨(i : Int), (t : Int), v, []⟩ =
      varintBytes (fieldTag ⟨(i : Int), (t : Int), v, []⟩) ++ vb)
    (hdec : parseField (i : Int) (t : Int) vb = .ok (⟨(i : Int), (t : Int), v, []⟩, [])) :
    ProtoBuf.ToBytes [⟨(i : Int), (t : Int), v, []⟩] = .ok (((i <<< 3) ||| t) :: vb) ∧
    NewProtoBufFromBytes (((i <<< 3) ||| t) :: vb) = .ok [⟨(i : Int), (t : Int), v, []⟩] := by
  obtain ⟨htag, hor⟩ := fieldTag_byte i t v [] hi2 ht
  have hlt : (i <<< 3) ||| t < 128 := by omega
  have hvb : varintBytes ((i <<< 3) ||| t) = [(i <<< 3) ||| t] := by
    rw [varintBytes_small _ (by omega)]
    congr 1
    omega
  have hshift : toInt (((i <<< 3) ||| t) >>> 3) = (i : Int) := by
    rw [hor, Nat.shiftRight_eq_div_pow, toInt_small _ (by omega)]
    congr 1
    omega
  have hand : ((i <<< 3) ||| t) &&& 7 = t := by
    have := Nat.and_pow_two_sub_one_eq_mod ((i <<< 3) ||| t) 3
    norm_num at this
    rw [this, hor]
    omega
  constructor
  · rw [ToBytes_supported _ (by intro g hg; simp at hg; rw [hg]; exact hsup)]
    simp only [List.flatMap_cons, List.flatMap_nil, List.append_nil]
    rw [henc, htag, hvb]
    rfl
  · rw [NewProtoBufFromBytes_eq]
    show parseLoop ((i <<< 3 ||| t) :: vb) [] = _
    rw [parseLoop_field ((i <<< 3 ||| t) :: vb) [] ((i <<< 3) ||| t) vb
      ⟨(i : Int), (t : Int), v, []⟩ [] (by simp [ProtoReader.remain])
      (ReadVarint_single _ _ hlt) (by rw [hshift]; omega) (by rw [hshift, hand]; exact hdec)]
    exact parseLoop_nil _

/-- C14. For every index `i` from `1` to `15`: a message with the single `Int64`
field `(i, v)`, `v` any 64-bit value, is encoded as the tag byte `(i << 3) | 1`
followed by the 8 little-endian bytes of `v`, and decodes to the same field with
the value `v`; a message with the single `Int32` field `(i, w)`, `w < 2^32`, is
encoded as the tag byte `(i << 3) | 5` followed by 4 little-endian bytes, and
decodes to the same field with the value `w`. No 32-bit mask applies. -/
theorem C14_fixed_width_fields (i v w : Nat) (hi1 : 1 ≤ i) (hi2 : i ≤ 15) (hv : v < 2 ^ 64)
    (hw : w < 2 ^ 32) :
    (ProtoBuf.ToBytes [⟨(i : Int), TypeInt64, v, []⟩] = .ok (((i <<< 3) ||| 1) :: putLE 8 v) ∧
      NewProtoBufFromBytes (((i <<< 3) ||| 1) :: putLE 8 v) =
        .ok [⟨(i : Int), TypeInt64, v, []⟩]) ∧
    (ProtoBuf.ToBytes [⟨(i : Int), TypeInt32, w, []⟩] = .ok (((i <<< 3) ||| 5) :: putLE 4 w) ∧
      NewProtoBufFromBytes (((i <<< 3) ||| 5) :: putLE 4 w) =
        .ok [⟨(i : Int), TypeInt32, w, []⟩]) := by
  constructor
  · refine fixedField_roundtrip i 1 v (putLE 8 v) hi1 hi2 (by omega) (by decide) ?_ ?_
    · simp [fieldEncoding, TypeVarint, TypeInt64]
    · have h := read_append (putLE 8 v) []
      rw [putLE_length] at h
      simp only [Nat.cast_ofNat, List.append_nil] at h
      have hmod : v % 256 ^ 8 = v := Nat.mod_eq_of_lt (by norm_num at hv ⊢; omega)
      simp only [parseField, TypeInt32, TypeInt64, ProtoReader.ReadInt64, h, getLE_putLE, hmod]
      simp
  · refine fixedField_roundtrip i 5 w (putLE 4 w) hi1 hi2 (by omega) (by decide) ?_ ?_
    · simp [fieldEncoding, TypeVarint, TypeInt64, TypeInt32]
    · have h := read_append (putLE 4 w) []
      rw [putLE_length] at h
      simp only [Nat.cast_ofNat, List.append_nil] at h
      have hmod : w % 256 ^ 4 = w := Nat.mod_eq_of_lt (by norm_num at hw ⊢; omega)
      simp only [parseField, TypeInt32, ProtoReader.ReadInt32, h, getLE_putLE, hmod]
      simp

/-- C14 at the index `15`, with an `Int64` value above `2^32` and the largest
`Int32` value. -/
theorem C14_fixed_width_fields_witness :
    (ProtoBuf.ToBytes [⟨((15 : Nat) : Int), TypeInt64, 1311768467463790320, []⟩] =
        .ok (((15 <<< 3) ||| 1) :: putLE 8 1311768467463790320) ∧
      NewProtoBufFromBytes (((15 <<< 3) ||| 1) :: putLE 8 1311768467463790320) =
        .ok [⟨((15 : Nat) : Int), TypeInt64, 1311768467463790320, []⟩]) ∧
    (ProtoBuf.ToBytes [⟨((15 : Nat) : Int), TypeInt32, 4294967295, []⟩] =
        .ok (((15 <<< 3) ||| 5) :: putLE 4 4294967295) ∧
      NewProtoBufFromBytes (((15 <<< 3) ||| 5) :: putLE 4 4294967295) =
        .ok [⟨((15 : Nat) : Int), TypeInt32, 4294967295, []⟩]) :=
  C14_fixed_width_fields 15 1311768467463790320 4294967295 (by decide) (by decide) (by decide)
    (by decide)

end Signer

/-! ## The payload builder -/

namespace Signer

theorem foldlM_invariant {α β : Type} (P : β → Prop) (f : β → α → Option β) (l : List α) :
    (∀ b, ∀ a ∈ l, P b → ∃ b', f b a = some b' ∧ P b') →
    ∀ b, P b → ∃ b', l.foldlM f b = some b' ∧ P b' := by
  induction l with
  | nil => intro _ b hb; exact ⟨b, rfl, hb⟩
  | cons a l ih =>
    intro h b hb
    obtain ⟨b1, hb1, hP1⟩ := h b a (by simp) hb
    obtain ⟨b2, hb2, hP2⟩ := ih (fun b x hx => h b x (by simp [hx])) b1 hP1
    exact ⟨b2, by simp [List.foldlM, hb1, hb2], hP2⟩

/-- The type switch of `Encrypt` puts the field `valueField k v`, if any. -/
theorem putValue_eq (pb : ProtoBuf) (k : Int) (v : Value) :
    putValue pb k v = pb ++ (valueField k v).toList := by
  cases v <;>
    simp [putValue, valueField, ProtoBuf.PutVarint, ProtoBuf.PutUtf8, ProtoBuf.PutBytes,
      ProtoBuf.Put, subKeys, ProtoBuf.ToBytes, ToBytesLoop, NewProtoWriter, ProtoWriter.Bytes]

theorem foldl_putValue (x : AnyMap) (l : List Int) : ∀ pb : ProtoBuf,
    l.foldl (fun pb k => putValue pb k (x k)) pb = pb ++ l.filterMap (fun k => valueField k (x k)) := by
  induction l with
  | nil => intro pb; simp
  | cons k l ih =>
    intro pb
    rw [List.foldl_cons, ih, putValue_eq]
    cases h : valueField k (x k) <;> simp [List.filterMap_cons, h]

/-- The message of `Encrypt` holds, in the order of the key list, the fields of
the entries at the allow-listed keys. -/
theorem buildMessage_eq (x : AnyMap) :
    buildMessage x = allowKeys.filterMap (fun k => valueField k (x k)) := by
  unfold buildMessage
  rw [foldl_putValue]
  rfl

theorem valueField_props (k : Int) (v : Value) (f : ProtoField) (h : valueField k v = some f) :
    f.Idx = k ∧ (f.Type_ = TypeVarint ∨ f.Type_ = TypeString) := by
  cases v <;> simp [valueField] at h <;> subst h <;> simp

theorem buildMessage_supported (x : AnyMap) : supportedMsg (buildMessage x) := by
  intro f hf
  rw [buildMessage_eq, List.mem_filterMap] at hf
  obtain ⟨k, _, hk⟩ := hf
  rcases (valueField_props k (x k) f hk).2 with h | h
  · exact Or.inl h
  · exact Or.inr (Or.inr (Or.inl h))

/-- Two maps whose entries at the allow-listed keys contribute the same fields
give the same message. -/
theorem buildMessage_congr (x y : AnyMap)
    (h : ∀ k ∈ allowKeys, valueField k (x k) = valueField k (y k)) :
    buildMessage x = buildMessage y := by
  rw [buildMessage_eq, buildMessage_eq]
  apply List.filterMap_congr
  exact h

/-- `Encrypt` depends on the map through the message only. -/
theorem Encrypt_congr (E : Env) (x y : AnyMap) (h : buildMessage x = buildMessage y) :
    Encrypt E x = Encrypt E y := by
  unfold Encrypt encryptBytes
  rw [h]

/-- `pkcs7Pad(data, 16)` returns, with a length that is the next multiple of 16. -/
theorem pkcs7Pad_sixteen (data : List Nat) :
    ∃ p, pkcs7Pad data 16 = some p ∧ p.length = 16 * (data.length / 16 + 1) := by
  have hmod : Int.tmod (data.length : Int) 16 = ((data.length % 16 : Nat) : Int) :=
    (Int.ofNat_tmod data.length 16).symm
  have hpad : (16 : Int) - ((data.length % 16 : Nat) : Int) =
      ((16 - data.length % 16 : Nat) : Int) := by omega
  refine ⟨data ++ List.replicate (16 - data.length % 16) (16 - data.length % 16), ?_, ?_⟩
  · unfold pkcs7Pad
    rw [if_neg (by decide)]
    simp only [hmod, hpad]
    rw [if_neg (by omega)]
    have h1 : (((16 - data.length % 16 : Nat) : Int) % 256).toNat = 16 - data.length % 16 := by
      omega
    rw [h1, Int.toNat_ofNat]
  · simp only [List.length_append, List.length_replicate]
    omega

/-- `SimonEnc` returns a block for every block, key and mode. -/
theorem SimonEnc_some (b : Nat × Nat) (k : Simon.Key4) (c : Int) :
    ∃ ct, Simon.SimonEnc b k c = some ct := by
  obtain ⟨key, hk, hl⟩ := Simon.keyExpansion_some (Simon.initKey k) (by simp [Simon.initKey])
  obtain ⟨ct, h1, _⟩ := Simon.decRounds_encRounds key c (List.range 72) b
    (fun i hi => by rw [hl]; exact List.mem_range.mp hi)
  exact ⟨ct, by unfold Simon.SimonEnc; rw [hk]; exact h1⟩

theorem putUint64At_some (buf : List Nat) (off v : Nat) (h : off + 8 ≤ buf.length) :
    ∃ b, putUint64At buf off v = some b ∧ b.length = buf.length := by
  refine ⟨_, by unfold putUint64At; rw [if_pos h], ?_⟩
  simp only [List.length_append, List.length_take, List.length_drop, putLE_length]
  omega

/-- A step of the block loop of `Encrypt` succeeds on every block index below
`n / 16` and keeps the length of `encPB`. -/
theorem encryptBlock_some (protobuf encPB : List Nat) (i : Nat)
    (hi : i < protobuf.length / 16) (hlen : encPB.length = protobuf.length) :
    ∃ e, encryptBlock protobuf encPB i = some e ∧ e.length = protobuf.length := by
  have hb : i * 16 + 16 ≤ protobuf.length := by
    have := Nat.div_mul_le_self protobuf.length 16
    have : (i + 1) * 16 ≤ protobuf.length / 16 * 16 := Nat.mul_le_mul_right 16 hi
    omega
  have hs0 : slice protobuf (i * 16) (i * 16 + 8) =
      some ((protobuf.drop (i * 16)).take (i * 16 + 8 - i * 16)) := by
    unfold slice; rw [if_pos ⟨by omega, by omega⟩]
  have hs1 : slice protobuf (i * 16 + 8) (i * 16 + 16) =
      some ((protobuf.drop (i * 16 + 8)).take (i * 16 + 16 - (i * 16 + 8))) := by
    unfold slice; rw [if_pos ⟨by omega, by omega⟩]
  obtain ⟨ct, hct⟩ := SimonEnc_some
    (getLE ((protobuf.drop (i * 16)).take (i * 16 + 8 - i * 16)),
     getLE ((protobuf.drop (i * 16 + 8)).take (i * 16 + 16 - (i * 16 + 8)))) keyList 0
  obtain ⟨e1, he1, hl1⟩ := putUint64At_some encPB (i * 16) ct.1 (by omega)
  obtain ⟨e2, he2, hl2⟩ := putUint64At_some e1 (i * 16 + 8) ct.2 (by omega)
  refine ⟨e2, ?_, by omega⟩
  unfold encryptBlock
  simp only [hs0, hs1, Option.bind_eq_bind, Option.some_bind, Option.bind_some, hct, he1, he2]

theorem xorStep_some (out : List Nat) (i : Nat) (h : i < out.length) :
    ∃ o, xorStep out i = some o ∧ o.length = out.length := by
  have h8 : i % 8 < out.length := lt_of_le_of_lt (Nat.mod_le i 8) h
  refine ⟨out.set i (out[i] ^^^ out[i % 8]), ?_, by simp⟩
  simp [xorStep, List.getElem?_eq_getElem, h, h8]

theorem swapStep_some (out : List Nat) (i : Nat) (h : i < out.length) :
    ∃ o, swapStep out i = some o ∧ o.length = out.length := by
  have hj : out.length - 1 - i < out.length := by omega
  refine ⟨(out.set i out[out.length - 1 - i]).set (out.length - 1 - i) out[i], ?_, by simp⟩
  simp [swapStep, List.getElem?_eq_getElem, h, hj]

/-- `encryptEncPB(data, len(data))` returns a buffer of the length of `data` when
`data` has at least 8 bytes. -/
theorem encryptEncPB_some (data : List Nat) (h8 : 8 ≤ data.length) :
    ∃ o, encryptEncPB data (data.length : Int) = some o ∧ o.length = data.length := by
  obtain ⟨o1, ho1, hl1⟩ := foldlM_invariant (fun o => o.length = data.length) xorStep
    (List.range' 8 (data.length - 8))
    (fun b i hi hb => by
      obtain ⟨o, ho, hl⟩ := xorStep_some b i (by
        have := (List.mem_range'_1.mp hi).2
        omega)
      exact ⟨o, ho, by omega⟩) data rfl
  obtain ⟨o2, ho2, hl2⟩ := foldlM_invariant (fun o => o.length = data.length) swapStep
    (List.range (o1.length / 2))
    (fun b i hi hb => by
      obtain ⟨o, ho, hl⟩ := swapStep_some b i (by
        have := List.mem_range.mp hi
        omega)
      exact ⟨o, ho, by omega⟩) o1 hl1
  refine ⟨o2, ?_, hl2⟩
  unfold encryptEncPB
  simp only [Int.toNat_ofNat, Option.bind_eq_bind, Option.some_bind, Option.bind_some]
  rw [if_neg (by omega), ho1]
  exact ho2

/-- With a 16-byte key and a 16-byte `iv`, `aesCBCEncrypt` returns the blocks of
the padded plaintext. -/
theorem aesCBCEncrypt_ok (E : Env) (key iv plaintext : List Nat) (hk : key.length = 16)
    (hiv : iv.length = 16)
    (hcbc : ∀ k v src, (E.cryptBlocks k v src).length = src.length) :
    ∃ c, aesCBCEncrypt E key iv plaintext = .ok c ∧
      c.length = 16 * (plaintext.length / 16 + 1) := by
  obtain ⟨p, hp, hl⟩ := pkcs7Pad_sixteen plaintext
  refine ⟨E.cryptBlocks key iv p, ?_, by rw [hcbc, hl]⟩
  unfold aesCBCEncrypt
  rw [if_neg (by omega), hp]
  simp only [hiv, ne_eq, not_true_eq_false, if_false]

/-- The bytes of `Encrypt` before the base64 encoding: the marker `f2 81` and a
ciphertext of `n + 32` bytes, `n` the padded length of the serialized message. -/
theorem encryptBytes_ok (E : Env) (x : AnyMap)
    (hmd5 : ∀ d, (E.md5Sum d).length = 16)
    (hcbc : ∀ k v src, (E.cryptBlocks k v src).length = src.length) :
    ∃ ct, encryptBytes E x = .ok (0xf2 :: 0x81 :: ct) ∧
      ct.length = 16 * (((buildMessage x).flatMap fieldEncoding).length / 16 + 1) + 32 := by
  have hraw := ToBytes_supported (buildMessage x) (buildMessage_supported x)
  obtain ⟨protobuf, hpad, hn⟩ := pkcs7Pad_sixteen ((buildMessage x).flatMap fieldEncoding)
  obtain ⟨encPB, henc, hlenc⟩ := foldlM_invariant (fun e => e.length = protobuf.length)
    (encryptBlock protobuf) (List.range (protobuf.length / 16))
    (fun e i hi he => encryptBlock_some protobuf e i (List.mem_range.mp hi) he)
    (List.replicate protobuf.length 0) (by simp)
  have hbuf : ([0xf2, 0xf7, 0xfc, 0xff, 0xf2, 0xf7, 0xfc, 0xff] ++ encPB).length =
      protobuf.length + 8 := by
    simp only [List.length_append, List.length_cons, List.length_nil, hlenc]
    omega
  obtain ⟨buf, hbuf1, hlbuf⟩ := encryptEncPB_some
    ([0xf2, 0xf7, 0xfc, 0xff, 0xf2, 0xf7, 0xfc, 0xff] ++ encPB) (by omega)
  rw [hbuf] at hbuf1 hlbuf
  obtain ⟨c, hc, hlc⟩ := aesCBCEncrypt_ok E (E.md5Sum (signKey.take 16))
    (E.md5Sum (signKey.drop 16))
    ([0xa6, 0x6e, 0xad, 0x9f, 0x77, 0x01, 0xd0, 0x0c, 0x18] ++ buf ++ str "ao")
    (hmd5 _) (hmd5 _) hcbc
  refine ⟨c, ?_, ?_⟩
  · unfold encryptBytes
    simp only [hraw, hpad, henc]
    have hcast : ((protobuf.length : Nat) : Int) + 8 = ((protobuf.length + 8 : Nat) : Int) := by
      omega
    rw [hcast, hbuf1]
    simp only [hc]
    rfl
  · rw [hlc]
    have hao : (str "ao").length = 2 := by decide
    simp only [List.length_append, List.length_cons, List.length_nil, hlbuf, hao]
    omega

/-- C15. For every input map `Encrypt` succeeds: its output is the base64
encoding of the two bytes `f2 81` followed by a ciphertext `ct` of exactly
`n + 32` bytes, a multiple of 16, where `n = 16 * (len(raw) / 16 + 1)` is the
padded length of the serialized message `raw`. The standard library enters by
its contracts: `md5.Sum` yields 16 bytes and `CryptBlocks` as many bytes as it
is given. -/
theorem C15_Encrypt_output (E : Env) (x : AnyMap)
    (hmd5 : ∀ d, (E.md5Sum d).length = 16)
    (hcbc : ∀ k v src, (E.cryptBlocks k v src).length = src.length) :
    ∃ raw ct, (buildMessage x).ToBytes = .ok raw ∧
      Encrypt E x = .ok (E.base64Encode ([0xf2, 0x81] ++ ct)) ∧
      ct.length = 16 * (raw.length / 16 + 1) + 32 ∧ 16 ∣ ct.length := by
  obtain ⟨ct, hct, hl⟩ := encryptBytes_ok E x hmd5 hcbc
  refine ⟨_, ct, ToBytes_supported _ (buildMessage_supported x), ?_, hl, ?_⟩
  · unfold Encrypt
    rw [hct]
    rfl
  · rw [hl]
    exact ⟨((buildMessage x).flatMap fieldEncoding).length / 16 + 1 + 2, by omega⟩

/-- C15 on the map `{2: 2, 5: "123"}`, with the stand-ins of `sampleEnv`. -/
theorem C15_Encrypt_output_witness :
    ∃ raw ct, (buildMessage (mapLit [(2, .int 2), (5, .string (str "123"))])).ToBytes = .ok raw ∧
      Encrypt sampleEnv (mapLit [(2, .int 2), (5, .string (str "123"))]) =
        .ok (sampleEnv.base64Encode ([0xf2, 0x81] ++ ct)) ∧
      ct.length = 16 * (raw.length / 16 + 1) + 32 ∧ 16 ∣ ct.length :=
  C15_Encrypt_output sampleEnv (mapLit [(2, .int 2), (5, .string (str "123"))])
    (fun _ => rfl) (fun _ _ _ => rfl)

theorem filterMap_idx_sublist (x : AnyMap) (l : List Int) :
    ((l.filterMap (fun k => valueField k (x k))).map (fun f => f.Idx)).Sublist l := by
  induction l with
  | nil => simp
  | cons k l ih =>
    cases h : valueField k (x k) with
    | none =>
      simp only [List.filterMap_cons, h]
      exact List.Sublist.cons k ih
    | some f =>
      simp only [List.filterMap_cons, h, List.map_cons, (valueField_props k (x k) f h).1]
      exact List.Sublist.cons₂ k ih

/-- C16. The message that `Encrypt` serializes holds one field for each key of
the list `1,2,3,4,5,6,7,8,9,10,12,13,14,16,20,21,25`, in that order, whose value
is an `int`, `int64` or `uint64` (a `Varint` field), a string or a byte slice (a
`String` field) or a map; a key with another value or none contributes no field,
and serializing the message gives no error. Two maps with the same entries at
the keys of the list give the same output of `Encrypt`. -/
theorem C16_allow_list (E : Env) (x y : AnyMap) (h : ∀ k ∈ allowKeys, x k = y k) :
    allowKeys = [1, 2, 3, 4, 5, 6, 7, 8, 9, 10, 12, 13, 14, 16, 20, 21, 25] ∧
    buildMessage x = allowKeys.filterMap (fun k => valueField k (x k)) ∧
    ((buildMessage x).map (fun f => f.Idx)).Sublist allowKeys ∧
    (∃ raw, (buildMessage x).ToBytes = .ok raw) ∧
    buildMessage x = buildMessage y ∧
    Encrypt E x = Encrypt E y := by
  have hxy : buildMessage x = buildMessage y :=
    buildMessage_congr x y (fun k hk => by rw [h k hk])
  refine ⟨rfl, buildMessage_eq x, ?_, ⟨_, ToBytes_supported _ (buildMessage_supported x)⟩, hxy,
    Encrypt_congr E x y hxy⟩
  rw [buildMessage_eq]
  exact filterMap_idx_sublist x allowKeys

/-- C16 on two maps that agree on the keys of the list and differ at the keys
`11` and `30`; the entry at the key `3` has a type that contributes no field. -/
theorem C16_allow_list_witness :
    allowKeys = [1, 2, 3, 4, 5, 6, 7, 8, 9, 10, 12, 13, 14, 16, 20, 21, 25] ∧
    buildMessage (mapLit [(1, .int 5), (3, .other), (11, .string [122])]) =
      allowKeys.filterMap (fun k =>
        valueField k (mapLit [(1, .int 5), (3, .other), (11, .string [122])] k)) ∧
    ((buildMessage (mapLit [(1, .int 5), (3, .other), (11, .string [122])])).map
      (fun f => f.Idx)).Sublist allowKeys ∧
    (∃ raw, (buildMessage (mapLit [(1, .int 5), (3, .other), (11, .string [122])])).ToBytes
      = .ok raw) ∧
    buildMessage (mapLit [(1, .int 5), (3, .other), (11, .string [122])]) =
      buildMessage (mapLit [(1, .int 5), (3, .other), (30, .int 1)]) ∧
    Encrypt sampleEnv (mapLit [(1, .int 5), (3, .other), (11, .string [122])]) =
      Encrypt sampleEnv (mapLit [(1, .int 5), (3, .other), (30, .int 1)]) :=
  C16_allow_list sampleEnv (mapLit [(1, .int 5), (3, .other), (11, .string [122])])
    (mapLit [(1, .int 5), (3, .other), (30, .int 1)])
    (fun k hk => by
      simp only [allowKeys, List.mem_cons, List.mem_singleton, List.not_mem_nil, or_false] at hk
      rcases hk with h | h | h | h | h | h | h | h | h | h | h | h | h | h | h | h | h <;>
        subst h <;> rfl)

/-- C17. The type switch of `Encrypt` puts, for a nested map at the key `k`, the
`String` field `(k, empty)`, whatever the map holds; so that field is in the
message for every allow-listed key with a map value, and two input maps that
differ only in the contents of nested maps give the same output. -/
theorem C17_nested_maps_inert (E : Env) (x y : AnyMap)
    (h : ∀ k, x k = y k ∨ ∃ m m', x k = .map m ∧ y k = .map m') :
    (∀ (pb : ProtoBuf) (k : Int) (m : Int → Value),
      putValue pb k (.map m) = pb ++ [⟨k, TypeString, 0, []⟩]) ∧
    (∀ k ∈ allowKeys, ∀ m, x k = .map m → ⟨k, TypeString, 0, []⟩ ∈ buildMessage x) ∧
    buildMessage x = buildMessage y ∧
    Encrypt E x = Encrypt E y := by
  have hxy : buildMessage x = buildMessage y := by
    apply buildMessage_congr
    intro k _
    rcases h k with hk | ⟨m, m', hx, hy⟩
    · rw [hk]
    · rw [hx, hy]; rfl
  refine ⟨fun pb k m => ?_, fun k hk m hm => ?_, hxy, Encrypt_congr E x y hxy⟩
  · rw [putValue_eq]; rfl
  · rw [buildMessage_eq, List.mem_filterMap]
    exact ⟨k, hk, by rw [hm]; rfl⟩

/-- C17 on two maps whose nested maps at the key `1` differ. -/
theorem C17_nested_maps_inert_witness :
    (∀ (pb : ProtoBuf) (k : Int) (m : Int → Value),
      putValue pb k (.map m) = pb ++ [⟨k, TypeString, 0, []⟩]) ∧
    (∀ k ∈ allowKeys, ∀ m,
      (fun k => if k = 1 then Value.map (fun _ => .int 7) else mapLit [(2, .int 2)] k) k = .map m →
      ⟨k, TypeString, 0, []⟩ ∈
        buildMessage (fun k => if k = 1 then Value.map (fun _ => .int 7) else mapLit [(2, .int 2)] k)) ∧
    buildMessage (fun k => if k = 1 then Value.map (fun _ => .int 7) else mapLit [(2, .int 2)] k) =
      buildMessage (fun k => if k = 1 then Value.map (mapLit [(4, .string [97])])
        else mapLit [(2, .int 2)] k) ∧
    Encrypt sampleEnv
        (fun k => if k = 1 then Value.map (fun _ => .int 7) else mapLit [(2, .int 2)] k) =
      Encrypt sampleEnv
        (fun k => if k = 1 then Value.map (mapLit [(4, .string [97])])
          else mapLit [(2, .int 2)] k) :=
  C17_nested_maps_inert sampleEnv
    (fun k => if k = 1 then Value.map (fun _ => .int 7) else mapLit [(2, .int 2)] k)
    (fun k => if k = 1 then Value.map (mapLit [(4, .string [97])]) else mapLit [(2, .int 2)] k)
    (fun k => by
      by_cases hk : k = 1
      · exact Or.inr ⟨fun _ => .int 7, mapLit [(4, .string [97])], by simp only [hk, if_true],
          by simp only [hk, if_true]⟩
      · exact Or.inl (by simp only [hk, if_false]))


/-- `Hash` returns 32 bytes on every message. -/
theorem Hash_some (s : Sm3.SM3) (msg : List Nat) :
    ∃ out, Sm3.Hash s msg = some out ∧ out.length = 32 := by
  obtain ⟨V, hV⟩ := Sm3.foldlM_some (Sm3.blockStep s (Sm3.padMessage msg))
    (List.range ((Sm3.padMessage msg).length / 64))
    (fun V i hi => by
      have h := Sm3.blockStep_eq s (Sm3.padMessage msg) V i (List.mem_range.mp hi)
      rw [h.1]
      exact Sm3.cf_some s V _ (by rw [h.2])) s.iv
  refine ⟨Sm3.digestBytes V, ?_, rfl⟩
  unfold Sm3.Hash Sm3.sm3Hash
  simp only []
  rw [hV]
  rfl

theorem slice_six (out : List Nat) (h : out.length = 32) : slice out 0 6 = some (out.take 6) := by
  unfold slice
  rw [if_pos ⟨by omega, by omega⟩]
  rfl

theorem GetBodyHash_some (E : Env) (stub : List Nat) : ∃ b, GetBodyHash E stub = some b := by
  unfold GetBodyHash
  by_cases h : stub = []
  · obtain ⟨out, ho, hl⟩ := Hash_some Sm3.New (List.replicate 16 0)
    exact ⟨out.take 6, by
      simp only [h, reduceIte, ho, Option.bind_eq_bind, Option.some_bind, slice_six out hl]⟩
  · obtain ⟨out, ho, hl⟩ := Hash_some Sm3.New (E.hexDecode stub)
    exact ⟨out.take 6, by
      simp only [h, reduceIte, ho, Option.bind_eq_bind, Option.some_bind, slice_six out hl]⟩

theorem GetQueryHash_some (query : List Nat) : ∃ b, GetQueryHash query = some b := by
  unfold GetQueryHash
  by_cases h : query = []
  · obtain ⟨out, ho, hl⟩ := Hash_some Sm3.New (List.replicate 16 0)
    exact ⟨out.take 6, by
      simp only [h, reduceIte, ho, Option.bind_eq_bind, Option.some_bind, slice_six out hl]⟩
  · obtain ⟨out, ho, hl⟩ := Hash_some Sm3.New query
    exact ⟨out.take 6, by
      simp only [h, reduceIte, ho, Option.bind_eq_bind, Option.some_bind, slice_six out hl]⟩

/-- `GetSign` with a `device_id` in the query: it is `Encrypt` on the map of the
signing parameters. -/
theorem GetSign_eq (E : Env) (rnd : Int) (queryhash data : List Nat)
    (timestamp aid licenseID platform : Int) (secDeviceID sdkVersion : List Nat)
    (sdkVersionInt : Int) (d : List Nat) (rest : List (List Nat))
    (hdev : E.parseQuery queryhash (str "device_id") = d :: rest) :
    ∃ bodyHash queryHash, GetBodyHash E data = some bodyHash ∧
      GetQueryHash queryhash = some queryHash ∧
      GetSign E rnd queryhash data timestamp aid licenseID platform secDeviceID sdkVersion
        sdkVersionInt =
      Encrypt E (signMap rnd d timestamp aid licenseID secDeviceID sdkVersion sdkVersionInt
        bodyHash queryHash) := by
  obtain ⟨bh, hbh⟩ := GetBodyHash_some E data
  obtain ⟨qh, hqh⟩ := GetQueryHash_some queryhash
  refine ⟨bh, qh, hbh, hqh, ?_⟩
  unfold GetSign
  simp only [hdev, List.getElem?_cons_zero, hbh, hqh]

/-- The entries of the map of `GetSign` at the allow-listed keys contribute the
same fields whatever the random value is: the entry at the key `3` is an
`int32`, which contributes none. -/
theorem signMap_rnd (r1 r2 : Int) (d : List Nat) (timestamp aid licenseID : Int)
    (secDeviceID sdkVersion : List Nat) (sdkVersionInt : Int) (bh qh : List Nat) :
    ∀ k ∈ allowKeys,
      valueField k (signMap r1 d timestamp aid licenseID secDeviceID sdkVersion sdkVersionInt
        bh qh k) =
      valueField k (signMap r2 d timestamp aid licenseID secDeviceID sdkVersion sdkVersionInt
        bh qh k) := by
  intro k hk
  simp only [allowKeys, List.mem_cons, List.mem_singleton, List.not_mem_nil, or_false] at hk
  rcases hk with h | h | h | h | h | h | h | h | h | h | h | h | h | h | h | h | h <;>
    subst h <;> rfl

theorem signMap_no_field3 (rnd : Int) (d : List Nat) (timestamp aid licenseID : Int)
    (secDeviceID sdkVersion : List Nat) (sdkVersionInt : Int) (bh qh : List Nat) :
    ∀ f ∈ buildMessage (signMap rnd d timestamp aid licenseID secDeviceID sdkVersion
      sdkVersionInt bh qh), f.Idx ≠ 3 := by
  intro f hf hidx
  rw [buildMessage_eq, List.mem_filterMap] at hf
  obtain ⟨k, _, hkf⟩ := hf
  have hk : k = 3 := by rw [← (valueField_props k _ f hkf).1, hidx]
  subst hk
  exact absurd hkf (by simp [signMap, mapLit, List.lookup, valueField])

/-- C18. For a query string with a `device_id`, two calls of `GetSign` with the
same arguments return the same string, whatever values `r1` and `r2` the random
generator yields for the entry `3`: that entry is an `int32`, which `Encrypt`
drops, so the serialized message has no field with index 3. The standard
library enters as functions of their arguments, with the contracts of C15. -/
theorem C18_GetSign_deterministic (E : Env) (r1 r2 : Int) (queryhash data : List Nat)
    (timestamp aid licenseID platform : Int) (secDeviceID sdkVersion : List Nat)
    (sdkVersionInt : Int) (d : List Nat) (rest : List (List Nat))
    (hdev : E.parseQuery queryhash (str "device_id") = d :: rest)
    (hmd5 : ∀ x, (E.md5Sum x).length = 16)
    (hcbc : ∀ k v src, (E.cryptBlocks k v src).length = src.length) :
    ∃ s bodyHash queryHash,
      GetSign E r1 queryhash data timestamp aid licenseID platform secDeviceID sdkVersion
        sdkVersionInt = .ok s ∧
      GetSign E r2 queryhash data timestamp aid licenseID platform secDeviceID sdkVersion
        sdkVersionInt = .ok s ∧
      GetBodyHash E data = some bodyHash ∧ GetQueryHash queryhash = some queryHash ∧
      (∀ f ∈ buildMessage (signMap r1 d timestamp aid licenseID secDeviceID sdkVersion
        sdkVersionInt bodyHash queryHash), f.Idx ≠ 3) := by
  obtain ⟨bh, qh, hbh, hqh, h1⟩ := GetSign_eq E r1 queryhash data timestamp aid licenseID
    platform secDeviceID sdkVersion sdkVersionInt d rest hdev
  obtain ⟨bh', qh', hbh', hqh', h2⟩ := GetSign_eq E r2 queryhash data timestamp aid licenseID
    platform secDeviceID sdkVersion sdkVersionInt d rest hdev
  rw [hbh] at hbh'
  rw [hqh] at hqh'
  injection hbh' with hbh'
  injection hqh' with hqh'
  subst hbh' hqh'
  obtain ⟨ct, hct, _⟩ := encryptBytes_ok E (signMap r1 d timestamp aid licenseID secDeviceID
    sdkVersion sdkVersionInt bh qh) hmd5 hcbc
  have hE : Encrypt E (signMap r1 d timestamp aid licenseID secDeviceID sdkVersion
      sdkVersionInt bh qh) = .ok (E.base64Encode (0xf2 :: 0x81 :: ct)) := by
    unfold Encrypt
    rw [hct]
  refine ⟨_, bh, qh, by rw [h1, hE], ?_, hbh, hqh, signMap_no_field3 _ _ _ _ _ _ _ _ _ _⟩
  rw [h2, ← hE]
  exact Encrypt_congr E _ _ (buildMessage_congr _ _ (signMap_rnd r2 r1 d timestamp aid licenseID
    secDeviceID sdkVersion sdkVersionInt bh qh))

theorem sample_device_id :
    sampleEnv.parseQuery (str "device_id=123456789") (str "device_id") = [str "123456789"] := by
  decide

/-- C18 on the query `device_id=123456789`, with the random values `1` and `2`
and the stand-ins of `sampleEnv`. -/
theorem C18_GetSign_deterministic_witness :
    ∃ s bodyHash queryHash,
      GetSign sampleEnv 1 (str "device_id=123456789") [] 1700000000 1233 1611921764 0 []
        (str "v05.00.06-ov-android") 167775296 = .ok s ∧
      GetSign sampleEnv 2 (str "device_id=123456789") [] 1700000000 1233 1611921764 0 []
        (str "v05.00.06-ov-android") 167775296 = .ok s ∧
      GetBodyHash sampleEnv [] = some bodyHash ∧
      GetQueryHash (str "device_id=123456789") = some queryHash ∧
      (∀ f ∈ buildMessage (signMap 1 (str "123456789") 1700000000 1233 1611921764 []
        (str "v05.00.06-ov-android") 167775296 bodyHash queryHash), f.Idx ≠ 3) :=
  C18_GetSign_deterministic sampleEnv 1 2 (str "device_id=123456789") [] 1700000000 1233
    1611921764 0 [] (str "v05.00.06-ov-android") 167775296 (str "123456789") []
    sample_device_id (fun _ => rfl) (fun _ _ _ => rfl)


theorem padMessage_signKey : Sm3.padMessage signKey =
    signKey ++ [0x80] ++ List.replicate 23 0 ++ [0, 0, 0, 0, 0, 0, 1, 0] := by
  rw [Sm3.padMessage_eq]
  rfl

theorem padMessage_keygen : Sm3.padMessage (signKey ++ [0xf2, 0x81, 0x61, 0x6f] ++ signKey) =
    signKey ++ [0xf2, 0x81, 0x61, 0x6f] ++ signKey ++ [0x80] ++ List.replicate 51 0 ++
      [0, 0, 0, 0, 0, 0, 2, 0x20] := by
  rw [Sm3.padMessage_eq]
  rfl

/-- C19 (counterexample). The digest of the 32-byte secret `signKey` is
`abe0b904 ... 8aea9d37`; it is not the constant `sm3Output`. -/
theorem C19_counterexample :
    Sm3.Hash Sm3.New signKey = some
      [0xab, 0xe0, 0xb9, 0x04, 0x39, 0x6a, 0xe9, 0xbf, 0x32, 0xa4, 0x56, 0x07,
       0x16, 0x0f, 0xdf, 0x6e, 0x47, 0xf8, 0xcf, 0xe9, 0xfe, 0x98, 0xee, 0x70,
       0x7a, 0x7b, 0x81, 0x37, 0x8a, 0xea, 0x9d, 0x37] ∧
    Sm3.Hash Sm3.New signKey ≠ some sm3Output := by
  have h : Sm3.Hash Sm3.New signKey = some
      [0xab, 0xe0, 0xb9, 0x04, 0x39, 0x6a, 0xe9, 0xbf, 0x32, 0xa4, 0x56, 0x07,
       0x16, 0x0f, 0xdf, 0x6e, 0x47, 0xf8, 0xcf, 0xe9, 0xfe, 0x98, 0xee, 0x70,
       0x7a, 0x7b, 0x81, 0x37, 0x8a, 0xea, 0x9d, 0x37] := by
    unfold Sm3.Hash Sm3.sm3Hash
    simp only []
    rw [padMessage_signKey]
    decide!
  refine ⟨h, ?_⟩
  rw [h]
  decide

/-- C19 (amended). The constant `sm3Output` is the digest, by the hash engine,
of the 68 bytes `signKey ++ f2 81 61 6f ++ signKey`; the cipher key `keyList` of
`Encrypt` is made of the four little-endian 64-bit words of `sm3Output`. -/
theorem C19_sm3Output_preimage :
    Sm3.Hash Sm3.New (signKey ++ [0xf2, 0x81, 0x61, 0x6f] ++ signKey) = some sm3Output ∧
    keyList =
      { k0 := getLE [0xfc, 0x78, 0xe0, 0xa9, 0x65, 0x7a, 0x0c, 0x74]
        k1 := getLE [0x8c, 0xe5, 0x15, 0x59, 0x90, 0x3c, 0xcf, 0x03]
        k2 := getLE [0x51, 0x0e, 0x51, 0xd3, 0xcf, 0xf2, 0x32, 0xd7]
        k3 := getLE [0x13, 0x43, 0xe8, 0x8a, 0x32, 0x1c, 0x53, 0x04] } ∧
    keyList = ⟨0x740c7a65a9e078fc, 0x03cf3c905915e58c, 0xd732f2cfd3510e51, 0x04531c328ae84313⟩ := by
  refine ⟨?_, rfl, by decide⟩
  unfold Sm3.Hash Sm3.sm3Hash
  simp only []
  rw [padMessage_keygen]
  decide!

theorem sample_device_id_empty :
    sampleEnv.parseQuery (str "device_id=") (str "device_id") = [[]] := by
  decide

/-- `GetSign` with a `device_id` in the query returns a signature. -/
theorem GetSign_ok (E : Env) (rnd : Int) (queryhash data : List Nat)
    (timestamp aid licenseID platform : Int) (secDeviceID sdkVersion : List Nat)
    (sdkVersionInt : Int) (d : List Nat) (rest : List (List Nat))
    (hdev : E.parseQuery queryhash (str "device_id") = d :: rest)
    (hmd5 : ∀ x, (E.md5Sum x).length = 16)
    (hcbc : ∀ k v src, (E.cryptBlocks k v src).length = src.length) :
    ∃ s, GetSign E rnd queryhash data timestamp aid licenseID platform secDeviceID sdkVersion
      sdkVersionInt = .ok s := by
  obtain ⟨bh, qh, _, _, h1⟩ := GetSign_eq E rnd queryhash data timestamp aid licenseID
    platform secDeviceID sdkVersion sdkVersionInt d rest hdev
  obtain ⟨ct, hct, _⟩ := encryptBytes_ok E (signMap rnd d timestamp aid licenseID secDeviceID
    sdkVersion sdkVersionInt bh qh) hmd5 hcbc
  refine ⟨E.base64Encode (0xf2 :: 0x81 :: ct), ?_⟩
  rw [h1]
  unfold Encrypt
  rw [hct]

/-- Without a `device_id` in the query, the index expression
`params["device_id"][0]` of `GetSign` panics, before any hashing or encryption. -/
theorem GetSign_absent_panics (E : Env) (rnd : Int) (queryhash data : List Nat)
    (timestamp aid licenseID platform : Int) (secDeviceID sdkVersion : List Nat)
    (sdkVersionInt : Int) (hdev : E.parseQuery queryhash (str "device_id") = []) :
    GetSign E rnd queryhash data timestamp aid licenseID platform secDeviceID sdkVersion
      sdkVersionInt = .panic := by
  unfold GetSign
  simp only [hdev, List.getElem?_nil]

/-- C20 (counterexample). In the query string `device_id=` the parameter
`device_id` has an empty value; `GetSign` returns a signature and no error. -/
theorem C20_counterexample :
    urlParseQuery (str "device_id=") (str "device_id") = [[]] ∧
    ∃ s, GetSign sampleEnv 0 (str "device_id=") [] 1700000000 1233 1611921764 0 []
      (str "v05.00.06-ov-android") 167775296 = .ok s :=
  ⟨sample_device_id_empty,
    GetSign_ok sampleEnv 0 (str "device_id=") [] 1700000000 1233 1611921764 0 []
      (str "v05.00.06-ov-android") 167775296 [] [] sample_device_id_empty (fun _ => rfl)
      (fun _ _ _ => rfl)⟩

/-- C20 (amended). `GetSign` makes no check on the value of `device_id`: for
every query string in which `url.ParseQuery` finds a `device_id` parameter, with
first value `d` (the empty string too), `GetSign` returns a signature and no
error, and the message it signs holds `d` as the field 5. -/
theorem C20_GetSign_device_id_present (E : Env) (rnd : Int) (queryhash data : List Nat)
    (timestamp aid licenseID platform : Int) (secDeviceID sdkVersion : List Nat)
    (sdkVersionInt : Int) (d : List Nat) (rest : List (List Nat))
    (hdev : E.parseQuery queryhash (str "device_id") = d :: rest)
    (hmd5 : ∀ x, (E.md5Sum x).length = 16)
    (hcbc : ∀ k v src, (E.cryptBlocks k v src).length = src.length) :
    ∃ s bodyHash queryHash,
      GetSign E rnd queryhash data timestamp aid licenseID platform secDeviceID sdkVersion
        sdkVersionInt = .ok s ∧
      GetSign E rnd queryhash data timestamp aid licenseID platform secDeviceID sdkVersion
        sdkVersionInt =
        Encrypt E (signMap rnd d timestamp aid licenseID secDeviceID sdkVersion sdkVersionInt
          bodyHash queryHash) ∧
      ⟨5, TypeString, 0, d⟩ ∈ buildMessage (signMap rnd d timestamp aid licenseID secDeviceID
        sdkVersion sdkVersionInt bodyHash queryHash) := by
  obtain ⟨s, hs⟩ := GetSign_ok E rnd queryhash data timestamp aid licenseID platform
    secDeviceID sdkVersion sdkVersionInt d rest hdev hmd5 hcbc
  obtain ⟨bh, qh, _, _, h1⟩ := GetSign_eq E rnd queryhash data timestamp aid licenseID
    platform secDeviceID sdkVersion sdkVersionInt d rest hdev
  refine ⟨s, bh, qh, hs, h1, ?_⟩
  rw [buildMessage_eq, List.mem_filterMap]
  exact ⟨5, by decide, rfl⟩

/-- C20 (amended) on the query `device_id=`, with the stand-ins of `sampleEnv`. -/
theorem C20_GetSign_device_id_present_witness :
    ∃ s bodyHash queryHash,
      GetSign sampleEnv 0 (str "device_id=") [] 1700000000 1233 1611921764 0 []
        (str "v05.00.06-ov-android") 167775296 = .ok s ∧
      GetSign sampleEnv 0 (str "device_id=") [] 1700000000 1233 1611921764 0 []
        (str "v05.00.06-ov-android") 167775296 =
        Encrypt sampleEnv (signMap 0 [] 1700000000 1233 1611921764 []
          (str "v05.00.06-ov-android") 167775296 bodyHash queryHash) ∧
      ⟨5, TypeString, 0, []⟩ ∈ buildMessage (signMap 0 [] 1700000000 1233 1611921764 []
        (str "v05.00.06-ov-android") 167775296 bodyHash queryHash) :=
  C20_GetSign_device_id_present sampleEnv 0 (str "device_id=") [] 1700000000 1233 1611921764 0
    [] (str "v05.00.06-ov-android") 167775296 [] [] sample_device_id_empty (fun _ => rfl)
    (fun _ _ _ => rfl)

end Signer

/-! ## The block cipher: key schedule and bijection -/

namespace Simon

/-- An iteration of `keyExpansion` at an index in range writes the word of the
recurrence. -/
theorem keyExpansionStep_eq (key : List Nat) (i : Nat) (h4 : 4 ≤ i) (hi : i < key.length) :
    keyExpansionStep key i = some (key.set i (scheduleWord key i)) := by
  have h1 : i - 1 < key.length := by omega
  have h3 : i - 3 < key.length := by omega
  have h4 : i - 4 < key.length := by omega
  simp [keyExpansionStep, scheduleWord, List.getElem?_eq_getElem, h1, h3, h4, hi, getBit, z]

theorem getD_set_ne (l : List Nat) (i j v : Nat) (h : i ≠ j) :
    (l.set i v).getD j 0 = l.getD j 0 := by
  simp [List.getElem?_set_ne h]

theorem getD_set_self (l : List Nat) (i v : Nat) (h : i < l.length) :
    (l.set i v).getD i 0 = v := by
  simp [List.getElem?_set_self h]

theorem scheduleWord_congr (key key' : List Nat) (i : Nat) (h4 : 4 ≤ i)
    (h : ∀ j < i, key'.getD j 0 = key.getD j 0) : scheduleWord key' i = scheduleWord key i := by
  unfold scheduleWord
  rw [h (i - 1) (by omega), h (i - 3) (by omega), h (i - 4) (by omega)]

/-- The loop of `keyExpansion` from the index `s` for `n` iterations: it stays
in range, keeps the words below `s` and leaves the recurrence at the indices it
has written. -/
theorem keyExpansionLoop_spec (n : Nat) : ∀ (s : Nat) (key : List Nat), 4 ≤ s →
    s + n ≤ key.length →
    ∃ key', (List.range' s n).foldlM keyExpansionStep key = some key' ∧
      key'.length = key.length ∧ (∀ j < s, key'.getD j 0 = key.getD j 0) ∧
      (∀ i, s ≤ i → i < s + n → key'.getD i 0 = scheduleWord key' i) := by
  induction n with
  | zero =>
    intro s key _ _
    exact ⟨key, by simp [List.range'], rfl, fun _ _ => rfl, fun i h1 h2 => by omega⟩
  | succ n ih =>
    intro s key h4 hlen
    obtain ⟨k2, hk2, hl2, hlow, hrec⟩ := ih (s + 1) (key.set s (scheduleWord key s)) (by omega)
      (by rw [List.length_set]; omega)
    rw [List.length_set] at hl2
    have hlow' : ∀ j < s, k2.getD j 0 = key.getD j 0 := by
      intro j hj
      rw [hlow j (by omega), getD_set_ne _ _ _ _ (by omega)]
    refine ⟨k2, ?_, hl2, hlow', ?_⟩
    · simp [List.range', List.foldlM, keyExpansionStep_eq key s h4 (by omega), hk2]
    · intro i h1 h2
      by_cases hi : i = s
      · subst hi
        rw [hlow i (by omega), getD_set_self _ _ _ (by omega),
          scheduleWord_congr key k2 i h4 hlow']
      · exact hrec i (by omega) (by omega)

theorem xor_mask64 (d : Nat) (h : d < 2 ^ 64) : d ^^^ mask64 = 2 ^ 64 - 1 - d := by
  apply Nat.eq_of_testBit_eq
  intro j
  have h1 : 2 ^ 64 - 1 - d = 2 ^ 64 - (d + 1) := by omega
  rw [h1, Nat.testBit_two_pow_sub_succ h, Nat.testBit_xor]
  have h2 : mask64 = 2 ^ 64 - 1 := by decide
  rw [h2, Nat.testBit_two_pow_sub_one]
  by_cases hj : j < 64
  · simp [hj]
  · have : d.testBit j = false := Nat.testBit_lt_two_pow (lt_of_lt_of_le h
      (Nat.pow_le_pow_right (by omega) (by omega)))
    simp [hj, this]

theorem rotateRight_lt (v n : Nat) (h : v < 2 ^ 64) : rotateRight v n < 2 ^ 64 := by
  unfold rotateRight
  apply Nat.or_lt_two_pow (Nat.mod_lt _ (by norm_num))
  rw [Nat.shiftRight_eq_div_pow]
  exact lt_of_le_of_lt (Nat.div_le_self _ _) h

theorem scheduleWord_lt (key : List Nat) (i : Nat) (h1 : key.getD (i - 1) 0 < 2 ^ 64)
    (h3 : key.getD (i - 3) 0 < 2 ^ 64) (h4 : key.getD (i - 4) 0 < 2 ^ 64) :
    scheduleWord key i < 2 ^ 64 := by
  unfold scheduleWord
  have hm : mask64 < 2 ^ 64 := by decide
  have hbit : (0x3DC94C3A046D678B >>> ((i - 4) % 62)) &&& 1 < 2 ^ 64 :=
    lt_of_le_of_lt Nat.and_le_right (by norm_num)
  have hu := Nat.xor_lt_two_pow (rotateRight_lt _ 3 h1) h3
  exact Nat.xor_lt_two_pow (Nat.xor_lt_two_pow (Nat.xor_lt_two_pow
    (Nat.xor_lt_two_pow h4 hm) (Nat.xor_lt_two_pow hu (rotateRight_lt _ 1 hu))) hbit)
    (by norm_num)

/-- The schedule of `SimonEnc` and `SimonDec`: `keyExpansion` returns a slice of
72 words whose first four words are the key words and whose later words obey
the recurrence; they are 64-bit words when the key words are. -/
theorem keyExpansion_spec (k : Key4) :
    ∃ key, keyExpansion (initKey k) = some key ∧ key.length = 72 ∧
      key.getD 0 0 = k.k0 ∧ key.getD 1 0 = k.k1 ∧ key.getD 2 0 = k.k2 ∧ key.getD 3 0 = k.k3 ∧
      (∀ i, 4 ≤ i → i < 72 → key.getD i 0 = scheduleWord key i) ∧
      (k.k0 < 2 ^ 64 → k.k1 < 2 ^ 64 → k.k2 < 2 ^ 64 → k.k3 < 2 ^ 64 →
        ∀ i, key.getD i 0 < 2 ^ 64) := by
  obtain ⟨key, hk, hl, hlow, hrec⟩ := keyExpansionLoop_spec 68 4 (initKey k) (by omega)
    (by simp [initKey])
  have hl72 : key.length = 72 := by rw [hl]; simp [initKey]
  have h0 : key.getD 0 0 = k.k0 := by rw [hlow 0 (by omega)]; rfl
  have h1 : key.getD 1 0 = k.k1 := by rw [hlow 1 (by omega)]; rfl
  have h2 : key.getD 2 0 = k.k2 := by rw [hlow 2 (by omega)]; rfl
  have h3 : key.getD 3 0 = k.k3 := by rw [hlow 3 (by omega)]; rfl
  refine ⟨key, hk, hl72, h0, h1, h2, h3, fun i h4 h72 => hrec i h4 (by omega), ?_⟩
  intro b0 b1 b2 b3 i
  induction i using Nat.strong_induction_on with
  | _ i ih =>
    by_cases hi4 : i < 4
    · have : i = 0 ∨ i = 1 ∨ i = 2 ∨ i = 3 := by omega
      rcases this with h | h | h | h <;> subst h
      · rw [h0]; exact b0
      · rw [h1]; exact b1
      · rw [h2]; exact b2
      · rw [h3]; exact b3
    · by_cases hi72 : i < 72
      · rw [hrec i (by omega) (by omega)]
        exact scheduleWord_lt key i (ih _ (by omega)) (ih _ (by omega)) (ih _ (by omega))
      · have : key[i]? = none := List.getElem?_eq_none (by omega)
        simp [this]

/-- `~key[i-4]` on 64-bit words, the opening term of the recurrence, is the
exclusive or with `mask64`. -/
theorem scheduleWord_complement (key : List Nat) (i : Nat) (h : key.getD (i - 4) 0 < 2 ^ 64) :
    key.getD (i - 4) 0 ^^^ mask64 = 2 ^ 64 - 1 - key.getD (i - 4) 0 :=
  xor_mask64 _ h

/-- Running the decryption rounds over the indices `l` and then the encryption
rounds over `l` reversed gives back the state. -/
theorem encRounds_decRounds (key : List Nat) (c : Int) (l : List Nat) :
    ∀ s : Nat × Nat, (∀ i ∈ l, i < key.length) →
    ∃ s', l.foldlM (decRound key c) s = some s' ∧
      l.reverse.foldlM (encRound key c) s' = some s := by
  induction l with
  | nil => intro s _; exact ⟨s, rfl, rfl⟩
  | cons i l ih =>
    intro s hl
    obtain ⟨s1, h1, h1'⟩ := encRound_decRound key c s i (hl i (by simp))
    obtain ⟨s2, h2, h2'⟩ := ih s1 (fun j hj => hl j (by simp [hj]))
    refine ⟨s2, ?_, ?_⟩
    · simp [List.foldlM, h1, h2]
    · simp [List.foldlM_append, h2', h1']

/-- Decryption after encryption, for every block, key and mode value. -/
theorem SimonEnc_then_SimonDec (b : Nat × Nat) (k : Key4) (c : Int) :
    ∃ ct, SimonEnc b k c = some ct ∧ SimonDec ct k c = some b := by
  obtain ⟨key, hk, hl⟩ := keyExpansion_some (initKey k) (by simp [initKey])
  obtain ⟨ct, h1, h2⟩ := decRounds_encRounds key c (List.range 72) b
    (fun i hi => by rw [hl]; exact List.mem_range.mp hi)
  exact ⟨ct, by unfold SimonEnc; rw [hk]; exact h1, by unfold SimonDec; rw [hk]; exact h2⟩

/-- Encryption after decryption, for every block, key and mode value. -/
theorem SimonDec_then_SimonEnc (b : Nat × Nat) (k : Key4) (c : Int) :
    ∃ pt, SimonDec b k c = some pt ∧ SimonEnc pt k c = some b := by
  obtain ⟨key, hk, hl⟩ := keyExpansion_some (initKey k) (by simp [initKey])
  obtain ⟨pt, h1, h2⟩ := encRounds_decRounds key c (List.range 72).reverse b
    (fun i hi => by rw [hl]; exact List.mem_range.mp (List.mem_reverse.mp hi))
  rw [List.reverse_reverse] at h2
  exact ⟨pt, by unfold SimonDec; rw [hk]; exact h1, by unfold SimonEnc; rw [hk]; exact h2⟩

theorem rotateLeft_lt (v n : Nat) (h : v < 2 ^ 64) : rotateLeft v n < 2 ^ 64 := by
  unfold rotateLeft
  apply Nat.or_lt_two_pow (Nat.mod_lt _ (by norm_num))
  rw [Nat.shiftRight_eq_div_pow]
  exact lt_of_le_of_lt (Nat.div_le_self _ _) h

theorem roundF_lt (c : Int) (v : Nat) (h : v < 2 ^ 64) : roundF c v < 2 ^ 64 := by
  unfold roundF
  split
  · exact rotateLeft_lt v 1 h
  · exact lt_of_le_of_lt Nat.and_le_left (rotateLeft_lt v 1 h)

theorem encRound_block (key : List Nat) (c : Int) (hk : ∀ j, key.getD j 0 < 2 ^ 64)
    (s s' : Nat × Nat) (i : Nat) (hs : Block64 s) (h : encRound key c s i = some s') :
    Block64 s' := by
  obtain ⟨x, y⟩ := s
  unfold encRound at h
  cases hki : key[i]? with
  | none => simp [hki] at h
  | some ki =>
    have hb : ki < 2 ^ 64 := by have := hk i; simpa [hki] using this
    simp only [hki, Option.bind_eq_bind, Option.some_bind, Option.some.injEq] at h
    subst h
    exact ⟨hs.2, Nat.xor_lt_two_pow (Nat.xor_lt_two_pow (Nat.xor_lt_two_pow hs.1
      (roundF_lt c y hs.2)) (rotateLeft_lt y 2 hs.2)) hb⟩

theorem decRound_block (key : List Nat) (c : Int) (hk : ∀ j, key.getD j 0 < 2 ^ 64)
    (s s' : Nat × Nat) (i : Nat) (hs : Block64 s) (h : decRound key c s i = some s') :
    Block64 s' := by
  obtain ⟨x, y⟩ := s
  unfold decRound at h
  cases hki : key[i]? with
  | none => simp [hki] at h
  | some ki =>
    have hb : ki < 2 ^ 64 := by have := hk i; simpa [hki] using this
    simp only [hki, Option.bind_eq_bind, Option.some_bind, Option.some.injEq] at h
    subst h
    exact ⟨Nat.xor_lt_two_pow (Nat.xor_lt_two_pow (Nat.xor_lt_two_pow hs.2
      (roundF_lt c x hs.1)) (rotateLeft_lt x 2 hs.1)) hb, hs.1⟩

theorem foldlM_preserves {α β : Type} (P : β → Prop) (f : β → α → Option β)
    (hf : ∀ b a b', P b → f b a = some b' → P b') (l : List α) :
    ∀ b b', P b → l.foldlM f b = some b' → P b' := by
  induction l with
  | nil => intro b b' hb h; simp at h; exact h ▸ hb
  | cons a l ih =>
    intro b b' hb h
    simp only [List.foldlM] at h
    cases h1 : f b a with
    | none => simp [h1] at h
    | some b1 =>
      simp only [h1, Option.bind_eq_bind, Option.some_bind] at h
      exact ih b1 b' (hf b a b1 hb h1) h

/-- With 64-bit key words `SimonEnc` and `SimonDec` map blocks of two 64-bit
words to blocks of two 64-bit words. -/
theorem Simon_block (k : Key4) (c : Int) (h0 : k.k0 < 2 ^ 64) (h1 : k.k1 < 2 ^ 64)
    (h2 : k.k2 < 2 ^ 64) (h3 : k.k3 < 2 ^ 64) (b r : Nat × Nat) (hb : Block64 b)
    (h : SimonEnc b k c = some r ∨ SimonDec b k c = some r) : Block64 r := by
  obtain ⟨key, hk, _, _, _, _, _, _, hlt⟩ := keyExpansion_spec k
  have hlt := hlt h0 h1 h2 h3
  rcases h with h | h
  · unfold SimonEnc at h
    rw [hk] at h
    exact foldlM_preserves Block64 (encRound key c)
      (fun s i s' hs he => encRound_block key c hlt s s' i hs he) _ b r hb h
  · unfold SimonDec at h
    rw [hk] at h
    exact foldlM_preserves Block64 (decRound key c)
      (fun s i s' hs he => decRound_block key c hlt s s' i hs he) _ b r hb h

/-- The embedded `rotateRight` is the rotation of a 64-bit word to the right. -/
theorem rotateRight_eq_rotr64 (v n : Nat) (hv : v < 2 ^ 64) (h0 : 0 < n) (hn : n < 64) :
    rotateRight v n = rotr64 v n := by
  unfold rotateRight rotr64
  have e1 : (64 - n % 64) % 64 = 64 - n := by omega
  have e2 : 64 - (64 - n) = n := by omega
  have hp : (2 : Nat) ^ 64 = 2 ^ n * 2 ^ (64 - n) := by
    rw [← pow_add]
    congr 1
    omega
  have hlt : v / 2 ^ n < 2 ^ (64 - n) := by
    rw [Nat.div_lt_iff_lt_mul (Nat.pow_pos (by norm_num))]
    rw [Nat.mul_comm, ← hp]
    exact hv
  rw [e1, e2, Nat.shiftLeft_eq, Nat.shiftRight_eq_div_pow, hp, Nat.mul_mod_mul_right,
    Nat.or_comm, Signer.or_shift_eq_add _ _ _ hlt]

/-- On 64-bit words the word of the recurrence computed with the functions of
the embedding is the word computed in arithmetic. -/
theorem scheduleWord_eq_arith (key : List Nat) (i : Nat) (h1 : key.getD (i - 1) 0 < 2 ^ 64)
    (h3 : key.getD (i - 3) 0 < 2 ^ 64) (h4 : key.getD (i - 4) 0 < 2 ^ 64) :
    scheduleWord key i = scheduleWordArith key i := by
  unfold scheduleWord scheduleWordArith
  have hu : rotateRight (key.getD (i - 1) 0) 3 ^^^ key.getD (i - 3) 0 < 2 ^ 64 :=
    Nat.xor_lt_two_pow (rotateRight_lt _ 3 h1) h3
  simp only []
  rw [rotateRight_eq_rotr64 _ 1 hu (by norm_num) (by norm_num),
    rotateRight_eq_rotr64 _ 3 h1 (by norm_num) (by norm_num), xor_mask64 _ h4,
    Nat.shiftRight_eq_div_pow, Nat.and_one_is_mod]

/-- C22: the schedule of 72 round keys built by `SimonEnc` and `SimonDec` keeps
the four key words at the positions 0..3 and has, for every `i` from 4 to 71,
`key[i] = (~key[i-4]) xor t xor bit xor 3` (`scheduleWord`), over 64-bit words;
every index read by the schedule and by the 72 rounds is in range, so both
functions return a block. With 64-bit key words the recurrence is also stated in
arithmetic (`scheduleWordArith`): the complement is `2^64 - 1 - key[i-4]`, the
rotations by 3 and by 1 are `rotr64`, where the low bits of the word move to the
top, and the bit is a quotient modulo 2. -/
theorem C22_key_schedule (k : Key4) :
    ∃ key, keyExpansion (initKey k) = some key ∧ key.length = 72 ∧
      key.getD 0 0 = k.k0 ∧ key.getD 1 0 = k.k1 ∧ key.getD 2 0 = k.k2 ∧ key.getD 3 0 = k.k3 ∧
      (∀ i, 4 ≤ i → i < 72 → key.getD i 0 = scheduleWord key i) ∧
      (k.k0 < 2 ^ 64 → k.k1 < 2 ^ 64 → k.k2 < 2 ^ 64 → k.k3 < 2 ^ 64 →
        ∀ i, key.getD i 0 < 2 ^ 64 ∧
          key.getD (i - 4) 0 ^^^ mask64 = 2 ^ 64 - 1 - key.getD (i - 4) 0) ∧
      (∀ pt c, SimonEnc pt k c = (List.range 72).foldlM (encRound key c) pt ∧
        ∃ ct, SimonEnc pt k c = some ct) ∧
      (∀ ct c, SimonDec ct k c = (List.range 72).reverse.foldlM (decRound key c) ct ∧
        ∃ pt, SimonDec ct k c = some pt) ∧
      (k.k0 < 2 ^ 64 → k.k1 < 2 ^ 64 → k.k2 < 2 ^ 64 → k.k3 < 2 ^ 64 →
        ∀ i, 4 ≤ i → i < 72 → key.getD i 0 = scheduleWordArith key i) ∧
      (∀ v, v < 2 ^ 64 → rotateRight v 3 = v / 8 + v % 8 * 2 ^ 61 ∧
        rotateRight v 1 = v / 2 + v % 2 * 2 ^ 63) ∧
      rotateRight 1 3 = 2 ^ 61 ∧ rotateRight 0x8000000000000001 1 = 0xC000000000000000 ∧
      rotateRight 0x0123456789ABCDEF 3 = 0xE02468ACF13579BD := by
  obtain ⟨key, hk, hl, h0, h1, h2, h3, hrec, hlt⟩ := keyExpansion_spec k
  refine ⟨key, hk, hl, h0, h1, h2, h3, hrec, ?_, ?_, ?_, ?_, ?_, by decide, by decide,
    by decide⟩
  · intro b0 b1 b2 b3 i
    exact ⟨hlt b0 b1 b2 b3 i, scheduleWord_complement key i (hlt b0 b1 b2 b3 (i - 4))⟩
  · intro pt c
    refine ⟨by unfold SimonEnc; rw [hk]; rfl, ?_⟩
    obtain ⟨ct, h, _⟩ := SimonEnc_then_SimonDec pt k c
    exact ⟨ct, h⟩
  · intro ct c
    refine ⟨by unfold SimonDec; rw [hk]; rfl, ?_⟩
    obtain ⟨pt, h, _⟩ := SimonDec_then_SimonEnc ct k c
    exact ⟨pt, h⟩
  · intro b0 b1 b2 b3 i h4 h72
    rw [hrec i h4 h72]
    exact scheduleWord_eq_arith key i (hlt b0 b1 b2 b3 _) (hlt b0 b1 b2 b3 _)
      (hlt b0 b1 b2 b3 _)
  · intro v hv
    have e3 := rotateRight_eq_rotr64 v 3 hv (by norm_num) (by norm_num)
    have e1 := rotateRight_eq_rotr64 v 1 hv (by norm_num) (by norm_num)
    unfold rotr64 at e3 e1
    exact ⟨by rw [e3]; norm_num, by rw [e1]; norm_num⟩

/-- C26: `SimonEnc` is the inverse of `SimonDec` for every block, key and mode
value `c`: `SimonEnc(SimonDec(b, k, c), k, c) = b`. Block encryption is
injective, every block is a ciphertext, and with 64-bit key words both
functions map 128-bit blocks to 128-bit blocks: a bijection on them. -/
theorem C26_SimonEnc_SimonDec (b : Nat × Nat) (k : Key4) (c : Int) :
    (∃ pt, SimonDec b k c = some pt ∧ SimonEnc pt k c = some b) ∧
    (∀ b1 b2 ct, SimonEnc b1 k c = some ct → SimonEnc b2 k c = some ct → b1 = b2) ∧
    (k.k0 < 2 ^ 64 → k.k1 < 2 ^ 64 → k.k2 < 2 ^ 64 → k.k3 < 2 ^ 64 → Block64 b →
      (∃ ct, SimonEnc b k c = some ct ∧ Block64 ct) ∧
      (∃ pt, SimonDec b k c = some pt ∧ Block64 pt ∧ SimonEnc pt k c = some b)) := by
  refine ⟨SimonDec_then_SimonEnc b k c, ?_, ?_⟩
  · intro b1 b2 ct e1 e2
    obtain ⟨c1, hc1, hd1⟩ := SimonEnc_then_SimonDec b1 k c
    obtain ⟨c2, hc2, hd2⟩ := SimonEnc_then_SimonDec b2 k c
    rw [e1] at hc1
    rw [e2] at hc2
    have e3 : ct = c1 := Option.some.inj hc1
    have e4 : ct = c2 := Option.some.inj hc2
    subst e3
    subst e4
    rw [hd1] at hd2
    exact Option.some.inj hd2
  · intro h0 h1 h2 h3 hb
    obtain ⟨ct, hct, _⟩ := SimonEnc_then_SimonDec b k c
    obtain ⟨pt, hpt, hinv⟩ := SimonDec_then_SimonEnc b k c
    exact ⟨⟨ct, hct, Simon_block k c h0 h1 h2 h3 b ct hb (Or.inl hct)⟩,
      ⟨pt, hpt, Simon_block k c h0 h1 h2 h3 b pt hb (Or.inr hpt), hinv⟩⟩

end Simon

/-! ## The codec: which varints survive -/

namespace Signer

theorem varintBytes_mod (v : Nat) : varintBytes (v % 2 ^ 32) = varintBytes v := by
  rw [varintBytes_eq, varintBytes_eq, Nat.mod_mod]

/-- Reading back the bytes of a varint whose shift by `7 * k` is exactly
`0x80`: the last byte written is `0x00`, and `ReadVarint` stops there with the
`7 * k` low bits of the value. -/
theorem ReadVarintLoop_varintBytes_lost (k : Nat) : ∀ (v acc s : Nat) (rest : List Nat),
    v < 2 ^ 32 → v / 128 ^ k = 128 → v * 2 ^ s < 2 ^ 64 → acc < 2 ^ s →
    ReadVarintLoop acc s (varintBytes v ++ rest) = .ok (acc + v % 128 ^ k * 2 ^ s, rest) ∧
    (varintBytes v).getLast? = some 0 := by
  induction k with
  | zero =>
    intro v acc s rest hv hk hfit hacc
    have h128 : v = 128 := by simpa using hk
    subst h128
    have hb : varintBytes 128 = [0] := by simp [varintBytes_small]
    rw [hb]
    refine ⟨?_, rfl⟩
    rw [List.singleton_append, ReadVarintLoop_cons, if_pos (by norm_num)]
    simp
  | succ k ih =>
    intro v acc s rest hv hk hfit hacc
    have hmod : v % 2 ^ 32 = v := Nat.mod_eq_of_lt hv
    have hk1 : v / 128 / 128 ^ k = 128 := by
      rwa [pow_succ, Nat.mul_comm, ← Nat.div_div_eq_div_mul] at hk
    have hpos : 0 < 128 ^ k := Nat.pow_pos (by norm_num)
    have hge : 128 ≤ v / 128 := by
      have := Nat.div_le_self (v / 128) (128 ^ k)
      omega
    have h : 0x80 < v := by omega
    have hb : (v % 128) * 2 ^ s ≤ 127 * 2 ^ s := Nat.mul_le_mul_right _ (by omega)
    have e : v * 2 ^ s = (v / 128) * (2 ^ s * 128) + (v % 128) * 2 ^ s := by
      conv_lhs => rw [← Nat.div_add_mod v 128]
      ring
    have hp : 2 ^ (s + 7) = 2 ^ s * 128 := by rw [pow_add]; norm_num
    have hb1 : (v % 128 + 128) &&& 0x7F = v % 128 := by
      rw [and7F_eq_mod]; omega
    obtain ⟨hih, hlast⟩ := ih (v / 128) (acc + v % 128 * 2 ^ s) (s + 7) rest (by omega) hk1
      (by rw [hp]; omega) (by rw [hp]; omega)
    rw [varintBytes_big v (by rw [hmod]; exact h), hmod]
    constructor
    · rw [List.cons_append, ReadVarintLoop_cons, hb1, if_neg (by omega), Nat.shiftLeft_eq,
        Nat.mod_eq_of_lt (by omega), or_shift_eq_add _ _ _ hacc, hih, hp, pow_succ', Nat.mod_mul]
      congr 2
      ring
    · cases hvb : varintBytes (v / 128) with
      | nil => exact absurd hvb (varintBytes_ne_nil _)
      | cons b l =>
        rw [hvb] at hlast
        rw [List.getLast?_cons_cons]
        exact hlast

theorem mod_pow_ne_of_div (w k : Nat) (h : w / 128 ^ k = 128) : w % 128 ^ k ≠ w := by
  intro e
  have hpos : 0 < 128 ^ k := Nat.pow_pos (by norm_num)
  have hlt : w % 128 ^ k < 128 ^ k := Nat.mod_lt _ hpos
  rw [e] at hlt
  rw [Nat.div_eq_of_lt hlt] at h
  omega

/-- C24: for every `v`, with `w = v mod 2^32`, `ReadVarint` over the bytes of
`WriteVarint(v)` returns `w` if and only if no `k` has `w >> 7k = 0x80`. When
there is such a `k`, the last byte written is `0x00` and the value read is
`w mod 2^(7k)`, which differs from `w`; `128` and `16384` are such values, and
`128` is written as the single byte `0x00`, the same as `0`. -/
theorem C24_varint_survives (v : Nat) (rest : List Nat) :
    (ProtoReader.ReadVarint ((NewProtoWriter.WriteVarint v).Bytes ++ rest) =
        .ok (v % 2 ^ 32, rest) ↔ ¬ ∃ k, (v % 2 ^ 32) >>> (7 * k) = 0x80) ∧
    (∀ k, (v % 2 ^ 32) >>> (7 * k) = 0x80 →
      (NewProtoWriter.WriteVarint v).Bytes.getLast? = some 0 ∧
      ProtoReader.ReadVarint ((NewProtoWriter.WriteVarint v).Bytes ++ rest) =
        .ok (v % 2 ^ 32 % 2 ^ (7 * k), rest) ∧
      v % 2 ^ 32 % 2 ^ (7 * k) ≠ v % 2 ^ 32) ∧
    (128 % 2 ^ 32) >>> (7 * 0) = 0x80 ∧ (16384 % 2 ^ 32) >>> (7 * 1) = 0x80 ∧
    (NewProtoWriter.WriteVarint 128).Bytes = [0x00] ∧
    (NewProtoWriter.WriteVarint 0).Bytes = [0x00] ∧
    (NewProtoWriter.WriteVarint 16384).Bytes = [0x80, 0x00] := by
  have hw : v % 2 ^ 32 < 2 ^ 32 := Nat.mod_lt _ (by norm_num)
  have hshift : ∀ k, (v % 2 ^ 32) >>> (7 * k) = v % 2 ^ 32 / 128 ^ k := by
    intro k
    rw [Nat.shiftRight_eq_div_pow, pow_mul]
    norm_num
  have hpow : ∀ k, 2 ^ (7 * k) = 128 ^ k := by
    intro k
    rw [pow_mul]
    norm_num
  have hbytes : (NewProtoWriter.WriteVarint v).Bytes = varintBytes (v % 2 ^ 32) :=
    (varintBytes_mod v).symm
  have hlost : ∀ k, (v % 2 ^ 32) >>> (7 * k) = 0x80 →
      (NewProtoWriter.WriteVarint v).Bytes.getLast? = some 0 ∧
      ProtoReader.ReadVarint ((NewProtoWriter.WriteVarint v).Bytes ++ rest) =
        .ok (v % 2 ^ 32 % 2 ^ (7 * k), rest) ∧
      v % 2 ^ 32 % 2 ^ (7 * k) ≠ v % 2 ^ 32 := by
    intro k hk
    rw [hshift] at hk
    obtain ⟨h1, h2⟩ := ReadVarintLoop_varintBytes_lost k (v % 2 ^ 32) 0 0 rest hw hk
      (by omega) (by norm_num)
    rw [hbytes, hpow]
    refine ⟨h2, ?_, mod_pow_ne_of_div _ k hk⟩
    simpa [ProtoReader.ReadVarint] using h1
  refine ⟨⟨?_, ?_⟩, hlost, by decide, by decide, ?_, ?_, ?_⟩
  · rintro hread ⟨k, hk⟩
    obtain ⟨_, h2, h3⟩ := hlost k hk
    rw [hread] at h2
    injection h2 with h2
    exact h3 (congrArg Prod.fst h2).symm
  · intro hno
    rw [hbytes]
    exact ReadVarint_varintBytes _ rest hw (fun k hk => hno ⟨k, by rw [hshift]; exact hk⟩)
  · show varintBytes 128 = [0]
    simp [varintBytes_small]
  · show varintBytes 0 = [0]
    simp [varintBytes_small]
  · show varintBytes 16384 = [128, 0]
    rw [varintBytes_big 16384 (by norm_num)]
    simp [varintBytes_small]

end Signer

/-! ## The transform of `encryptEncPB` -/

namespace Signer

theorem xorStep_eq (out : List Nat) (i : Nat) (h : i < out.length) :
    xorStep out i = some (out.set i (out.getD i 0 ^^^ out.getD (i % 8) 0)) := by
  have h8 : i % 8 < out.length := lt_of_le_of_lt (Nat.mod_le i 8) h
  simp [xorStep, List.getElem?_eq_getElem, h, h8]

theorem swapStep_eq (out : List Nat) (i : Nat) (h : i < out.length) :
    swapStep out i = some ((out.set i (out.getD (out.length - 1 - i) 0)).set
      (out.length - 1 - i) (out.getD i 0)) := by
  have hj : out.length - 1 - i < out.length := by omega
  simp [swapStep, List.getElem?_eq_getElem, h, hj]

/-- The first loop of `encryptEncPB` from the index `s ≥ 8` for `n` iterations:
the bytes it passes are combined with the byte at the index modulo 8, the
others are kept. -/
theorem xorLoop_spec (n : Nat) : ∀ (s : Nat) (out : List Nat), 8 ≤ s → s + n ≤ out.length →
    ∃ o, (List.range' s n).foldlM xorStep out = some o ∧ o.length = out.length ∧
      (∀ j, j < s ∨ s + n ≤ j → o.getD j 0 = out.getD j 0) ∧
      (∀ j, s ≤ j → j < s + n → o.getD j 0 = out.getD j 0 ^^^ out.getD (j % 8) 0) := by
  induction n with
  | zero =>
    intro s out _ _
    exact ⟨out, by simp [List.range'], rfl, fun _ _ => rfl, fun j h1 h2 => by omega⟩
  | succ n ih =>
    intro s out h8 hlen
    obtain ⟨o, ho, hl, hkeep, hxor⟩ := ih (s + 1)
      (out.set s (out.getD s 0 ^^^ out.getD (s % 8) 0)) (by omega)
      (by rw [List.length_set]; omega)
    rw [List.length_set] at hl
    refine ⟨o, ?_, hl, ?_, ?_⟩
    · simp only [List.range', List.foldlM, xorStep_eq out s (by omega), Option.bind_eq_bind,
        Option.some_bind]
      exact ho
    · intro j hj
      rw [hkeep j (by omega), Simon.getD_set_ne _ _ _ _ (by omega)]
    · intro j h1 h2
      have hm : j % 8 < 8 := Nat.mod_lt _ (by norm_num)
      by_cases hjs : j = s
      · subst hjs
        rw [hkeep j (by omega), Simon.getD_set_self _ _ _ (by omega)]
      · rw [hxor j (by omega) (by omega), Simon.getD_set_ne _ _ _ _ (by omega),
          Simon.getD_set_ne _ _ _ _ (by omega)]

/-- The second loop of `encryptEncPB` from the index `s` for `n` iterations:
the bytes at the indices it passes and at their mirror images are exchanged,
the others are kept. -/
theorem swapLoop_spec (n : Nat) : ∀ (s : Nat) (out : List Nat), 2 * (s + n) ≤ out.length →
    ∃ o, (List.range' s n).foldlM swapStep out = some o ∧ o.length = out.length ∧
      (∀ j, j < s ∨ (s + n ≤ j ∧ j + (s + n) < out.length) ∨ out.length ≤ j + s →
        o.getD j 0 = out.getD j 0) ∧
      (∀ j, j < out.length → (s ≤ j ∧ j < s + n) ∨ (out.length ≤ j + (s + n) ∧ j + s < out.length) →
        o.getD j 0 = out.getD (out.length - 1 - j) 0) := by
  induction n with
  | zero =>
    intro s out _
    exact ⟨out, by simp [List.range'], rfl, fun _ _ => rfl, fun j h1 h2 => by omega⟩
  | succ n ih =>
    intro s out hlen
    obtain ⟨o, ho, hl, hkeep, hswap⟩ := ih (s + 1)
      ((out.set s (out.getD (out.length - 1 - s) 0)).set (out.length - 1 - s) (out.getD s 0))
      (by rw [List.length_set, List.length_set]; omega)
    rw [List.length_set, List.length_set] at hl hkeep hswap
    refine ⟨o, ?_, hl, ?_, ?_⟩
    · simp only [List.range', List.foldlM, swapStep_eq out s (by omega), Option.bind_eq_bind,
        Option.some_bind]
      exact ho
    · intro j hj
      rw [hkeep j (by omega), Simon.getD_set_ne _ _ _ _ (by omega),
        Simon.getD_set_ne _ _ _ _ (by omega)]
    · intro j hjl hj
      by_cases hjs : j = s
      · subst hjs
        rw [hkeep j (by omega), Simon.getD_set_ne _ _ _ _ (by omega),
          Simon.getD_set_self _ _ _ (by omega)]
      · by_cases hjm : j = out.length - 1 - s
        · subst hjm
          rw [hkeep _ (by omega), Simon.getD_set_self _ _ _ (by rw [List.length_set]; omega)]
          congr 1
          omega
        · rw [hswap j hjl (by omega), Simon.getD_set_ne _ _ _ _ (by omega),
            Simon.getD_set_ne _ _ _ _ (by omega)]

/-- The contents of the buffer returned by `encryptEncPB(data, len(data))`. -/
theorem encryptEncPB_spec (data : List Nat) (h8 : 8 ≤ data.length) :
    ∃ out, encryptEncPB data (data.length : Int) = some out ∧ out.length = data.length ∧
      (∀ i, i < 8 → out.getD (data.length - 1 - i) 0 = data.getD i 0) ∧
      (∀ i, 8 ≤ i → i < data.length →
        out.getD (data.length - 1 - i) 0 = data.getD i 0 ^^^ data.getD (i % 8) 0) := by
  obtain ⟨o1, ho1, hl1, hk1, hx1⟩ := xorLoop_spec (data.length - 8) 8 data (by omega) (by omega)
  obtain ⟨o2, ho2, hl2, hk2, hs2⟩ := swapLoop_spec (o1.length / 2) 0 o1 (by omega)
  have hrev : ∀ j, j < data.length → o2.getD j 0 = o1.getD (data.length - 1 - j) 0 := by
    intro j hj
    by_cases hmid : o1.length / 2 ≤ j ∧ j + o1.length / 2 < o1.length
    · rw [hk2 j (by omega)]
      congr 1
      omega
    · rw [hs2 j (by omega) (by omega), hl1]
  refine ⟨o2, ?_, by omega, ?_, ?_⟩
  · unfold encryptEncPB
    simp only [Int.toNat_ofNat, Option.bind_eq_bind, Option.some_bind, Option.bind_some]
    rw [if_neg (by omega), ho1, Option.some_bind, List.range_eq_range']
    exact ho2
  · intro i hi
    rw [hrev _ (by omega), hk1 _ (by omega)]
    congr 1
    omega
  · intro i h1 h2
    have e : data.length - 1 - (data.length - 1 - i) = i := by omega
    rw [hrev _ (by omega), e, hx1 i h1 (by omega)]

theorem store_last (s : Store) (o : List Nat) : (s ++ [o])[s.length]? = some o := by
  simp

theorem store_set_last (s : Store) (o o' : List Nat) : (s ++ [o]).set s.length o' = s ++ [o'] := by
  simp

theorem store_get_last (s : Store) (o : List Nat) (i : Nat) :
    Store.get (s ++ [o]) s.length i = o[i]? := by
  unfold Store.get
  rw [store_last]
  rfl

theorem store_put_last (s : Store) (o : List Nat) (i v : Nat) (h : i < o.length) :
    Store.put (s ++ [o]) s.length i v = some (s ++ [o.set i v]) := by
  unfold Store.put
  rw [store_last]
  simp only [Option.bind_eq_bind, Option.some_bind]
  rw [if_pos h, store_set_last]

theorem store_len_last (s : Store) (o : List Nat) :
    Store.len (s ++ [o]) s.length = some o.length := by
  unfold Store.len
  rw [store_last]
  rfl

/-- A step of the first loop in memory, on the buffer made by the function, is
the step on its bytes. -/
theorem memXorStep_last (s : Store) (o : List Nat) (i : Nat) :
    memXorStep s.length (s ++ [o]) i = (xorStep o i).map (fun o' => s ++ [o']) := by
  unfold memXorStep xorStep
  rw [store_get_last, store_get_last]
  by_cases h : i < o.length
  · have h8 : i % 8 < o.length := lt_of_le_of_lt (Nat.mod_le i 8) h
    simp only [List.getElem?_eq_getElem h, List.getElem?_eq_getElem h8, Option.bind_eq_bind,
      Option.some_bind, Option.map_some']
    rw [store_put_last _ _ _ _ h]
  · rw [List.getElem?_eq_none (by omega)]
    rfl

/-- A step of the second loop in memory, on the buffer made by the function, is
the step on its bytes. -/
theorem memSwapStep_last (s : Store) (o : List Nat) (i : Nat) :
    memSwapStep s.length (s ++ [o]) i = (swapStep o i).map (fun o' => s ++ [o']) := by
  unfold memSwapStep swapStep
  rw [store_len_last]
  simp only [Option.bind_eq_bind, Option.some_bind]
  rw [store_get_last, store_get_last]
  by_cases h : i < o.length
  · have hj : o.length - 1 - i < o.length := by omega
    simp only [List.getElem?_eq_getElem h, List.getElem?_eq_getElem hj, Option.some_bind,
      Option.map_some']
    rw [store_put_last _ _ _ _ h, Option.some_bind,
      store_put_last _ _ _ _ (by rw [List.length_set]; exact hj)]
  · rw [List.getElem?_eq_none (by omega)]
    rfl

/-- A loop in memory whose steps are the steps on the bytes of the last buffer
is the loop on those bytes. -/
theorem foldlM_last (f : Store → Nat → Option Store) (g : List Nat → Nat → Option (List Nat))
    (s : Store) (hf : ∀ o i, f (s ++ [o]) i = (g o i).map (fun o' => s ++ [o']))
    (l : List Nat) : ∀ o, l.foldlM f (s ++ [o]) = (l.foldlM g o).map (fun o' => s ++ [o']) := by
  induction l with
  | nil => intro o; rfl
  | cons i l ih =>
    intro o
    rw [List.foldlM_cons, List.foldlM_cons, hf]
    cases g o i with
    | none => rfl
    | some o1 => exact ih o1

/-- The function in memory returns a new buffer, added after the buffers of the
store, with the bytes that `encryptEncPB` returns; the store it was given is a
prefix of the store after the call. -/
theorem encryptEncPBMem_eq (s : Store) (a : Nat) (data : List Nat) (l : Int)
    (ha : s[a]? = some data) :
    encryptEncPBMem s a l = (encryptEncPB data l).map (fun out => (s ++ [out], s.length)) := by
  have hlt : a < s.length := by
    by_contra h
    rw [List.getElem?_eq_none (by omega)] at ha
    cases ha
  have hcopy : Store.copy (s ++ [List.replicate data.length 0]) s.length a =
      some (s ++ [data]) := by
    unfold Store.copy
    rw [store_last, List.getElem?_append_left hlt, ha]
    simp only [Option.bind_eq_bind, Option.some_bind, List.length_replicate, List.take_length,
      store_set_last]
    rw [List.drop_eq_nil_of_le (by simp), List.append_nil]
  unfold encryptEncPBMem encryptEncPB Store.make
  simp only [Store.len, ha, Option.map_some', Option.bind_eq_bind, Option.some_bind, hcopy,
    store_last]
  by_cases h8 : data.length < 8
  · rw [if_pos h8, if_pos h8]
    rfl
  · rw [if_neg h8, if_neg h8, foldlM_last (memXorStep s.length) xorStep s
      (memXorStep_last s) _ data]
    cases (List.range' 8 (l.toNat - 8)).foldlM xorStep data with
    | none => rfl
    | some o1 =>
      simp only [Option.map_some', Option.some_bind, store_last]
      rw [foldlM_last (memSwapStep s.length) swapStep s (memSwapStep_last s) _ o1]
      cases (List.range (o1.length / 2)).foldlM swapStep o1 with
      | none => rfl
      | some o2 => rfl

/-- C23: for every buffer `data` of length `N ≥ 8`, `encryptEncPB(data, N)`
returns a buffer `out` of length `N` with `out[N-1-i] = data[i]` for `i < 8` and
`out[N-1-i] = data[i] xor data[i mod 8]` for `8 ≤ i < N`: exclusive or with the
first 8 bytes cyclically, then the reversal of the whole buffer. In memory
(`encryptEncPBMem`, on any store `s` that holds `data` at the address `a`) the
buffer returned is a new one, at an address other than `a`, with these bytes,
and the call leaves the input buffer unchanged: after it the address `a` still
holds `data`, and so does every buffer of `s` hold what it held. -/
theorem C23_encryptEncPB_contents (s : Store) (a : Nat) (data : List Nat)
    (ha : s[a]? = some data) (h8 : 8 ≤ data.length) :
    ∃ out, encryptEncPB data (data.length : Int) = some out ∧ out.length = data.length ∧
      (∀ i, i < 8 → out[data.length - 1 - i]? = some (data.getD i 0)) ∧
      (∀ i, 8 ≤ i → i < data.length →
        out[data.length - 1 - i]? = some (data.getD i 0 ^^^ data.getD (i % 8) 0)) ∧
      out = ((List.range data.length).map (fun i =>
        if i < 8 then data.getD i 0 else data.getD i 0 ^^^ data.getD (i % 8) 0)).reverse ∧
      ∃ s' o, encryptEncPBMem s a (data.length : Int) = some (s', o) ∧
        s'[o]? = some out ∧ o ≠ a ∧ s'[a]? = some data ∧
        (∀ b, b < s.length → s'[b]? = s[b]?) := by
  obtain ⟨out, ho, hl, hlow, hhigh⟩ := encryptEncPB_spec data h8
  have hget : ∀ j, j < data.length → out[j]? = some (out.getD j 0) := by
    intro j hj
    rw [List.getElem?_eq_getElem (by omega)]
    simp [List.getElem?_eq_getElem, hl, hj]
  have hlt : a < s.length := by
    by_contra h
    rw [List.getElem?_eq_none (by omega)] at ha
    cases ha
  refine ⟨out, ho, hl, ?_, ?_, ?_, s ++ [out], s.length, ?_, store_last s out, by omega, ?_, ?_⟩
  · intro i hi
    rw [hget _ (by omega), hlow i hi]
  · intro i h1 h2
    rw [hget _ (by omega), hhigh i h1 h2]
  · apply List.ext_getElem?
    intro j
    by_cases hj : j < data.length
    · rw [hget j hj, List.getElem?_reverse (by simpa using hj)]
      simp only [List.length_map, List.length_range]
      rw [List.getElem?_map, List.getElem?_range (by omega)]
      simp only [Option.map_some']
      have e : data.length - 1 - (data.length - 1 - j) = j := by omega
      by_cases h : data.length - 1 - j < 8
      · rw [if_pos h, ← hlow _ h, e]
      · rw [if_neg h, ← hhigh _ (by omega) (by omega), e]
    · rw [List.getElem?_eq_none (by omega), List.getElem?_eq_none (by simp; omega)]
  · rw [encryptEncPBMem_eq s a data _ ha, ho]
    rfl
  · rw [List.getElem?_append_left hlt, ha]
  · intro b hb
    rw [List.getElem?_append_left hb]

/-- C23 on the ten bytes `1, 2, ..., 10`, held at the address 1 of a store with
two buffers. -/
theorem C23_encryptEncPB_contents_witness :
    ([[7, 7], [1, 2, 3, 4, 5, 6, 7, 8, 9, 10]] : Store)[1]? =
      some [1, 2, 3, 4, 5, 6, 7, 8, 9, 10] ∧
    8 ≤ [1, 2, 3, 4, 5, 6, 7, 8, 9, 10].length ∧
    ∃ out, encryptEncPB [1, 2, 3, 4, 5, 6, 7, 8, 9, 10]
        (([1, 2, 3, 4, 5, 6, 7, 8, 9, 10] : List Nat).length : Int) = some out ∧
      out.length = [1, 2, 3, 4, 5, 6, 7, 8, 9, 10].length ∧
      (∀ i, i < 8 → out[[1, 2, 3, 4, 5, 6, 7, 8, 9, 10].length - 1 - i]? =
        some ([1, 2, 3, 4, 5, 6, 7, 8, 9, 10].getD i 0)) ∧
      (∀ i, 8 ≤ i → i < [1, 2, 3, 4, 5, 6, 7, 8, 9, 10].length →
        out[[1, 2, 3, 4, 5, 6, 7, 8, 9, 10].length - 1 - i]? =
          some ([1, 2, 3, 4, 5, 6, 7, 8, 9, 10].getD i 0 ^^^
            [1, 2, 3, 4, 5, 6, 7, 8, 9, 10].getD (i % 8) 0)) ∧
      out = ((List.range [1, 2, 3, 4, 5, 6, 7, 8, 9, 10].length).map (fun i =>
        if i < 8 then [1, 2, 3, 4, 5, 6, 7, 8, 9, 10].getD i 0
        else [1, 2, 3, 4, 5, 6, 7, 8, 9, 10].getD i 0 ^^^
          [1, 2, 3, 4, 5, 6, 7, 8, 9, 10].getD (i % 8) 0)).reverse ∧
      ∃ s' o, encryptEncPBMem [[7, 7], [1, 2, 3, 4, 5, 6, 7, 8, 9, 10]] 1
          (([1, 2, 3, 4, 5, 6, 7, 8, 9, 10] : List Nat).length : Int) = some (s', o) ∧
        s'[o]? = some out ∧ o ≠ 1 ∧ s'[1]? = some [1, 2, 3, 4, 5, 6, 7, 8, 9, 10] ∧
        (∀ b, b < ([[7, 7], [1, 2, 3, 4, 5, 6, 7, 8, 9, 10]] : Store).length →
          s'[b]? = ([[7, 7], [1, 2, 3, 4, 5, 6, 7, 8, 9, 10]] : Store)[b]?) :=
  ⟨rfl, by decide,
    C23_encryptEncPB_contents [[7, 7], [1, 2, 3, 4, 5, 6, 7, 8, 9, 10]] 1
      [1, 2, 3, 4, 5, 6, 7, 8, 9, 10] rfl (by decide)⟩

end Signer

/-! ## `ladon.go`: when `encryptLadon` fails -/

namespace Signer

theorem Result.ok_bind {α β : Type} (a : α) (f : α → Result β) :
    (Result.ok a >>= f) = f a := rfl

/-- A loop whose body returns a value on every state satisfying `P`, and keeps
`P`, returns a value satisfying `P`. -/
theorem foldlM_ok_invariant {α β : Type} (P : β → Prop) (f : β → α → Result β) (l : List α) :
    (∀ b, ∀ a ∈ l, P b → ∃ b', f b a = .ok b' ∧ P b') →
    ∀ b, P b → ∃ b', l.foldlM f b = .ok b' ∧ P b' := by
  induction l with
  | nil => intro _ b hb; exact ⟨b, rfl, hb⟩
  | cons a l ih =>
    intro h b hb
    obtain ⟨b1, hb1, hP1⟩ := h b a (by simp) hb
    obtain ⟨b2, hb2, hP2⟩ := ih (fun b x hx => h b x (by simp [hx])) b1 hP1
    exact ⟨b2, by rw [List.foldlM_cons, hb1, Result.ok_bind, hb2], hP2⟩

theorem getTypeData_ok (buf : List Nat) (index : Nat) (h : index * 8 + 8 ≤ buf.length) :
    getTypeData buf index "uint64_t" = .ok (getLE ((buf.drop (index * 8)).take 8)) := by
  unfold getTypeData
  rw [if_neg (by decide)]
  simp only []
  rw [if_neg (by omega)]

theorem setTypeData_ok (buf : List Nat) (index data : Nat) (h : index * 8 + 8 ≤ buf.length) :
    ∃ b, setTypeData buf index data "uint64_t" = .ok b ∧ b.length = buf.length := by
  unfold setTypeData
  rw [if_neg (by decide)]
  simp only []
  rw [if_neg (by omega)]
  refine ⟨_, rfl, ?_⟩
  simp only [List.length_append, List.length_take, List.length_drop, putLE_length]
  omega

/-- On a hash table of at least `0x22` words and a block of 16 bytes,
`encryptLadonInput` reads in range and returns 16 bytes. -/
theorem encryptLadonInput_ok (hashTable block : List Nat) (ht : 0x22 * 8 ≤ hashTable.length)
    (hb : block.length = 16) :
    ∃ enc, encryptLadonInput hashTable block = .ok enc ∧ enc.length = 16 := by
  obtain ⟨s, hs, _⟩ := foldlM_ok_invariant (fun _ => True) (encryptLadonInputRound hashTable)
    (List.range 0x22)
    (fun b i hi _ => by
      have := List.mem_range.mp hi
      unfold encryptLadonInputRound
      rw [getTypeData_ok hashTable i (by omega)]
      exact ⟨_, rfl, trivial⟩)
    (getLE (block.take 8), getLE ((block.drop 8).take 8)) trivial
  unfold encryptLadonInput
  rw [if_neg (by omega)]
  simp only []
  rw [hs]
  exact ⟨_, rfl, by simp [putLE_length]⟩

theorem scheduleStep_ok (st : KeyState) (i : Nat) (hi : i < 0x22)
    (h : st.hashTable.length = 288 ∧ st.temp.length = 2) :
    ∃ st', scheduleStep st i = .ok st' ∧ st'.hashTable.length = 288 ∧ st'.temp.length = 2 := by
  unfold scheduleStep
  simp only []
  obtain ⟨b, hb, hl⟩ := setTypeData_ok st.hashTable (i + 1)
    (validate (validate (validate ((validate (ror64 st.bufferB8 8) + st.bufferB0) % 2 ^ 64) ^^^ i)
      ^^^ ror64 st.bufferB0 61)) (by omega)
  rw [hb]
  cases ht : st.temp with
  | nil => rw [ht] at h; simp at h
  | cons t0 rest =>
    rw [ht] at h
    refine ⟨_, rfl, by simp only []; omega, ?_⟩
    show (rest ++ [_]).length = 2
    simp only [List.length_cons] at h
    simp only [List.length_append, List.length_singleton]
    omega

theorem paddingSize_eq (size : Nat) :
    encryptLadon.paddingSize size = if size % 16 = 0 then size else 16 * (size / 16 + 1) := by
  unfold encryptLadon.paddingSize
  simp only []
  split <;> split <;> omega

theorem pkcs7Pad_err (buf : List Nat) (size : Nat) (h : size % 16 = 0) :
    encryptLadon.pkcs7Pad buf size (encryptLadon.paddingSize size) 16 =
      .err "pkcs7Pad: data too large for buffer" := by
  unfold encryptLadon.pkcs7Pad
  rw [if_neg (by decide), paddingSize_eq, if_pos h]
  simp only []
  rw [if_pos (by omega)]

theorem pkcs7Pad_ok (buf : List Nat) (size : Nat) (h : size % 16 ≠ 0)
    (hb : buf.length = encryptLadon.paddingSize size) :
    ∃ b, encryptLadon.pkcs7Pad buf size (encryptLadon.paddingSize size) 16 =
      .ok (b, 16 - size % 16) ∧ b.length = buf.length := by
  obtain ⟨b, hfold, hl⟩ := foldlM_ok_invariant (fun (b : List Nat) => b.length = buf.length)
    (fun (b : List Nat) i =>
      if size + i < b.length then Result.ok (b.set (size + i) ((16 - size % 16) % 256))
      else Result.panic) (List.range (16 - size % 16))
    (fun b i hi hlen => by
      have := List.mem_range.mp hi
      rw [paddingSize_eq, if_neg h] at hb
      dsimp only
      rw [if_pos (by omega)]
      exact ⟨_, rfl, by simp [hlen]⟩) buf rfl
  unfold encryptLadon.pkcs7Pad
  rw [if_neg (by decide)]
  simp only []
  rw [if_neg (by rw [paddingSize_eq, if_neg h]; omega), hfold]
  exact ⟨b, rfl, hl⟩

theorem ladonBlockStep_ok (hashTable input output : List Nat) (i : Nat)
    (ht : 0x22 * 8 ≤ hashTable.length) (hin : (i + 1) * 16 ≤ input.length)
    (hout : (i + 1) * 16 ≤ output.length) :
    ∃ o, ladonBlockStep hashTable input output i = .ok o ∧ o.length = output.length := by
  unfold ladonBlockStep slice
  rw [if_pos ⟨by omega, hin⟩]
  simp only []
  obtain ⟨enc, he, hl⟩ := encryptLadonInput_ok hashTable ((input.drop (i * 16)).take
    ((i + 1) * 16 - i * 16)) ht (by simp only [List.length_take, List.length_drop]; omega)
  rw [he]
  simp only []
  unfold copyAt
  rw [if_pos (by omega)]
  refine ⟨_, rfl, ?_⟩
  simp only [List.length_append, List.length_take, List.length_drop, hl]
  omega

/-- The part of `encryptLadon` before the padding: for every `md5Hex` the hash
table has 288 bytes, the four reads and the `0x22` steps of the key schedule are
in range, and the function goes on with a hash table of 288 bytes. -/
theorem encryptLadon_schedule (md5Hex : List Nat) :
    ∃ b0 b8 temp st,
      (List.range 4).foldlM (fun (temp : List Nat) i =>
        match getTypeData (md5Hex.take 32 ++
            List.replicate (272 + 16 - (md5Hex.take 32).length) 0) i "uint64_t" with
        | .err m => Result.err m
        | .panic => Result.panic
        | .ok v => Result.ok (temp ++ [v])) [] = .ok (b0 :: b8 :: temp) ∧
      (List.range 0x22).foldlM scheduleStep
        ⟨md5Hex.take 32 ++ List.replicate (272 + 16 - (md5Hex.take 32).length) 0, b0, b8, temp⟩
        = .ok st ∧ st.hashTable.length = 288 := by
  have hlen : (md5Hex.take 32 ++
      List.replicate (272 + 16 - (md5Hex.take 32).length) 0).length = 288 := by
    simp only [List.length_append, List.length_replicate, List.length_take]
    omega
  generalize md5Hex.take 32 ++ List.replicate (272 + 16 - (md5Hex.take 32).length) 0 = ht
    at hlen
  have hr : List.range 4 = [0, 1, 2, 3] := by decide
  have hfirst : (List.range 4).foldlM (fun (temp : List Nat) i =>
        match getTypeData ht i "uint64_t" with
        | .err m => Result.err m
        | .panic => Result.panic
        | .ok v => Result.ok (temp ++ [v])) [] =
      .ok [getLE ((ht.drop (0 * 8)).take 8), getLE ((ht.drop (1 * 8)).take 8),
        getLE ((ht.drop (2 * 8)).take 8), getLE ((ht.drop (3 * 8)).take 8)] := by
    rw [hr]
    simp only [List.foldlM_cons, List.foldlM_nil, getTypeData_ok ht 0 (by omega),
      getTypeData_ok ht 1 (by omega), getTypeData_ok ht 2 (by omega),
      getTypeData_ok ht 3 (by omega), Result.ok_bind, List.nil_append, List.cons_append]
    rfl
  obtain ⟨st, hst, hl, _⟩ := foldlM_ok_invariant
    (fun st => st.hashTable.length = 288 ∧ st.temp.length = 2) scheduleStep (List.range 0x22)
    (fun st i hi h => scheduleStep_ok st i (List.mem_range.mp hi) h)
    ⟨ht, getLE ((ht.drop (0 * 8)).take 8), getLE ((ht.drop (1 * 8)).take 8),
      [getLE ((ht.drop (2 * 8)).take 8), getLE ((ht.drop (3 * 8)).take 8)]⟩ ⟨hlen, rfl⟩
  exact ⟨_, _, _, st, hfirst, hst, hl⟩

/-- With a plaintext whose length is a multiple of 16, `encryptLadon` returns
the error of its `pkcs7Pad`. -/
theorem encryptLadon_err (md5Hex data : List Nat) (h : data.length % 16 = 0) :
    encryptLadon md5Hex data = .err "pkcs7Pad: data too large for buffer" := by
  obtain ⟨b0, b8, temp, st, h1, h2, _⟩ := encryptLadon_schedule md5Hex
  unfold encryptLadon
  simp only []
  rw [h1]
  simp only []
  rw [h2]
  simp only []
  rw [if_pos (by rw [paddingSize_eq]; split <;> omega), pkcs7Pad_err _ _ h]

/-- With a plaintext of any other length `L`, `encryptLadon` returns
`16 * (L / 16 + 1)` bytes. -/
theorem encryptLadon_ok (md5Hex data : List Nat) (h : data.length % 16 ≠ 0) :
    ∃ out, encryptLadon md5Hex data = .ok out ∧ out.length = 16 * (data.length / 16 + 1) := by
  obtain ⟨b0, b8, temp, st, h1, h2, hl⟩ := encryptLadon_schedule md5Hex
  have hps : encryptLadon.paddingSize data.length = 16 * (data.length / 16 + 1) := by
    rw [paddingSize_eq, if_neg h]
  have hin : (data ++ List.replicate (encryptLadon.paddingSize data.length - data.length) 0).length
      = encryptLadon.paddingSize data.length := by
    simp only [List.length_append, List.length_replicate]
    omega
  obtain ⟨input, hpad, hil⟩ := pkcs7Pad_ok _ data.length h hin
  obtain ⟨out, hout, hol⟩ := foldlM_ok_invariant
    (fun (o : List Nat) => o.length = encryptLadon.paddingSize data.length)
    (ladonBlockStep st.hashTable input)
    (List.range (encryptLadon.paddingSize data.length / 16))
    (fun o i hi ho => by
      have := List.mem_range.mp hi
      obtain ⟨o', h', hl'⟩ := ladonBlockStep_ok st.hashTable input o i (by omega)
        (by rw [hil, hin]; omega) (by omega)
      exact ⟨o', h', by omega⟩)
    (List.replicate (encryptLadon.paddingSize data.length) 0) (by simp)
  refine ⟨out, ?_, by omega⟩
  unfold encryptLadon
  simp only []
  rw [h1]
  simp only []
  rw [h2]
  simp only []
  rw [if_pos (by omega), hpad]
  exact hout

theorem LadonEncryptWithRandom_err (E : Env) (khronos lcID aid : Int) (randomBytes : List Nat)
    (h : (ladonData khronos lcID aid).length % 16 = 0) :
    LadonEncryptWithRandom E khronos lcID aid randomBytes =
      .err "pkcs7Pad: data too large for buffer" := by
  unfold LadonEncryptWithRandom
  simp only []
  rw [encryptLadon_err _ _ h]

theorem LadonEncryptWithRandom_ok (E : Env) (khronos lcID aid : Int) (randomBytes : List Nat)
    (h : (ladonData khronos lcID aid).length % 16 ≠ 0) :
    ∃ cipher, encryptLadon (md5Bytes E (randomBytes ++ itoa aid)) (ladonData khronos lcID aid)
        = .ok cipher ∧
      cipher.length = 16 * ((ladonData khronos lcID aid).length / 16 + 1) ∧
      LadonEncryptWithRandom E khronos lcID aid randomBytes =
        .ok (E.base64Encode (randomBytes.take 4 ++
          List.replicate (4 - (randomBytes.take 4).length) 0 ++ cipher)) := by
  obtain ⟨cipher, hc, hl⟩ := encryptLadon_ok (md5Bytes E (randomBytes ++ itoa aid))
    (ladonData khronos lcID aid) h
  refine ⟨cipher, hc, hl, ?_⟩
  unfold LadonEncryptWithRandom
  simp only []
  rw [hc]

theorem ladonData_example : ladonData 1700000000 12 34 = str "1700000000-12-34" := by
  decide

/-- C25: `encryptLadon` returns an error if and only if the length of the
plaintext is a multiple of 16 (0 included), and the error is then
"pkcs7Pad: data too large for buffer"; for every other length `L` it returns
`16 * (L / 16 + 1)` bytes, so no index of the hash table is out of range and
nothing panics. `LadonEncryptWithRandom` fails on the same condition on its
plaintext `khronos-lcID-aid`: for 1700000000, 12 and 34 the plaintext is the
16 characters `1700000000-12-34` and the call fails with that error. -/
theorem C25_encryptLadon_error_iff (E : Env) (md5Hex data : List Nat) (khronos lcID aid : Int)
    (randomBytes : List Nat) :
    ((∃ m, encryptLadon md5Hex data = .err m) ↔ data.length % 16 = 0) ∧
    (data.length % 16 = 0 →
      encryptLadon md5Hex data = .err "pkcs7Pad: data too large for buffer") ∧
    (data.length % 16 ≠ 0 →
      ∃ out, encryptLadon md5Hex data = .ok out ∧ out.length = 16 * (data.length / 16 + 1)) ∧
    encryptLadon md5Hex data ≠ .panic ∧
    ((∃ m, LadonEncryptWithRandom E khronos lcID aid randomBytes = .err m) ↔
      (ladonData khronos lcID aid).length % 16 = 0) ∧
    LadonEncryptWithRandom E khronos lcID aid randomBytes ≠ .panic ∧
    ladonData 1700000000 12 34 = str "1700000000-12-34" ∧
    (ladonData 1700000000 12 34).length = 16 ∧
    LadonEncryptWithRandom E 1700000000 12 34 randomBytes =
      .err "pkcs7Pad: data too large for buffer" := by
  refine ⟨⟨?_, fun h => ⟨_, encryptLadon_err md5Hex data h⟩⟩, encryptLadon_err md5Hex data,
    encryptLadon_ok md5Hex data, ?_, ⟨?_, fun h => ⟨_, LadonEncryptWithRandom_err E _ _ _ _ h⟩⟩,
    ?_, ladonData_example, ?_, ?_⟩
  · rintro ⟨m, hm⟩
    by_contra h
    obtain ⟨out, ho, _⟩ := encryptLadon_ok md5Hex data h
    rw [ho] at hm
    cases hm
  · by_cases h : data.length % 16 = 0
    · rw [encryptLadon_err md5Hex data h]
      exact fun e => by cases e
    · obtain ⟨out, ho, _⟩ := encryptLadon_ok md5Hex data h
      rw [ho]
      exact fun e => by cases e
  · rintro ⟨m, hm⟩
    by_contra h
    obtain ⟨_, _, _, ho⟩ := LadonEncryptWithRandom_ok E khronos lcID aid randomBytes h
    rw [ho] at hm
    cases hm
  · by_cases h : (ladonData khronos lcID aid).length % 16 = 0
    · rw [LadonEncryptWithRandom_err E _ _ _ _ h]
      exact fun e => by cases e
    · obtain ⟨_, _, _, ho⟩ := LadonEncryptWithRandom_ok E khronos lcID aid randomBytes h
      rw [ho]
      exact fun e => by cases e
  · rw [ladonData_example]
    decide
  · exact LadonEncryptWithRandom_err E _ _ _ _ (by rw [ladonData_example]; decide)

end Signer

/-! ## `gorgon.go`: `GetValue` -/

namespace Signer

theorem hexLower_cons (x : Nat) (b : List Nat) :
    hexLower (x :: b) = hexDigit (x / 16 % 16) :: hexDigit (x % 16) :: hexLower b := by
  simp [hexLower]

theorem hexLower_length (b : List Nat) : (hexLower b).length = 2 * b.length := by
  induction b with
  | nil => rfl
  | cons x b ih => rw [hexLower_cons]; simp only [List.length_cons, ih]; omega

theorem hexDigit_isLowerHex (d : Nat) (h : d < 16) : isLowerHex (hexDigit d) := by
  unfold isLowerHex hexDigit
  split <;> omega

theorem hexLower_isLowerHex (b : List Nat) : ∀ c ∈ hexLower b, isLowerHex c := by
  induction b with
  | nil => intro c hc; simp [hexLower] at hc
  | cons x b ih =>
    intro c hc
    rw [hexLower_cons] at hc
    simp only [List.mem_cons] at hc
    rcases hc with h | h | h
    · rw [h]; exact hexDigit_isLowerHex _ (Nat.mod_lt _ (by norm_num))
    · rw [h]; exact hexDigit_isLowerHex _ (Nat.mod_lt _ (by norm_num))
    · exact ih c h

/-- The first `2 * n` digits of `hexLower b` are the digits of the first `n`
bytes of `b`. -/
theorem hexLower_take (n : Nat) : ∀ b : List Nat, (hexLower b).take (2 * n) = hexLower (b.take n) := by
  induction n with
  | zero => intro b; simp [hexLower]
  | succ n ih =>
    intro b
    cases b with
    | nil => simp [hexLower]
    | cons x b =>
      have e : 2 * (n + 1) = 2 * n + 1 + 1 := by omega
      rw [hexLower_cons, e, List.take_succ_cons, List.take_succ_cons, List.take_succ_cons,
        hexLower_cons, ih]

theorem md5Hex_length (E : Env) (hmd5 : ∀ d, (E.md5Sum d).length = 16) (s : List Nat) :
    (md5Hex E s).length = 32 := by
  unfold md5Hex
  rw [hexLower_length, hmd5]

/-- The loop over `j` of `Gorgon.encrypt` reads a `temp` of 8 characters in range
and appends 4 bytes. -/
theorem paramBytes_some (pl temp : List Nat) (h : temp.length = 8) :
    ∃ pl', paramBytes pl temp = some pl' ∧ pl'.length = pl.length + 4 := by
  have hs : ∀ j, j < 4 → slice temp (j * 2) ((j + 1) * 2) =
      some ((temp.drop (j * 2)).take ((j + 1) * 2 - j * 2)) := by
    intro j hj
    unfold slice
    rw [if_pos ⟨by omega, by omega⟩]
  have hr : List.range 4 = [0, 1, 2, 3] := by decide
  unfold paramBytes
  rw [hr]
  simp only [List.foldlM_cons, List.foldlM_nil, hs 0 (by omega), hs 1 (by omega),
    hs 2 (by omega), hs 3 (by omega), Option.bind_eq_bind, Option.some_bind, Option.pure_def]
  exact ⟨_, rfl, by simp⟩

/-- The loop over `i = 0, 4, 8` of `Gorgon.encrypt` reads the characters
`0..8`, `32..40` and `64..72` of `base`. -/
theorem paramLoop_windows (h1 h2 h3 : List Nat) (l1 : h1.length = 32) (l2 : h2.length = 32)
    (l3 : h3.length = 32) :
    paramLoop (h1 ++ h2 ++ h3) = (paramBytes [] (h1.take 8)).bind (fun pl =>
      (paramBytes pl (h2.take 8)).bind (fun pl => paramBytes pl (h3.take 8))) := by
  have s1 : slice (h1 ++ h2 ++ h3) (8 * 0) (8 * (0 + 1)) = some (h1.take 8) := by
    unfold slice
    rw [if_pos ⟨by omega, by simp only [List.length_append]; omega⟩]
    simp only [Nat.mul_zero, List.drop_zero, Nat.zero_add, Nat.mul_one, Nat.sub_zero,
      List.append_assoc]
    rw [List.take_append_of_le_length (by omega)]
  have s2 : slice (h1 ++ h2 ++ h3) (8 * 4) (8 * (4 + 1)) = some (h2.take 8) := by
    unfold slice
    rw [if_pos ⟨by omega, by simp only [List.length_append]; omega⟩]
    have e : 8 * 4 = h1.length := by omega
    rw [List.append_assoc, e, List.drop_left]
    have e2 : 8 * (4 + 1) - h1.length = 8 := by omega
    rw [e2, List.take_append_of_le_length (by omega)]
  have s3 : slice (h1 ++ h2 ++ h3) (8 * 8) (8 * (8 + 1)) = some (h3.take 8) := by
    unfold slice
    rw [if_pos ⟨by omega, by simp only [List.length_append]; omega⟩]
    have e : 8 * 8 = (h1 ++ h2).length := by simp only [List.length_append]; omega
    rw [e, List.drop_left]
    have e2 : 8 * (8 + 1) - (h1 ++ h2).length = 8 := by
      simp only [List.length_append]; omega
    rw [e2]
  unfold paramLoop
  simp only [List.foldlM_cons, List.foldlM_nil, s1, s2, s3, Option.bind_eq_bind,
    Option.some_bind, Option.pure_def, Option.bind_some]

theorem eorStep_some (paramList key eor : List Nat) (i : Nat) (hp : i < paramList.length)
    (hk : i < key.length) (he : i < eor.length) :
    ∃ e, eorStep paramList key eor i = some e ∧ e.length = eor.length := by
  refine ⟨eor.set i (paramList[i] ^^^ key[i]), ?_, by simp⟩
  simp [eorStep, List.getElem?_eq_getElem, hp, hk, he]

theorem transformStep_some (eor : List Nat) (i : Nat) (he : eor.length = 0x14) (hi : i < 0x14) :
    ∃ e, transformStep 0x14 eor i = some e ∧ e.length = eor.length := by
  have h1 : i < eor.length := by omega
  have h2 : (i + 1) % 0x14 < eor.length := by
    rw [he]
    exact Nat.mod_lt _ (by norm_num)
  unfold transformStep
  simp only [List.getElem?_eq_getElem h1, List.getElem?_eq_getElem h2, Option.bind_eq_bind,
    Option.some_bind]
  exact ⟨_, rfl, by simp⟩

/-- After a parameter list of 12 bytes, the two loops of `Gorgon.encrypt` over
the 20 bytes read and write in range. -/
theorem gorgonBytes_some (base : List Nat) (H : Nat) (pl : List Nat)
    (hpl : paramLoop base = some pl) (hl : pl.length = 12) :
    ∃ eor, gorgonBytes base H = some eor ∧ eor.length = 20 := by
  obtain ⟨e1, he1, hl1⟩ := foldlM_invariant (fun (e : List Nat) => e.length = 20)
    (eorStep (pl ++ [0x0, 0x6, 0x0B, 0x1C] ++
      [(H >>> 24) &&& 0xFF, (H >>> 16) &&& 0xFF, (H >>> 8) &&& 0xFF, H &&& 0xFF]) gorgonKey)
    (List.range 0x14)
    (fun e i hi he => by
      have := List.mem_range.mp hi
      obtain ⟨e', h', hl'⟩ := eorStep_some (pl ++ [0x0, 0x6, 0x0B, 0x1C] ++
        [(H >>> 24) &&& 0xFF, (H >>> 16) &&& 0xFF, (H >>> 8) &&& 0xFF, H &&& 0xFF]) gorgonKey
        e i (by simp only [List.length_append, List.length_cons, List.length_nil]; omega)
        (by simp only [gorgonKey, List.length_cons, List.length_nil]; omega) (by omega)
      exact ⟨e', h', by omega⟩)
    (List.replicate 0x14 0) (by simp)
  obtain ⟨e2, he2, hl2⟩ := foldlM_invariant (fun (e : List Nat) => e.length = 20)
    (transformStep 0x14) (List.range 0x14)
    (fun e i hi he => by
      obtain ⟨e', h', hl'⟩ := transformStep_some e i he (List.mem_range.mp hi)
      exact ⟨e', h', by omega⟩) e1 hl1
  refine ⟨e2, ?_, hl2⟩
  unfold gorgonBytes
  show (paramLoop base).bind (fun paramList =>
    (List.foldlM (eorStep (paramList ++ [0x0, 0x6, 0x0B, 0x1C] ++
      [(H >>> 24) &&& 0xFF, (H >>> 16) &&& 0xFF, (H >>> 8) &&& 0xFF, H &&& 0xFF]) gorgonKey)
      (List.replicate 0x14 0) (List.range 0x14)).bind (fun eor =>
        List.foldlM (transformStep 0x14) eor (List.range 0x14))) = some e2
  rw [hpl, Option.some_bind, he1, Option.some_bind]
  exact he2

/-- The three windows of the base string are the digits of `gorgonInputs`. -/
theorem paramLoop_getBaseString (E : Env) (g : Gorgon) (hmd5 : ∀ d, (E.md5Sum d).length = 16) :
    paramLoop (g.getBaseString E) =
      (paramBytes [] (hexLower (gorgonInputs E g).1)).bind (fun pl =>
        (paramBytes pl (hexLower (gorgonInputs E g).2.1)).bind (fun pl =>
          paramBytes pl (hexLower (gorgonInputs E g).2.2.1))) := by
  have hz : (List.replicate 32 48).take 8 = hexLower [0, 0, 0, 0] := by decide
  have hw : ∀ s, (md5Hex E s).take 8 = hexLower ((E.md5Sum s).take 4) := fun s =>
    hexLower_take 4 (E.md5Sum s)
  have hz32 : (List.replicate 32 48 : List Nat).length = 32 := by simp
  unfold Gorgon.getBaseString gorgonInputs
  simp only []
  by_cases hd : g.Data ≠ [] <;> by_cases hc : g.Cookies ≠ []
  · rw [if_pos hd, if_pos hc, if_pos hd, if_pos hc, paramLoop_windows _ _ _
      (md5Hex_length E hmd5 _) (md5Hex_length E hmd5 _) (md5Hex_length E hmd5 _), hw, hw, hw]
  · rw [if_pos hd, if_neg hc, if_pos hd, if_neg hc, paramLoop_windows _ _ _
      (md5Hex_length E hmd5 _) (md5Hex_length E hmd5 _) hz32, hw, hw, hz]
  · rw [if_neg hd, if_pos hc, if_neg hd, if_pos hc, paramLoop_windows _ _ _
      (md5Hex_length E hmd5 _) hz32 (md5Hex_length E hmd5 _), hw, hw, hz]
  · rw [if_neg hd, if_neg hc, if_neg hd, if_neg hc, paramLoop_windows _ _ _
      (md5Hex_length E hmd5 _) hz32 hz32, hw, hz]

theorem gorgonInputs_length (E : Env) (g : Gorgon) (hmd5 : ∀ d, (E.md5Sum d).length = 16) :
    (hexLower (gorgonInputs E g).1).length = 8 ∧ (hexLower (gorgonInputs E g).2.1).length = 8 ∧
    (hexLower (gorgonInputs E g).2.2.1).length = 8 := by
  unfold gorgonInputs
  simp only [hexLower_length]
  refine ⟨by rw [List.length_take, hmd5]; rfl, ?_, ?_⟩
  · split
    · rw [List.length_take, hmd5]; rfl
    · rfl
  · split
    · rw [List.length_take, hmd5]; rfl
    · rfl

/-- With digests of 16 bytes the loops of `Gorgon.encrypt` are in range. -/
theorem gorgonBytes_getBaseString (E : Env) (g : Gorgon)
    (hmd5 : ∀ d, (E.md5Sum d).length = 16) :
    ∃ eor, gorgonBytes (g.getBaseString E) (toUint32 g.Unix) = some eor ∧ eor.length = 20 := by
  obtain ⟨l1, l2, l3⟩ := gorgonInputs_length E g hmd5
  obtain ⟨p1, hp1, hl1⟩ := paramBytes_some [] _ l1
  obtain ⟨p2, hp2, hl2⟩ := paramBytes_some p1 _ l2
  obtain ⟨p3, hp3, hl3⟩ := paramBytes_some p2 _ l3
  have hpl : paramLoop (g.getBaseString E) = some p3 := by
    rw [paramLoop_getBaseString E g hmd5, hp1, Option.some_bind, hp2, Option.some_bind, hp3]
  exact gorgonBytes_some _ _ p3 hpl (by rw [hl3, hl2, hl1]; rfl)

/-- The bytes of `Gorgon.encrypt` are determined by `gorgonInputs`. -/
theorem gorgonBytes_congr (E E' : Env) (g g' : Gorgon) (hmd5 : ∀ d, (E.md5Sum d).length = 16)
    (hmd5' : ∀ d, (E'.md5Sum d).length = 16) (h : gorgonInputs E' g' = gorgonInputs E g) :
    gorgonBytes (g'.getBaseString E') (toUint32 g'.Unix) =
      gorgonBytes (g.getBaseString E) (toUint32 g.Unix) := by
  have hu : toUint32 g'.Unix = toUint32 g.Unix := by
    have := congrArg (fun x => x.2.2.2) h
    exact this
  unfold gorgonBytes
  rw [paramLoop_getBaseString E g hmd5, paramLoop_getBaseString E' g' hmd5', h, hu]

theorem toInt_toUint64 (i : Int) (h1 : -2 ^ 63 ≤ i) (h2 : i < 2 ^ 63) :
    toInt (toUint64 i) = i := by
  unfold toInt toUint64
  split <;> omega

/-- The headers of `Gorgon.GetValue`, with digests of 16 bytes. -/
theorem GetValue_eq (E : Env) (g : Gorgon) (hmd5 : ∀ d, (E.md5Sum d).length = 16) :
    ∃ eor, gorgonBytes (g.getBaseString E) (toUint32 g.Unix) = some eor ∧ eor.length = 20 ∧
      g.GetValue E = some (((Headers.empty.put "x-ss-req-ticket"
        (itoa (toInt (toUint64 (g.Unix * 1000))))).put "x-khronos" (itoa g.Unix)).put
        "x-gorgon" (str "0404b0d30000" ++ hexLower eor)) := by
  obtain ⟨eor, he, hl⟩ := gorgonBytes_getBaseString E g hmd5
  refine ⟨eor, he, hl, ?_⟩
  unfold Gorgon.GetValue Gorgon.encrypt
  rw [he]
  rfl

/-- C28: for every `Gorgon` value, with MD5 digests of 16 bytes, `GetValue`
reads and writes in range (it returns a map) and the map holds exactly three
headers: `x-ss-req-ticket`, the decimal form of the `int64` product
`Unix*1000` (of `Unix*1000` itself when it fits in an `int64`), `x-khronos`, the
decimal form of `Unix`, and `x-gorgon`, `0404b0d30000` followed by exactly 40
lower-case hexadecimal digits, 52 characters in all. The value of `x-gorgon` is
the same for any other `Gorgon` value with the same `gorgonInputs`: the first 4
bytes of each of the three MD5 digests (zero bytes for an empty `Data` or
`Cookies`) and the low 32 bits of `Unix`. -/
theorem C28_Gorgon_GetValue (E : Env) (g : Gorgon) (hmd5 : ∀ d, (E.md5Sum d).length = 16) :
    ∃ h hex, g.GetValue E = some h ∧
      h "x-ss-req-ticket" = some (itoa (toInt (toUint64 (g.Unix * 1000)))) ∧
      (-2 ^ 63 ≤ g.Unix * 1000 → g.Unix * 1000 < 2 ^ 63 →
        h "x-ss-req-ticket" = some (itoa (g.Unix * 1000))) ∧
      h "x-khronos" = some (itoa g.Unix) ∧
      h "x-gorgon" = some (str "0404b0d30000" ++ hex) ∧
      hex.length = 40 ∧ (∀ c ∈ hex, isLowerHex c) ∧
      (str "0404b0d30000" ++ hex).length = 52 ∧
      (∀ k, k ≠ "x-ss-req-ticket" → k ≠ "x-khronos" → k ≠ "x-gorgon" → h k = none) ∧
      (∀ (E' : Env) (g' : Gorgon), (∀ d, (E'.md5Sum d).length = 16) →
        gorgonInputs E' g' = gorgonInputs E g →
        ∃ h', g'.GetValue E' = some h' ∧ h' "x-gorgon" = h "x-gorgon") := by
  obtain ⟨eor, he, hl, hv⟩ := GetValue_eq E g hmd5
  have hlen : (hexLower eor).length = 40 := by rw [hexLower_length, hl]
  have ht : (((Headers.empty.put "x-ss-req-ticket"
      (itoa (toInt (toUint64 (g.Unix * 1000))))).put "x-khronos" (itoa g.Unix)).put
      "x-gorgon" (str "0404b0d30000" ++ hexLower eor)) "x-ss-req-ticket" =
      some (itoa (toInt (toUint64 (g.Unix * 1000)))) := by
    simp [Headers.put]
  refine ⟨_, hexLower eor, hv, ht, ?_, ?_, ?_, hlen, hexLower_isLowerHex eor, ?_, ?_, ?_⟩
  · intro h1 h2
    rw [ht, toInt_toUint64 _ h1 h2]
  · simp [Headers.put]
  · simp [Headers.put]
  · rw [List.length_append, hlen]
    rfl
  · intro k k1 k2 k3
    simp [Headers.put, Headers.empty, k1, k2, k3]
  · intro E' g' hmd5' hin
    obtain ⟨eor', he', _, hv'⟩ := GetValue_eq E' g' hmd5'
    rw [gorgonBytes_congr E E' g g' hmd5 hmd5' hin, he] at he'
    have e : eor' = eor := (Option.some.inj he').symm
    refine ⟨_, hv', ?_⟩
    rw [e]
    simp [Headers.put]

/-- C28 on the request `device_id=1` with the payload `x`, no cookie and the
time 1700000000, with the stand-ins of `sampleEnv`. -/
theorem C28_Gorgon_GetValue_witness :
    ∃ h hex, Gorgon.GetValue sampleEnv ⟨1700000000, str "device_id=1", str "x", []⟩ = some h ∧
      h "x-ss-req-ticket" = some (itoa (toInt (toUint64 ((1700000000 : Int) * 1000)))) ∧
      (-2 ^ 63 ≤ (1700000000 : Int) * 1000 → (1700000000 : Int) * 1000 < 2 ^ 63 →
        h "x-ss-req-ticket" = some (itoa ((1700000000 : Int) * 1000))) ∧
      h "x-khronos" = some (itoa 1700000000) ∧
      h "x-gorgon" = some (str "0404b0d30000" ++ hex) ∧
      hex.length = 40 ∧ (∀ c ∈ hex, isLowerHex c) ∧
      (str "0404b0d30000" ++ hex).length = 52 ∧
      (∀ k, k ≠ "x-ss-req-ticket" → k ≠ "x-khronos" → k ≠ "x-gorgon" → h k = none) ∧
      (∀ (E' : Env) (g' : Gorgon), (∀ d, (E'.md5Sum d).length = 16) →
        gorgonInputs E' g' =
          gorgonInputs sampleEnv ⟨1700000000, str "device_id=1", str "x", []⟩ →
        ∃ h', g'.GetValue E' = some h' ∧ h' "x-gorgon" = h "x-gorgon") :=
  C28_Gorgon_GetValue sampleEnv ⟨1700000000, str "device_id=1", str "x", []⟩ (fun _ => rfl)

end Signer

/-! ## `ttsig.go`: `SignRequest` -/

/-- The defaults of `SignRequest` change no field but the four defaulted ones and
`UnixTimestamp`; none of the other fields depends on the current time. -/
theorem applyDefaults_fields (now : Timestamp) (c : SignConfig) :
    (applyDefaults now c).RawRequestParameters = c.RawRequestParameters ∧
    (applyDefaults now c).RequestPayload = c.RequestPayload ∧
    (applyDefaults now c).SecDeviceID = c.SecDeviceID ∧
    (applyDefaults now c).Cookie = c.Cookie ∧
    (applyDefaults now c).Platform = c.Platform ∧
    (applyDefaults now c).AppID = (if c.AppID = 0 then 1233 else c.AppID) ∧
    (applyDefaults now c).LicenseID = (if c.LicenseID = 0 then 1611921764 else c.LicenseID) ∧
    (applyDefaults now c).SdkVersionString =
      (if c.SdkVersionString = [] then Signer.str "v05.00.06-ov-android"
        else c.SdkVersionString) ∧
    (applyDefaults now c).SdkVersionInt =
      (if c.SdkVersionInt = 0 then 167775296 else c.SdkVersionInt) := by
  unfold applyDefaults
  simp only []
  split_ifs <;> simp_all

/-- The body of `SignRequest` after the defaults, without a reference to the
current time. -/
theorem SignRequest_eq (E : Signer.Env) (now : Timestamp) (randRead : Except String (List Nat))
    (rnd : Int) (c : SignConfig) :
    SignRequest E now randRead rnd c =
      if c.RawRequestParameters = [] then .err "RawParams must not be empty"
      else if c.RequestPayload = [] then .err "Payload must not be empty"
      else
        match Signer.Gorgon.GetValue E ⟨c.UnixTimestamp.seconds, c.RawRequestParameters,
          c.RequestPayload, c.Cookie⟩ with
        | none => .panic
        | some gorgonHeader =>
          match Signer.Ladon.Encrypt E randRead c.UnixTimestamp.seconds
              (if c.LicenseID = 0 then 1611921764 else c.LicenseID)
              (if c.AppID = 0 then 1233 else c.AppID) with
          | .err m => .err m
          | .panic => .panic
          | .ok xLadon =>
            match Signer.GetSign E rnd c.RawRequestParameters (md5Upper E c.RequestPayload)
                c.UnixTimestamp.seconds (if c.AppID = 0 then 1233 else c.AppID)
                (if c.LicenseID = 0 then 1611921764 else c.LicenseID) c.Platform c.SecDeviceID
                (if c.SdkVersionString = [] then Signer.str "v05.00.06-ov-android"
                  else c.SdkVersionString)
                (if c.SdkVersionInt = 0 then 167775296 else c.SdkVersionInt) with
            | .error e => .err e.Msg.quote
            | .panic => .panic
            | .ok xArgus =>
              .ok ((((((gorgonHeader.put "x-khronos" (Signer.itoa c.UnixTimestamp.seconds)).put
                "x-ss-req-ticket" (Signer.itoa c.UnixTimestamp.millis)).put
                "content-length" (Signer.itoa c.RequestPayload.length)).put
                "x-ss-stub" (md5Upper E c.RequestPayload)).put
                "x-ladon" (Signer.str xLadon)).put "x-argus" (Signer.str xArgus)) := by
  obtain ⟨h1, h2, h3, h4, h5, h6, h7, h8, h9⟩ := applyDefaults_fields now c
  unfold SignRequest
  simp only [h1, h2, h3, h4, h5, h6, h7, h8, h9]

/-- A map returned by `Gorgon.GetValue` holds `x-gorgon`. -/
theorem GetValue_some_gorgon (E : Signer.Env) (g : Signer.Gorgon) (h : Signer.Headers)
    (hv : g.GetValue E = some h) : ∃ v, h "x-gorgon" = some v := by
  unfold Signer.Gorgon.GetValue Signer.Gorgon.encrypt at hv
  cases he : Signer.gorgonBytes (g.getBaseString E) (Signer.toUint32 g.Unix) with
  | none => rw [he] at hv; simp at hv
  | some eor =>
    rw [he] at hv
    simp only [Option.bind_eq_bind, Option.some_bind, Option.some.injEq] at hv
    rw [← hv]
    exact ⟨Signer.str "0404b0d30000" ++ Signer.hexLower eor, by simp [Signer.Headers.put]⟩

/-- What a successful call of `SignRequest` went through, and the map it
returns. -/
theorem SignRequest_ok_inv (E : Signer.Env) (now : Timestamp)
    (randRead : Except String (List Nat)) (rnd : Int) (c : SignConfig) (h : Signer.Headers)
    (hok : SignRequest E now randRead rnd c = .ok h) :
    c.RawRequestParameters ≠ [] ∧ c.RequestPayload ≠ [] ∧
    ∃ gorgonHeader xLadon xArgus,
      Signer.Gorgon.GetValue E ⟨c.UnixTimestamp.seconds, c.RawRequestParameters,
        c.RequestPayload, c.Cookie⟩ = some gorgonHeader ∧
      Signer.Ladon.Encrypt E randRead c.UnixTimestamp.seconds
        (if c.LicenseID = 0 then 1611921764 else c.LicenseID)
        (if c.AppID = 0 then 1233 else c.AppID) = .ok xLadon ∧
      Signer.GetSign E rnd c.RawRequestParameters (md5Upper E c.RequestPayload)
        c.UnixTimestamp.seconds (if c.AppID = 0 then 1233 else c.AppID)
        (if c.LicenseID = 0 then 1611921764 else c.LicenseID) c.Platform c.SecDeviceID
        (if c.SdkVersionString = [] then Signer.str "v05.00.06-ov-android"
          else c.SdkVersionString)
        (if c.SdkVersionInt = 0 then 167775296 else c.SdkVersionInt) = .ok xArgus ∧
      h = ((((((gorgonHeader.put "x-khronos" (Signer.itoa c.UnixTimestamp.seconds)).put
        "x-ss-req-ticket" (Signer.itoa c.UnixTimestamp.millis)).put
        "content-length" (Signer.itoa c.RequestPayload.length)).put
        "x-ss-stub" (md5Upper E c.RequestPayload)).put
        "x-ladon" (Signer.str xLadon)).put "x-argus" (Signer.str xArgus)) := by
  rw [SignRequest_eq] at hok
  by_cases hr : c.RawRequestParameters = []
  · rw [if_pos hr] at hok; cases hok
  by_cases hp : c.RequestPayload = []
  · rw [if_neg hr, if_pos hp] at hok; cases hok
  rw [if_neg hr, if_neg hp] at hok
  refine ⟨hr, hp, ?_⟩
  cases hg : Signer.Gorgon.GetValue E ⟨c.UnixTimestamp.seconds, c.RawRequestParameters,
      c.RequestPayload, c.Cookie⟩ with
  | none => rw [hg] at hok; cases hok
  | some gorgonHeader =>
    rw [hg] at hok
    simp only [] at hok
    cases hl : Signer.Ladon.Encrypt E randRead c.UnixTimestamp.seconds
        (if c.LicenseID = 0 then 1611921764 else c.LicenseID)
        (if c.AppID = 0 then 1233 else c.AppID) with
    | err m => rw [hl] at hok; cases hok
    | panic => rw [hl] at hok; cases hok
    | ok xLadon =>
      rw [hl] at hok
      simp only [] at hok
      cases ha : Signer.GetSign E rnd c.RawRequestParameters (md5Upper E c.RequestPayload)
          c.UnixTimestamp.seconds (if c.AppID = 0 then 1233 else c.AppID)
          (if c.LicenseID = 0 then 1611921764 else c.LicenseID) c.Platform c.SecDeviceID
          (if c.SdkVersionString = [] then Signer.str "v05.00.06-ov-android"
            else c.SdkVersionString)
          (if c.SdkVersionInt = 0 then 167775296 else c.SdkVersionInt) with
      | error e => rw [ha] at hok; cases hok
      | panic => rw [ha] at hok; cases hok
      | ok xArgus =>
        rw [ha] at hok
        simp only [Signer.Result.ok.injEq] at hok
        exact ⟨gorgonHeader, xLadon, xArgus, rfl, rfl, rfl, hok.symm⟩

/-- `SignRequest` does not depend on the current time. -/
theorem SignRequest_now (E : Signer.Env) (now now' : Timestamp)
    (randRead : Except String (List Nat)) (rnd : Int) (c : SignConfig) :
    SignRequest E now randRead rnd c = SignRequest E now' randRead rnd c := by
  rw [SignRequest_eq, SignRequest_eq]

/-- An empty `RawRequestParameters` or `RequestPayload` is answered by an error. -/
theorem SignRequest_empty_err (E : Signer.Env) (now : Timestamp)
    (randRead : Except String (List Nat)) (rnd : Int) (c : SignConfig) :
    (c.RawRequestParameters = [] →
      SignRequest E now randRead rnd c = .err "RawParams must not be empty") ∧
    (c.RawRequestParameters ≠ [] → c.RequestPayload = [] →
      SignRequest E now randRead rnd c = .err "Payload must not be empty") := by
  rw [SignRequest_eq]
  exact ⟨fun h => by rw [if_pos h], fun h1 h2 => by rw [if_neg h1, if_pos h2]⟩

/-- A map returned by `SignRequest` holds all seven headers, with the decimal
length of the payload as `content-length` and `md5Upper` of the payload as
`x-ss-stub`. -/
theorem SignRequest_ok_complete (E : Signer.Env) (now : Timestamp)
    (randRead : Except String (List Nat)) (rnd : Int) (c : SignConfig) (h : Signer.Headers)
    (hok : SignRequest E now randRead rnd c = .ok h) :
    (∃ v, h "x-ss-req-ticket" = some v) ∧ (∃ v, h "x-khronos" = some v) ∧
    h "content-length" = some (Signer.itoa c.RequestPayload.length) ∧
    h "x-ss-stub" = some (md5Upper E c.RequestPayload) ∧
    (∃ v, h "x-argus" = some v) ∧ (∃ v, h "x-gorgon" = some v) ∧
    (∃ v, h "x-ladon" = some v) := by
  obtain ⟨_, _, hg, xLadon, xArgus, hgv, _, _, hh⟩ := SignRequest_ok_inv E now randRead rnd c h hok
  obtain ⟨v, hv⟩ := GetValue_some_gorgon E _ hg hgv
  rw [hh]
  refine ⟨⟨Signer.itoa c.UnixTimestamp.millis, by simp [Signer.Headers.put]⟩,
    ⟨Signer.itoa c.UnixTimestamp.seconds, by simp [Signer.Headers.put]⟩,
    by simp [Signer.Headers.put], by simp [Signer.Headers.put],
    ⟨Signer.str xArgus, by simp [Signer.Headers.put]⟩, ⟨v, ?_⟩,
    ⟨Signer.str xLadon, by simp [Signer.Headers.put]⟩⟩
  simp [Signer.Headers.put, hv]

/-- The call of `Ladon.Encrypt` in `SignRequest` succeeds when `rand.Read` does
and the length of the plaintext is no multiple of 16. -/
theorem Ladon_Encrypt_ok (E : Signer.Env) (rb : List Nat) (khronos lcID aid : Int)
    (h : (Signer.ladonData khronos lcID aid).length % 16 ≠ 0) :
    ∃ s, Signer.Ladon.Encrypt E (.ok rb) khronos lcID aid = .ok s := by
  obtain ⟨_, _, _, ho⟩ := Signer.LadonEncryptWithRandom_ok E khronos lcID aid rb h
  exact ⟨_, ho⟩

/-- `SignRequest` returns a map when the query has a `device_id`, parameters and
payload are not empty, `rand.Read` succeeds and the length of the plaintext of
`x-ladon` is no multiple of 16. -/
theorem SignRequest_ok (E : Signer.Env) (now : Timestamp) (rb : List Nat) (rnd : Int)
    (c : SignConfig) (d : List Nat) (rest : List (List Nat))
    (hmd5 : ∀ x, (E.md5Sum x).length = 16)
    (hcbc : ∀ k v src, (E.cryptBlocks k v src).length = src.length)
    (hr : c.RawRequestParameters ≠ []) (hp : c.RequestPayload ≠ [])
    (hdev : E.parseQuery c.RawRequestParameters (Signer.str "device_id") = d :: rest)
    (hl : (Signer.ladonData c.UnixTimestamp.seconds
      (if c.LicenseID = 0 then 1611921764 else c.LicenseID)
      (if c.AppID = 0 then 1233 else c.AppID)).length % 16 ≠ 0) :
    ∃ h, SignRequest E now (.ok rb) rnd c = .ok h := by
  obtain ⟨_, _, _, hg⟩ := Signer.GetValue_eq E ⟨c.UnixTimestamp.seconds, c.RawRequestParameters,
    c.RequestPayload, c.Cookie⟩ hmd5
  obtain ⟨xl, hxl⟩ := Ladon_Encrypt_ok E rb _ _ _ hl
  obtain ⟨xa, hxa⟩ := Signer.GetSign_ok E rnd c.RawRequestParameters (md5Upper E c.RequestPayload)
    c.UnixTimestamp.seconds (if c.AppID = 0 then 1233 else c.AppID)
    (if c.LicenseID = 0 then 1611921764 else c.LicenseID) c.Platform c.SecDeviceID
    (if c.SdkVersionString = [] then Signer.str "v05.00.06-ov-android" else c.SdkVersionString)
    (if c.SdkVersionInt = 0 then 167775296 else c.SdkVersionInt) d rest hdev hmd5 hcbc
  rw [SignRequest_eq, if_neg hr, if_neg hp, hg]
  simp only []
  rw [hxl]
  simp only []
  rw [hxa]
  exact ⟨_, rfl⟩

/-- `SignRequest` panics when the query has no `device_id` and the steps before
`GetSign` succeed. -/
theorem SignRequest_panics (E : Signer.Env) (now : Timestamp) (rb : List Nat) (rnd : Int)
    (c : SignConfig) (hmd5 : ∀ x, (E.md5Sum x).length = 16)
    (hr : c.RawRequestParameters ≠ []) (hp : c.RequestPayload ≠ [])
    (hdev : E.parseQuery c.RawRequestParameters (Signer.str "device_id") = [])
    (hl : (Signer.ladonData c.UnixTimestamp.seconds
      (if c.LicenseID = 0 then 1611921764 else c.LicenseID)
      (if c.AppID = 0 then 1233 else c.AppID)).length % 16 ≠ 0) :
    SignRequest E now (.ok rb) rnd c = .panic := by
  obtain ⟨_, _, _, hg⟩ := Signer.GetValue_eq E ⟨c.UnixTimestamp.seconds, c.RawRequestParameters,
    c.RequestPayload, c.Cookie⟩ hmd5
  obtain ⟨xl, hxl⟩ := Ladon_Encrypt_ok E rb _ _ _ hl
  rw [SignRequest_eq, if_neg hr, if_neg hp, hg]
  simp only []
  rw [hxl]
  simp only []
  rw [Signer.GetSign_absent_panics E rnd _ _ _ _ _ _ _ _ _ hdev]

theorem sample_no_device_id :
    Signer.sampleEnv.parseQuery (Signer.str "aid=1233") (Signer.str "device_id") = [] := by
  decide

/-- C21 (failing input). With the parameters `aid=1233` (no `device_id`), the
payload `x` and the timestamp 1700000000, `SignRequest` returns neither an error
nor a header map: after `x-gorgon` and `x-ladon` are computed, the index
expression `params["device_id"][0]` of `GetSign` panics. The same holds for every
query without a `device_id` once the steps before `GetSign` have succeeded. An
empty `RawRequestParameters` or `RequestPayload`, checked by `SignRequest`
itself, is answered by an error. -/
theorem C21_SignRequest_panics_without_device_id :
    SignRequest Signer.sampleEnv (.other 1700000000 1700000000000) (.ok [1, 2, 3, 4]) 0
      { RawRequestParameters := Signer.str "aid=1233", RequestPayload := Signer.str "x",
        SecDeviceID := [], Cookie := [], AppID := 0, LicenseID := 0, SdkVersionString := [],
        SdkVersionInt := 0, Platform := 0,
        UnixTimestamp := .other 1700000000 1700000000000 } = .panic ∧
    (∀ (E : Signer.Env) (now : Timestamp) (rb : List Nat) (rnd : Int) (c : SignConfig),
      (∀ x, (E.md5Sum x).length = 16) → c.RawRequestParameters ≠ [] → c.RequestPayload ≠ [] →
      E.parseQuery c.RawRequestParameters (Signer.str "device_id") = [] →
      (Signer.ladonData c.UnixTimestamp.seconds
        (if c.LicenseID = 0 then 1611921764 else c.LicenseID)
        (if c.AppID = 0 then 1233 else c.AppID)).length % 16 ≠ 0 →
      SignRequest E now (.ok rb) rnd c = .panic) ∧
    (∀ (E : Signer.Env) (now : Timestamp) (randRead : Except String (List Nat)) (rnd : Int)
      (c : SignConfig), c.RawRequestParameters = [] →
      SignRequest E now randRead rnd c = .err "RawParams must not be empty") := by
  refine ⟨?_, SignRequest_panics, fun E now randRead rnd c h =>
    (SignRequest_empty_err E now randRead rnd c).1 h⟩
  exact SignRequest_panics Signer.sampleEnv _ _ _ _ (fun _ => rfl) (by decide) (by decide)
    sample_no_device_id (by decide)

/-- C27: when `SignRequest` is called with `UnixTimestamp = 0` and succeeds, the
headers have `x-khronos = "0"` and `x-ss-req-ticket = "0"`, and the three signers
were given the timestamp 0: `x-gorgon` is that of `Gorgon.GetValue` with
`Unix = 0`, `x-ladon` the result of `Ladon.Encrypt(0, ...)` and `x-argus` the
result of `GetSign(..., 0, ...)`. The current time `now`, which replaces the
zero timestamp after the seconds and milliseconds are computed, has no effect:
the call returns the same map for every value of it. -/
theorem C27_default_timestamp_never_applied (E : Signer.Env) (now : Timestamp)
    (randRead : Except String (List Nat)) (rnd : Int) (c : SignConfig) (h : Signer.Headers)
    (hz : c.UnixTimestamp = .zero) (hok : SignRequest E now randRead rnd c = .ok h) :
    h "x-khronos" = some (Signer.str "0") ∧ h "x-ss-req-ticket" = some (Signer.str "0") ∧
    (∃ gorgonHeader xLadon xArgus,
      Signer.Gorgon.GetValue E ⟨0, c.RawRequestParameters, c.RequestPayload, c.Cookie⟩ =
        some gorgonHeader ∧
      h "x-gorgon" = gorgonHeader "x-gorgon" ∧
      Signer.Ladon.Encrypt E randRead 0 (if c.LicenseID = 0 then 1611921764 else c.LicenseID)
        (if c.AppID = 0 then 1233 else c.AppID) = .ok xLadon ∧
      h "x-ladon" = some (Signer.str xLadon) ∧
      Signer.GetSign E rnd c.RawRequestParameters (md5Upper E c.RequestPayload) 0
        (if c.AppID = 0 then 1233 else c.AppID)
        (if c.LicenseID = 0 then 1611921764 else c.LicenseID) c.Platform c.SecDeviceID
        (if c.SdkVersionString = [] then Signer.str "v05.00.06-ov-android"
          else c.SdkVersionString)
        (if c.SdkVersionInt = 0 then 167775296 else c.SdkVersionInt) = .ok xArgus ∧
      h "x-argus" = some (Signer.str xArgus)) ∧
    (∀ now', SignRequest E now' randRead rnd c = .ok h) := by
  obtain ⟨_, _, hg, xLadon, xArgus, hgv, hlv, hav, hh⟩ :=
    SignRequest_ok_inv E now randRead rnd c h hok
  have hs : c.UnixTimestamp.seconds = 0 := by rw [hz]; rfl
  have hm : c.UnixTimestamp.millis = 0 := by rw [hz]; rfl
  have h0 : Signer.itoa 0 = Signer.str "0" := by decide
  rw [hs] at hgv hlv hav
  rw [hs, hm, h0] at hh
  refine ⟨by rw [hh]; simp [Signer.Headers.put], by rw [hh]; simp [Signer.Headers.put],
    ⟨hg, xLadon, xArgus, hgv, by rw [hh]; simp [Signer.Headers.put], hlv,
      by rw [hh]; simp [Signer.Headers.put], hav, by rw [hh]; simp [Signer.Headers.put]⟩, ?_⟩
  intro now'
  rw [SignRequest_now E now' now, hok]

/-- C27 on the request `device_id=123456789` with the payload `x`, every other
field zero, at the current time 1700000000, with the stand-ins of `sampleEnv`. -/
theorem C27_default_timestamp_never_applied_witness :
    ∃ h, SignRequest Signer.sampleEnv (.other 1700000000 1700000000000) (.ok [1, 2, 3, 4]) 0
        ⟨Signer.str "device_id=123456789", Signer.str "x", [], [], 0, 0, [], 0, 0, .zero⟩
        = .ok h ∧
      h "x-khronos" = some (Signer.str "0") ∧ h "x-ss-req-ticket" = some (Signer.str "0") ∧
      (∀ now', SignRequest Signer.sampleEnv now' (.ok [1, 2, 3, 4]) 0
        ⟨Signer.str "device_id=123456789", Signer.str "x", [], [], 0, 0, [], 0, 0, .zero⟩
        = .ok h) := by
  obtain ⟨h, hh⟩ := SignRequest_ok Signer.sampleEnv (.other 1700000000 1700000000000)
    [1, 2, 3, 4] 0
    ⟨Signer.str "device_id=123456789", Signer.str "x", [], [], 0, 0, [], 0, 0, .zero⟩
    (Signer.str "123456789") [] (fun _ => rfl) (fun _ _ _ => rfl) (by decide) (by decide)
    Signer.sample_device_id (by decide)
  have := C27_default_timestamp_never_applied Signer.sampleEnv (.other 1700000000 1700000000000)
    (.ok [1, 2, 3, 4]) 0
    ⟨Signer.str "device_id=123456789", Signer.str "x", [], [], 0, 0, [], 0, 0, .zero⟩ h rfl hh
  exact ⟨h, hh, this.1, this.2.1, this.2.2.2⟩

end Ttsig
